import Mathlib

/-!
# The stateless DEFLATE decoder of `igzip/igzip_inflate.c`

A shallow embedding of the decoder: every C function of the file is a Lean
function of the same name over an explicit `inflate_state`.

Conventions of the embedding.

* Machine integers are natural numbers (or `Int` for the signed
  `read_in_length`) with the reduction `% 2 ^ w` written where the C type
  truncates.
* Memory is a function from byte offsets to values.  `in_mem` is the memory
  `next_in` points into and `out_mem` the memory `next_out` points into; the
  pointers are offsets from `in_stream` and `out_stream`.  A read outside the
  caller's buffer therefore yields whatever the memory function holds there:
  the theorems say where they depend on it.
* C arrays are functions from indices; an index past the declared size is not
  trapped, the theorems on array bounds speak about the indices themselves.
* `while` loops whose trip count is not evident take a `fuel` argument and
  return `none` when it runs out; theorems that state a result are proved for
  every fuel above an explicit bound.
* `DECODE_LOOKUP_SIZE` is defined in a header that is not part of the sources;
  it is the parameter `dls` of the functions that use it.
-/

namespace Igzip

/-! ## Constants and types of the missing headers -/

/-- Modelled from the spec: `MAX_HUFF_TREE_DEPTH` of huff_codes.h, "15 (DEFLATE limit)". -/
def MAX_HUFF_TREE_DEPTH : Nat := 15

/-- Modelled from the spec: `LIT_LEN` of huff_codes.h, "286 literal/length alphabet size". -/
def LIT_LEN : Nat := 286

/-- Modelled from the spec: `DIST_LEN` of huff_codes.h, "30 distance alphabet size". -/
def DIST_LEN : Nat := 30

/-- Modelled from the spec: `CODE_LEN_CODES` of huff_codes.h, 19. -/
def CODE_LEN_CODES : Nat := 19

/-- Modelled from the spec: `DEFLATE_CODE_MAX_LENGTH` of inflate.h, 15. -/
def DEFLATE_CODE_MAX_LENGTH : Nat := 15

/-- Modelled from the spec: the status codes of inflate.h (spec section 6).
`DECOMPRESSION_FINISHED` is the value 0, which the internal functions also
return for "no error"; the other codes are distinct and non-zero. -/
inductive Status where
  | DECOMPRESSION_FINISHED
  | END_OF_INPUT
  | INVALID_BLOCK_HEADER
  | INVALID_NON_COMPRESSED_BLOCK_LENGTH
  | OUT_BUFFER_OVERFLOW
  | INVALID_LOOK_BACK_DISTANCE
  | INVALID_SYMBOL
  deriving DecidableEq, Repr

/-- Modelled from the spec: `struct huff_code` of huff_codes.h, a code and its
length (the code is compared with `0xFFFF`, so it is a 16-bit field). -/
structure huff_code where
  code : Nat
  length : Nat
  deriving DecidableEq, Repr

/-- Modelled from the spec: `struct inflate_huff_code` of inflate.h (spec
section 3): the short table and the long-code table, 16-bit entries. -/
structure inflate_huff_code where
  small_code_lookup : Nat → Nat
  long_code_lookup : Nat → Nat

/-- Modelled from the spec: `struct inflate_state` of inflate.h (spec section 3).
`read_in` is a 64-bit register, `read_in_length` is signed, `avail_in` has the
32 bits of the `in_size` argument of `isal_inflate_init`; the output counters
are wide enough for its `out_size` argument and are never reduced here.
`in_mem` and `out_mem` are the memories the two pointers range over, and
`stack_junk` is the indeterminate initial content of the local
`inflate_code_huff` of `setup_dynamic_header`. -/
structure inflate_state where
  in_mem : Nat → Nat
  out_mem : Nat → Nat
  next_out : Nat
  avail_out : Nat
  total_out : Nat
  next_in : Nat
  read_in : Nat
  avail_in : Nat
  read_in_length : Int
  lit_huff_code : inflate_huff_code
  dist_huff_code : inflate_huff_code
  new_block : Nat
  bfinal : Nat
  btype : Nat
  stack_junk : inflate_huff_code

/-- The array or memory `f` after `f[i] = v`. -/
def store {α : Type} (f : Nat → α) (i : Nat) (v : α) : Nat → α :=
  fun k => if k = i then v else f k

/-- The byte at offset `p`: `*(uint8_t *) p`. -/
def load_u8 (mem : Nat → Nat) (p : Nat) : Nat := mem p % 256

/-- Little-endian `*(uint16_t *) p`. -/
def load_u16 (mem : Nat → Nat) (p : Nat) : Nat :=
  load_u8 mem p + 256 * load_u8 mem (p + 1)

/-- Little-endian `*(uint64_t *) p`. -/
def load_u64 (mem : Nat → Nat) (p : Nat) : Nat :=
  load_u8 mem p + 256 * (load_u8 mem (p + 1) + 256 * (load_u8 mem (p + 2) +
    256 * (load_u8 mem (p + 3) + 256 * (load_u8 mem (p + 4) + 256 * (load_u8 mem (p + 5) +
    256 * (load_u8 mem (p + 6) + 256 * load_u8 mem (p + 7)))))))

/-! ## The RFC 1951 tables (`rfc_lookup_table`) -/

/-- The field `dist_extra_bit_count` of `rfc_lookup_table`. -/
def dist_extra_bit_count : List Nat :=
  [0x00, 0x00, 0x00, 0x00, 0x01, 0x01, 0x02, 0x02,
   0x03, 0x03, 0x04, 0x04, 0x05, 0x05, 0x06, 0x06,
   0x07, 0x07, 0x08, 0x08, 0x09, 0x09, 0x0a, 0x0a,
   0x0b, 0x0b, 0x0c, 0x0c, 0x0d, 0x0d, 0x00, 0x00]

/-- The field `dist_start` of `rfc_lookup_table`. -/
def dist_start : List Nat :=
  [0x0001, 0x0002, 0x0003, 0x0004, 0x0005, 0x0007, 0x0009, 0x000d,
   0x0011, 0x0019, 0x0021, 0x0031, 0x0041, 0x0061, 0x0081, 0x00c1,
   0x0101, 0x0181, 0x0201, 0x0301, 0x0401, 0x0601, 0x0801, 0x0c01,
   0x1001, 0x1801, 0x2001, 0x3001, 0x4001, 0x6001, 0x0000, 0x0000]

/-- The field `len_extra_bit_count` of `rfc_lookup_table`. -/
def len_extra_bit_count : List Nat :=
  [0x00, 0x00, 0x00, 0x00, 0x00, 0x00, 0x00, 0x00,
   0x01, 0x01, 0x01, 0x01, 0x02, 0x02, 0x02, 0x02,
   0x03, 0x03, 0x03, 0x03, 0x04, 0x04, 0x04, 0x04,
   0x05, 0x05, 0x05, 0x05, 0x00, 0x00, 0x00, 0x00]

/-- The field `len_start` of `rfc_lookup_table`. -/
def len_start : List Nat :=
  [0x0003, 0x0004, 0x0005, 0x0006, 0x0007, 0x0008, 0x0009, 0x000a,
   0x000b, 0x000d, 0x000f, 0x0011, 0x0013, 0x0017, 0x001b, 0x001f,
   0x0023, 0x002b, 0x0033, 0x003b, 0x0043, 0x0053, 0x0063, 0x0073,
   0x0083, 0x00a3, 0x00c3, 0x00e3, 0x0102, 0x0000, 0x0000, 0x0000]

/-! ## Copies -/

/-- The loop of `byte_copy`: `repeat_length` times `*dest++ = *src++`. -/
def byte_copy_loop (mem : Nat → Nat) (dest src : Nat) : Nat → (Nat → Nat)
  | 0 => mem
  | n + 1 => byte_copy_loop (store mem dest (mem src)) (dest + 1) (src + 1) n

/-- `byte_copy(dest, lookback_distance, repeat_length)` on the memory `mem`:
`src = dest - lookback_distance`, then the forward byte loop. -/
def byte_copy (mem : Nat → Nat) (dest lookback_distance repeat_length : Nat) : Nat → Nat :=
  byte_copy_loop mem dest (dest - lookback_distance) repeat_length

/-- `memcpy(dest, src, n)` from the memory `from_mem` into the memory `mem`
(the two regions do not overlap): the `n` bytes are read before any is
written. -/
def memcpy (mem from_mem : Nat → Nat) (dest src n : Nat) : Nat → Nat :=
  fun k => if dest ≤ k ∧ k < dest + n then from_mem (src + (k - dest)) else mem k

/-! ## Bit reversal -/

/-- The four swap steps of `bit_reverse2` on the `uint16_t` `bits`: bits,
pairs, nibbles, bytes. -/
def bit_swap16 (bits : Nat) : Nat :=
  let b1 := (((bits >>> 1) &&& 0x55555555) ||| ((bits &&& 0x55555555) <<< 1)) % 65536
  let b2 := (((b1 >>> 2) &&& 0x33333333) ||| ((b1 &&& 0x33333333) <<< 2)) % 65536
  let b3 := (((b2 >>> 4) &&& 0x0F0F0F0F) ||| ((b2 &&& 0x0F0F0F0F) <<< 4)) % 65536
  (((b3 >>> 8) &&& 0x00FF00FF) ||| ((b3 &&& 0x00FF00FF) <<< 8)) % 65536

/-- `bit_reverse2(bits, length)`: the four swap steps, then the shift by
`16 - length`. -/
def bit_reverse2 (bits length : Nat) : Nat :=
  bit_swap16 bits >>> (16 - length)

/-! ## The bit reader -/

/-- The byte-at-a-time loop of `inflate_in_load`:
`while (read_in_length < 57 && avail_in > 0)`.  The first argument bounds the
trip count; `inflate_in_load` passes `avail_in`, which drops by one per trip. -/
def inflate_in_load_loop : Nat → inflate_state → inflate_state
  | 0, s => s
  | n + 1, s =>
    if s.read_in_length < 57 ∧ 0 < s.avail_in then
      inflate_in_load_loop n
        { s with
          read_in := (s.read_in ||| (load_u8 s.in_mem s.next_in <<< s.read_in_length.toNat))
            % 2 ^ 64
          next_in := s.next_in + 1
          avail_in := s.avail_in - 1
          read_in_length := s.read_in_length + 8 }
    else s

/-- `inflate_in_load(state, min_required)`. -/
def inflate_in_load (s : inflate_state) (_min_required : Nat) : inflate_state :=
  if 8 ≤ s.avail_in then
    let new_bytes := ((8 - (s.read_in_length + 7).tdiv 8) % 256).toNat
    let temp := load_u64 s.in_mem s.next_in
    { s with
      read_in := (s.read_in ||| (temp <<< s.read_in_length.toNat)) % 2 ^ 64
      next_in := s.next_in + new_bytes
      avail_in := (s.avail_in + 2 ^ 32 - new_bytes) % 2 ^ 32
      read_in_length := s.read_in_length + new_bytes * 8 }
  else
    inflate_in_load_loop s.avail_in s

/-- `inflate_in_read_bits(state, bit_count)`: the value returned and the state
left. -/
def inflate_in_read_bits (s : inflate_state) (bit_count : Nat) : Nat × inflate_state :=
  let s1 := if s.read_in_length < bit_count then inflate_in_load s bit_count else s
  (s1.read_in &&& ((1 <<< bit_count) - 1),
   { s1 with
     read_in := s1.read_in >>> bit_count
     read_in_length := s1.read_in_length - bit_count })

/-! ## The Huffman table builder -/

/-- The initial `next_code` array of `make_inflate_huff_code`:
`next_code[0] = 0` and `next_code[i] = (next_code[i - 1] + count[i - 1]) << 1`
as a `uint16_t`. -/
def next_code_init (count : Nat → Nat) : Nat → Nat
  | 0 => 0
  | i + 1 => ((next_code_init count i + count i) <<< 1) % 65536

/-- The innermost loop of the first pass: for `j < n`,
`small_code_lookup[(j << length) + code] = val`. -/
def fill_small (small : Nat → Nat) (code length val : Nat) : Nat → (Nat → Nat)
  | 0 => small
  | j + 1 => store (fill_small small code length val j) ((j <<< length) + code) val

/-- The variables of the first loop of `make_inflate_huff_code`. -/
structure huff_build where
  next_code : Nat → Nat
  table : Nat → huff_code
  small : Nat → Nat
  long_code_list : List Nat

/-- The body of the first loop of `make_inflate_huff_code` for symbol `i`. -/
def assign_step (dls : Nat) (b : huff_build) (i : Nat) : huff_build :=
  let len := (b.table i).length
  if len ≠ 0 then
    let code := bit_reverse2 (b.next_code len) len
    let table := store b.table i { code := code, length := len }
    let next_code := store b.next_code len ((b.next_code len + 1) % 65536)
    if len ≤ dls then
      { next_code := next_code
        table := table
        small := fill_small b.small code len ((i ||| (len <<< 9)) % 65536) (1 <<< (dls - len))
        long_code_list := b.long_code_list }
    else
      { next_code := next_code
        table := table
        small := b.small
        long_code_list := b.long_code_list ++ [i] }
  else b

/-- The first loop of `make_inflate_huff_code` after `n` trips
(`for (i = 0; i < table_length; i++)`). -/
def assign_codes (dls : Nat) (b0 : huff_build) : Nat → huff_build
  | 0 => b0
  | n + 1 => assign_step dls (assign_codes dls b0 n) n

/-- The body of the loop that gathers a long-code group: the running
`max_length` and `temp_code_list` after looking at the list element `sym`. -/
def collect_step (dls : Nat) (table : Nat → huff_code) (first_bits : Nat)
    (acc : Nat × List Nat) (sym : Nat) : Nat × List Nat :=
  if (table sym).code &&& ((1 <<< dls) - 1) = first_bits then
    (if acc.1 < (table sym).length then (table sym).length else acc.1, acc.2 ++ [sym])
  else acc

/-- The loop `for (; long_bits < limit; long_bits += min_increment)` writing
`val` at `long_code_lookup[base + long_bits]`; `long_bits` is a `uint16_t`.
The first argument bounds the trip count (`limit` is passed: the increment is
at least one). -/
def fill_long : Nat → (Nat → Nat) → Nat → Nat → Nat → Nat → Nat → (Nat → Nat)
  | 0, long, _, _, _, _, _ => long
  | n + 1, long, base, long_bits, min_increment, limit, val =>
    if long_bits < limit then
      fill_long n (store long (base + long_bits) val) base
        ((long_bits + min_increment) % 65536) min_increment limit val
    else long

/-- The body of the loop over `temp_code_list`: fill the region for `sym` and
mark its code with the sentinel `0xFFFF`. -/
def long_step (dls max_length base : Nat) (acc : (Nat → huff_code) × (Nat → Nat))
    (sym : Nat) : (Nat → huff_code) × (Nat → Nat) :=
  let code_length := (acc.1 sym).length
  let long_bits := (acc.1 sym).code >>> dls
  let min_increment := (1 <<< (code_length - dls)) % 65536
  (store acc.1 sym { code := 0xFFFF, length := code_length },
   fill_long (1 <<< (max_length - dls)) acc.2 base long_bits min_increment
     (1 <<< (max_length - dls)) ((sym ||| (code_length <<< 9)) % 65536))

/-- The `max_length` and `temp_code_list` gathered for the group of the list
element at position `i`. -/
def collect_group (dls : Nat) (table : Nat → huff_code) (list : List Nat) (i : Nat) :
    Nat × List Nat :=
  (list.drop (i + 1)).foldl
    (collect_step dls table ((table (list.getD i 0)).code &&& ((1 <<< dls) - 1)))
    ((table (list.getD i 0)).length, [list.getD i 0])

/-- The variables of the second loop of `make_inflate_huff_code`. -/
structure long_build where
  table : Nat → huff_code
  small : Nat → Nat
  long : Nat → Nat
  long_code_lookup_length : Nat

/-- The body of the second loop of `make_inflate_huff_code` for the list
position `i`. -/
def long_codes_step (dls : Nat) (list : List Nat) (b : long_build) (i : Nat) : long_build :=
  if (b.table (list.getD i 0)).code = 0xFFFF then b
  else
    let first_bits := (b.table (list.getD i 0)).code &&& ((1 <<< dls) - 1)
    let g := collect_group dls b.table list i
    let r := g.2.foldl (long_step dls g.1 b.long_code_lookup_length) (b.table, b.long)
    { table := r.1
      small := store b.small first_bits
        ((b.long_code_lookup_length ||| (g.1 <<< 9) ||| 0x8000) % 65536)
      long := r.2
      long_code_lookup_length := b.long_code_lookup_length + (1 <<< (g.1 - dls)) }

/-- The second loop of `make_inflate_huff_code` after `n` trips
(`for (i = 0; i < long_code_length; i++)`). -/
def long_codes (dls : Nat) (list : List Nat) (b0 : long_build) : Nat → long_build
  | 0 => b0
  | n + 1 => long_codes_step dls list (long_codes dls list b0 n) n

/-- The state of the first loop of `make_inflate_huff_code` when it ends. -/
def make_inflate_huff_code_first (dls : Nat) (result : inflate_huff_code)
    (huff_code_table : Nat → huff_code) (table_length : Nat) (count : Nat → Nat) : huff_build :=
  assign_codes dls
    { next_code := next_code_init count
      table := huff_code_table
      small := result.small_code_lookup
      long_code_list := [] }
    table_length

/-- The state of the second loop of `make_inflate_huff_code` when it ends. -/
def make_inflate_huff_code_second (dls : Nat) (result : inflate_huff_code)
    (huff_code_table : Nat → huff_code) (table_length : Nat) (count : Nat → Nat) : long_build :=
  let b1 := make_inflate_huff_code_first dls result huff_code_table table_length count
  long_codes dls b1.long_code_list
    { table := b1.table
      small := b1.small
      long := result.long_code_lookup
      long_code_lookup_length := 0 }
    b1.long_code_list.length

/-- `make_inflate_huff_code(result, huff_code_table, table_length, count)`:
the tables left in `*result`, whose previous content is the argument `result`
(the function writes only the entries of the codes it is given). -/
def make_inflate_huff_code (dls : Nat) (result : inflate_huff_code)
    (huff_code_table : Nat → huff_code) (table_length : Nat) (count : Nat → Nat) :
    inflate_huff_code :=
  let b2 := make_inflate_huff_code_second dls result huff_code_table table_length count
  { small_code_lookup := b2.small, long_code_lookup := b2.long }

/-- The array `lit_code` of `setup_static_header` after its four loops. -/
def static_lit_code (i : Nat) : huff_code :=
  { code := 0
    length := if i < 144 then 8 else if i < 256 then 9 else if i < 280 then 7
              else if i < LIT_LEN + 2 then 8 else 0 }

/-- The array `dist_code` of `setup_static_header` after its loop. -/
def static_dist_code (i : Nat) : huff_code :=
  { code := 0, length := if i < DIST_LEN + 2 then 5 else 0 }

/-- The array `lit_count` of `setup_static_header`. -/
def static_lit_count (i : Nat) : Nat :=
  [0, 0, 0, 0, 0, 0, 0, 24, 152, 112, 0, 0, 0, 0, 0, 0].getD i 0

/-- The array `dist_count` of `setup_static_header`. -/
def static_dist_count (i : Nat) : Nat :=
  [0, 0, 0, 0, 0, 32, 0, 0, 0, 0, 0, 0, 0, 0, 0, 0].getD i 0

/-- `setup_static_header(state)`; it returns 0. -/
def setup_static_header (dls : Nat) (s : inflate_state) : inflate_state :=
  { s with
    lit_huff_code :=
      make_inflate_huff_code dls s.lit_huff_code static_lit_code (LIT_LEN + 2) static_lit_count
    dist_huff_code :=
      make_inflate_huff_code dls s.dist_huff_code static_dist_code (DIST_LEN + 2)
        static_dist_count }

/-! ## Single-symbol decode -/

/-- `decode_next(state, huff_code)`: the symbol returned and the state left. -/
def decode_next (dls : Nat) (s : inflate_state) (huff_code : inflate_huff_code) :
    Nat × inflate_state :=
  let s1 := if s.read_in_length ≤ DEFLATE_CODE_MAX_LENGTH then inflate_in_load s 0 else s
  let next_bits := (s1.read_in &&& ((1 <<< dls) - 1)) % 65536
  let next_sym := huff_code.small_code_lookup next_bits
  if next_sym < 0x8000 then
    let bit_count := next_sym >>> 9
    (next_sym &&& 0x1FF,
     { s1 with
       read_in := s1.read_in >>> bit_count
       read_in_length := s1.read_in_length - bit_count })
  else
    let bit_mask := (1 <<< ((next_sym - 0x8000) >>> 9)) - 1
    let next_bits2 := (s1.read_in &&& bit_mask) % 65536
    let next_sym2 := huff_code.long_code_lookup ((next_sym &&& 0x1FF) + (next_bits2 >>> dls))
    let bit_count := next_sym2 >>> 9
    (next_sym2 &&& 0x1FF,
     { s1 with
       read_in := s1.read_in >>> bit_count
       read_in_length := s1.read_in_length - bit_count })

/-! ## Header decoding -/

/-- The constant `code_length_code_order` of `setup_dynamic_header`. -/
def code_length_code_order : List Nat :=
  [0x10, 0x11, 0x12, 0x00, 0x08, 0x07, 0x09, 0x06,
   0x0a, 0x05, 0x0b, 0x04, 0x0c, 0x03, 0x0d, 0x02,
   0x0e, 0x01, 0x0f]

/-- The variables of the loop of `setup_dynamic_header` that reads the
code-length code: the state, `code_huff` and `code_count`. -/
structure code_len_vars where
  s : inflate_state
  code_huff : Nat → huff_code
  code_count : Nat → Nat

/-- The loop `for (i = 0; i < hclen + 4; i++)` of `setup_dynamic_header` after
`n` trips. -/
def read_code_lengths (v0 : code_len_vars) : Nat → code_len_vars
  | 0 => v0
  | n + 1 =>
    let v := read_code_lengths v0 n
    let r := inflate_in_read_bits v.s 3
    let idx := code_length_code_order.getD n 0
    let len := r.1 % 256
    { s := r.2
      code_huff := store v.code_huff idx { code := (v.code_huff idx).code, length := len }
      code_count := store v.code_count len ((v.code_count len + 1) % 65536) }

/-- The variables of the main loop of `setup_dynamic_header`.  `current` and
`previous` are indices into `lit_and_dist_huff` (`previous = none` is the
`NULL` pointer) and `count_is_dist` says that `count` points to `dist_count`. -/
structure dyn_vars where
  s : inflate_state
  lit_and_dist_huff : Nat → huff_code
  lit_count : Nat → Nat
  dist_count : Nat → Nat
  count_is_dist : Bool
  current : Nat
  previous : Option Nat

/-- The statement `count[len]++` on the counter `count` points to. -/
def dyn_count_incr (v : dyn_vars) (len : Nat) : dyn_vars :=
  if v.count_is_dist then
    { v with dist_count := store v.dist_count len ((v.dist_count len + 1) % 65536) }
  else
    { v with lit_count := store v.lit_count len ((v.lit_count len + 1) % 65536) }

/-- The cursor move shared by the three repeat loops:
`if (current == lit_and_dist_huff + 256 + hlit) { current = lit_and_dist_huff + LIT_LEN;
count = dist_count; } else current++`. -/
def dyn_advance (hlit : Nat) (v : dyn_vars) : dyn_vars :=
  if v.current = 256 + hlit then { v with current := LIT_LEN, count_is_dist := true }
  else { v with current := v.current + 1 }

/-- The loop of symbol 16 after `n` trips: `*current = *previous;
count[current->length]++; previous = current;` and the cursor move. -/
def dyn_repeat_previous (hlit : Nat) (v0 : dyn_vars) : Nat → dyn_vars
  | 0 => v0
  | n + 1 =>
    let v := dyn_repeat_previous hlit v0 n
    let prev := v.lit_and_dist_huff (v.previous.getD 0)
    let v1 := { v with lit_and_dist_huff := store v.lit_and_dist_huff v.current prev }
    let v2 := dyn_count_incr v1 prev.length
    dyn_advance hlit { v2 with previous := some v2.current }

/-- The loop of symbols 17 and 18 after `n` trips: `previous = current;` and
the cursor move. -/
def dyn_repeat_zero (hlit : Nat) (v0 : dyn_vars) : Nat → dyn_vars
  | 0 => v0
  | n + 1 =>
    let v := dyn_repeat_zero hlit v0 n
    dyn_advance hlit { v with previous := some v.current }

/-- What one trip of the main loop of `setup_dynamic_header` does: it returns
from the function with a status, or it goes on with the next trip. -/
inductive DynStep where
  | ret : Status → dyn_vars → DynStep
  | next : dyn_vars → DynStep

/-- The two tests that open the body of the main loop of
`setup_dynamic_header`: the jump of `current` from the end of the literal/length
lengths to `lit_and_dist_huff + LIT_LEN`, and the switch of `count`. -/
def dyn_enter (hlit : Nat) (v : dyn_vars) : dyn_vars :=
  let v1 := if v.current = 257 + hlit then { v with current := LIT_LEN } else v
  if v1.current = LIT_LEN then { v1 with count_is_dist := true } else v1

/-- The statements of the main loop of `setup_dynamic_header` for a symbol
below 16: `count[symbol]++; current->length = symbol; previous = current;
current++`. -/
def dyn_set_length (v : dyn_vars) (symbol : Nat) : dyn_vars :=
  let v4 := dyn_count_incr v symbol
  { v4 with
    lit_and_dist_huff := store v4.lit_and_dist_huff v4.current
      { code := (v4.lit_and_dist_huff v4.current).code, length := symbol % 256 }
    previous := some v4.current
    current := v4.current + 1 }

/-- The body of the main loop of `setup_dynamic_header`. -/
def dyn_body (dls : Nat) (code : inflate_huff_code) (hlit : Nat) (v : dyn_vars) : DynStep :=
  let v2 := dyn_enter hlit v
  let r := decode_next dls v2.s code
  let symbol := r.1
  let v3 := { v2 with s := r.2 }
  if r.2.read_in_length < 0 then DynStep.ret Status.END_OF_INPUT v3
  else if symbol < 16 then DynStep.next (dyn_set_length v3 symbol)
  else if symbol = 16 then
    if v3.previous = none then DynStep.ret Status.INVALID_BLOCK_HEADER v3
    else
      let b := inflate_in_read_bits v3.s 2
      DynStep.next (dyn_repeat_previous hlit { v3 with s := b.2 } (3 + b.1))
  else if symbol = 17 then
    let b := inflate_in_read_bits v3.s 3
    DynStep.next (dyn_repeat_zero hlit { v3 with s := b.2 } (3 + b.1))
  else if symbol = 18 then
    let b := inflate_in_read_bits v3.s 7
    DynStep.next (dyn_repeat_zero hlit { v3 with s := b.2 } (11 + b.1))
  else DynStep.ret Status.INVALID_BLOCK_HEADER v3

/-- The main loop of `setup_dynamic_header`,
`while (current < lit_and_dist_huff + LIT_LEN + hdist + 1)`.  The result is the
status the function returns from inside the loop, or 0 when the loop ends, with
the variables at that point; `none` when the fuel runs out. -/
def dyn_loop (dls : Nat) (code : inflate_huff_code) (hlit hdist : Nat) :
    Nat → dyn_vars → Option (Status × dyn_vars)
  | 0, _ => none
  | fuel + 1, v =>
    if v.current < LIT_LEN + hdist + 1 then
      match dyn_body dls code hlit v with
      | DynStep.ret e w => some (e, w)
      | DynStep.next w => dyn_loop dls code hlit hdist fuel w
    else some (Status.DECOMPRESSION_FINISHED, v)

/-- The all-zero `struct huff_code` array left by `memset`. -/
def zero_huff_table : Nat → huff_code := fun _ => { code := 0, length := 0 }

/-- The variables of `setup_dynamic_header` when its main loop starts. -/
def dyn_start (s : inflate_state) : dyn_vars :=
  { s := s
    lit_and_dist_huff := zero_huff_table
    lit_count := fun _ => 0
    dist_count := fun _ => 0
    count_is_dist := false
    current := 0
    previous := none }

/-- The end of `setup_dynamic_header`, after its main loop: the last underflow
test and the two calls of `make_inflate_huff_code`. -/
def dyn_finish (dls : Nat) (v : dyn_vars) : Status × inflate_state :=
  if v.s.read_in_length < 0 then (Status.END_OF_INPUT, v.s)
  else
    (Status.DECOMPRESSION_FINISHED,
      { v.s with
        lit_huff_code :=
          make_inflate_huff_code dls v.s.lit_huff_code v.lit_and_dist_huff LIT_LEN v.lit_count
        dist_huff_code :=
          make_inflate_huff_code dls v.s.dist_huff_code
            (fun i => v.lit_and_dist_huff (LIT_LEN + i)) DIST_LEN v.dist_count })

/-- The variables of `setup_dynamic_header` after `hlit`, `hdist`, `hclen` and
the `hclen + 4` lengths of the code-length code are read. -/
def dyn_code_lengths (s : inflate_state) : code_len_vars :=
  read_code_lengths
    { s := (inflate_in_read_bits (inflate_in_read_bits (inflate_in_read_bits s 5).2 5).2 4).2
      code_huff := zero_huff_table
      code_count := fun _ => 0 }
    ((inflate_in_read_bits (inflate_in_read_bits (inflate_in_read_bits s 5).2 5).2 4).1 % 256 + 4)

/-- `setup_dynamic_header(state)`: the status returned and the state left;
`none` when the fuel of the main loop runs out.  `hlit`, `hdist` and `hclen`
are `uint8_t`. -/
def setup_dynamic_header (dls : Nat) (fuel : Nat) (s : inflate_state) :
    Option (Status × inflate_state) :=
  let hlit := (inflate_in_read_bits s 5).1 % 256
  let hdist := (inflate_in_read_bits (inflate_in_read_bits s 5).2 5).1 % 256
  let c := dyn_code_lengths s
  if c.s.read_in_length < 0 then some (Status.END_OF_INPUT, c.s)
  else
    match dyn_loop dls
        (make_inflate_huff_code dls s.stack_junk c.code_huff CODE_LEN_CODES c.code_count)
        hlit hdist fuel (dyn_start c.s) with
    | none => none
    | some (Status.DECOMPRESSION_FINISHED, v) => some (dyn_finish dls v)
    | some (e, v) => some (e, v.s)

/-- `read_header(state)`: the status returned and the state left. -/
def read_header (dls : Nat) (fuel : Nat) (s : inflate_state) : Option (Status × inflate_state) :=
  let r1 := inflate_in_read_bits { s with new_block := 0 } 1
  let s1 := { r1.2 with bfinal := r1.1 % 256 }
  let r2 := inflate_in_read_bits s1 2
  let s2 := { r2.2 with btype := r2.1 % 256 }
  if s2.read_in_length < 0 then some (Status.END_OF_INPUT, s2)
  else if s2.btype = 0 then
    let bytes := ((s2.read_in_length.tdiv 8) % 256).toNat
    some (Status.DECOMPRESSION_FINISHED,
      { s2 with
        read_in := 0
        read_in_length := 0
        next_in := s2.next_in - bytes
        avail_in := (s2.avail_in + bytes) % 2 ^ 32 })
  else if s2.btype = 1 then some (Status.DECOMPRESSION_FINISHED, setup_static_header dls s2)
  else if s2.btype = 2 then setup_dynamic_header dls fuel s2
  else some (Status.INVALID_BLOCK_HEADER, s2)

/-! ## Block decoding -/

/-- The tail of `decode_literal_block`, from the `memcpy` on, for the value
`len` has at that point: the copy, the cursor updates and the final test. -/
def decode_literal_copy (s : inflate_state) (len : Nat) : Status × inflate_state :=
  if (s.avail_in + 2 ^ 32 - (len + 4)) % 2 ^ 32 = 0 ∧ s.new_block = 0 then
    (Status.END_OF_INPUT,
      { s with
        out_mem := memcpy s.out_mem s.in_mem s.next_out s.next_in len
        next_out := s.next_out + len
        avail_out := s.avail_out - len
        total_out := s.total_out + len
        next_in := s.next_in + len
        avail_in := (s.avail_in + 2 ^ 32 - (len + 4)) % 2 ^ 32 })
  else
    (Status.DECOMPRESSION_FINISHED,
      { s with
        out_mem := memcpy s.out_mem s.in_mem s.next_out s.next_in len
        next_out := s.next_out + len
        avail_out := s.avail_out - len
        total_out := s.total_out + len
        next_in := s.next_in + len
        avail_in := (s.avail_in + 2 ^ 32 - (len + 4)) % 2 ^ 32 })

/-- `decode_literal_block(state)`: the status returned and the state left.
`len` and `nlen` are `uint16_t`, so `~nlen & 0xffff` is `65535 - nlen`. -/
def decode_literal_block (s : inflate_state) : Status × inflate_state :=
  if s.avail_in < 4 then (Status.END_OF_INPUT, s)
  else if load_u16 s.in_mem s.next_in ≠ 65535 - load_u16 s.in_mem (s.next_in + 2) then
    (Status.INVALID_NON_COMPRESSED_BLOCK_LENGTH, { s with next_in := s.next_in + 4 })
  else if s.avail_out < load_u16 s.in_mem s.next_in then
    (Status.OUT_BUFFER_OVERFLOW, { s with next_in := s.next_in + 4 })
  else if s.avail_in < load_u16 s.in_mem s.next_in then
    decode_literal_copy { s with next_in := s.next_in + 4 } (s.avail_in % 65536)
  else
    decode_literal_copy { s with next_in := s.next_in + 4, new_block := 1 }
      (load_u16 s.in_mem s.next_in)

/-- What one trip of a decoding loop does: it returns from the function with
a status, or it goes on with the next trip. -/
inductive Step where
  | ret : Status → inflate_state → Step
  | next : inflate_state → Step

/-- The length part of a length/distance pair in
`decode_huffman_code_block_stateless_base`: `repeat_length` (a `uint32_t`) for
the length symbol `next_lit`, and the state after its extra bits are read. -/
def decode_length (s : inflate_state) (next_lit : Nat) : Nat × inflate_state :=
  let b := inflate_in_read_bits s (len_extra_bit_count.getD (next_lit - 257) 0)
  ((len_start.getD (next_lit - 257) 0 + b.1) % 2 ^ 32, b.2)

/-- The distance part of a length/distance pair in
`decode_huffman_code_block_stateless_base`: `look_back_dist` (a `uint32_t`),
from the distance symbol `next_dist` (a `uint8_t`) and its extra bits, and the
state after they are read. -/
def decode_distance (dls : Nat) (s : inflate_state) : Nat × inflate_state :=
  let d := decode_next dls s s.dist_huff_code
  let next_dist := d.1 % 256
  let e := inflate_in_read_bits d.2 (dist_extra_bit_count.getD next_dist 0)
  ((dist_start.getD next_dist 0 + e.1) % 2 ^ 32, e.2)

/-- The copy step of `decode_huffman_code_block_stateless_base` on the output
memory: `memcpy` when `look_back_dist > repeat_length`, `byte_copy` otherwise. -/
def back_copy (out : Nat → Nat) (next_out look_back_dist repeat_length : Nat) : Nat → Nat :=
  if look_back_dist > repeat_length then
    memcpy out out next_out (next_out - look_back_dist) repeat_length
  else byte_copy out next_out look_back_dist repeat_length

/-- The body of the `while (state->new_block == 0)` loop of
`decode_huffman_code_block_stateless_base`. -/
def decode_huffman_body (dls : Nat) (s : inflate_state) : Step :=
  let r := decode_next dls s s.lit_huff_code
  let next_lit := r.1
  let s1 := r.2
  if s1.read_in_length < 0 then Step.ret Status.END_OF_INPUT s1
  else if next_lit < 256 then
    if s1.avail_out < 1 then Step.ret Status.OUT_BUFFER_OVERFLOW s1
    else
      Step.next
        { s1 with
          out_mem := store s1.out_mem s1.next_out next_lit
          next_out := s1.next_out + 1
          avail_out := s1.avail_out - 1
          total_out := s1.total_out + 1 }
  else if next_lit = 256 then Step.next { s1 with new_block := 1 }
  else if next_lit < 286 then
    let l := decode_length s1 next_lit
    let repeat_length := l.1
    let s2 := l.2
    if s2.avail_out < repeat_length then Step.ret Status.OUT_BUFFER_OVERFLOW s2
    else
      let d := decode_distance dls s2
      let look_back_dist := d.1
      let s3 := d.2
      if s3.read_in_length < 0 then Step.ret Status.END_OF_INPUT s3
      else if look_back_dist > s3.total_out then Step.ret Status.INVALID_LOOK_BACK_DISTANCE s3
      else
        Step.next
          { s3 with
            out_mem := back_copy s3.out_mem s3.next_out look_back_dist repeat_length
            next_out := s3.next_out + repeat_length
            avail_out := s3.avail_out - repeat_length
            total_out := s3.total_out + repeat_length }
  else Step.ret Status.INVALID_SYMBOL s1

/-- `decode_huffman_code_block_stateless_base(state)`: the status returned and
the state left; `none` when the fuel of the loop runs out. -/
def decode_huffman_code_block_stateless_base (dls : Nat) :
    Nat → inflate_state → Option (Status × inflate_state)
  | 0, _ => none
  | fuel + 1, s =>
    if s.new_block = 0 then
      match decode_huffman_body dls s with
      | Step.ret e s1 => some (e, s1)
      | Step.next s1 => decode_huffman_code_block_stateless_base dls fuel s1
    else some (Status.DECOMPRESSION_FINISHED, s)

/-! ## The driver -/

/-- `isal_inflate_init(state, in_stream, in_size, out_stream, out_size)`.  The
two streams are the offsets 0 of `in_mem` and `out_mem`; the fields the function
does not assign keep the value they have in `state`. -/
def isal_inflate_init (state : inflate_state) (in_mem : Nat → Nat) (in_size : Nat)
    (out_mem : Nat → Nat) (out_size : Nat) : inflate_state :=
  { state with
    in_mem := in_mem
    out_mem := out_mem
    read_in := 0
    read_in_length := 0
    next_in := 0
    avail_in := in_size
    next_out := 0
    avail_out := out_size
    total_out := 0
    new_block := 1
    bfinal := 0 }

/-- The body of the loop of `isal_inflate_stateless`, with
`decode_huffman_code_block_stateless` taken to be
`decode_huffman_code_block_stateless_base`: the header when a block starts, then
the block.  The result is the first non-zero status, or 0 and the state after
the block; `none` when the fuel of an inner loop runs out. -/
def inflate_block (dls fuel : Nat) (s : inflate_state) : Option (Status × inflate_state) :=
  match (if s.new_block ≠ 0 then read_header dls fuel s
         else some (Status.DECOMPRESSION_FINISHED, s)) with
  | none => none
  | some (Status.DECOMPRESSION_FINISHED, s1) =>
    if s1.btype = 0 then some (decode_literal_block s1)
    else decode_huffman_code_block_stateless_base dls fuel s1
  | some (e, s1) => some (e, s1)

/-- `isal_inflate_stateless(state)`: the status returned and the state left;
`none` when the fuel runs out.  The fuel bounds the trips of this loop and is
handed to the loops of the functions it calls. -/
def isal_inflate_stateless (dls : Nat) : Nat → inflate_state → Option (Status × inflate_state)
  | 0, _ => none
  | fuel + 1, s =>
    if s.new_block = 0 ∨ s.bfinal = 0 then
      match inflate_block dls (fuel + 1) s with
      | none => none
      | some (Status.DECOMPRESSION_FINISHED, s2) => isal_inflate_stateless dls fuel s2
      | some (e, s2) => some (e, s2)
    else
      let bytes := s.read_in_length.tdiv 8
      some (Status.DECOMPRESSION_FINISHED,
        { s with
          next_in := ((s.next_in : Int) - bytes).toNat
          avail_in := (((s.avail_in : Int) + bytes) % 2 ^ 32).toNat })

/-! ## Vocabulary of the statements -/

/-- The memory that holds the bytes `bytes` from offset 0 on (and 0 after them). -/
def mem_of (bytes : List Nat) : Nat → Nat := fun i => bytes.getD i 0

/-- The memory `mem` holds the bytes `bytes` at the offsets `0 .. |bytes| - 1`;
nothing is said about the memory after them. -/
def Holds (mem : Nat → Nat) (bytes : List Nat) : Prop :=
  ∀ i, i < bytes.length → mem i = bytes.getD i 0

/-- The first `total_out` bytes of the output buffer. -/
def output (s : inflate_state) : List Nat := (List.range s.total_out).map s.out_mem

/-- The status of a run, when it returns. -/
def status_of (r : Option (Status × inflate_state)) : Option Status := r.map Prod.fst

/-- Bit `k` of the input read as an LSB-first bit stream: bit `k % 8` of the
byte at offset `k / 8`. -/
def sbit (mem : Nat → Nat) (k : Nat) : Bool := (load_u8 mem (k / 8)).testBit (k % 8)

/-- The integer whose bit `j`, for `j < n`, is `f (P + j)`. -/
def bits_val (f : Nat → Bool) (P : Nat) : Nat → Nat
  | 0 => 0
  | n + 1 => bits_val f P n + 2 ^ n * (f (P + n)).toNat

/-- The integer whose bit `j`, for `j < n`, is stream bit `P + j`. -/
def sval (mem : Nat → Nat) (P n : Nat) : Nat := bits_val (sbit mem) P n

/-- Little-endian value of the `n` bytes at offset `p`. -/
def load_le (mem : Nat → Nat) (p : Nat) : Nat → Nat
  | 0 => 0
  | n + 1 => load_u8 mem p + 256 * load_le mem (p + 1) n

/-- The bit reader of `s` stands at bit `P` of an input that ends at byte `E`:
`read_in` holds the `read_in_length` stream bits from `P` on, bytes
`next_in .. E - 1` are still to be loaded, and every further bit set in
`read_in` is a bit of the stream before byte `E` (the 8-byte load brings in
more bits than it counts). -/
structure Reads (s : inflate_state) (P E : Nat) : Prop where
  len_nonneg : 0 ≤ s.read_in_length
  len_le : s.read_in_length ≤ 64
  pos : (P : Int) + s.read_in_length = 8 * (s.next_in : Int)
  fin : s.next_in + s.avail_in = E
  avail : s.avail_in < 2 ^ 32
  lt : s.read_in < 2 ^ 64
  valid : ∀ j : Nat, (j : Int) < s.read_in_length →
    s.read_in.testBit j = sbit s.in_mem (P + j)
  junk : ∀ j : Nat, s.read_in.testBit j = true →
    sbit s.in_mem (P + j) = true ∧ P + j < 8 * E

/-- The state `t` differs from `s` at most in the fields of the bit reader
(`read_in`, `read_in_length`, `next_in`, `avail_in`). -/
structure ReaderOnly (s t : inflate_state) : Prop where
  in_mem : t.in_mem = s.in_mem
  out_mem : t.out_mem = s.out_mem
  next_out : t.next_out = s.next_out
  avail_out : t.avail_out = s.avail_out
  total_out : t.total_out = s.total_out
  lit_huff_code : t.lit_huff_code = s.lit_huff_code
  dist_huff_code : t.dist_huff_code = s.dist_huff_code
  new_block : t.new_block = s.new_block
  bfinal : t.bfinal = s.bfinal
  btype : t.btype = s.btype
  stack_junk : t.stack_junk = s.stack_junk

/-- A table with all entries zero. -/
def zero_code : inflate_huff_code :=
  { small_code_lookup := fun _ => 0, long_code_lookup := fun _ => 0 }

/-- A state with every field zero, to call `isal_inflate_init` on. -/
def blank_state : inflate_state :=
  { in_mem := fun _ => 0
    out_mem := fun _ => 0
    next_out := 0
    avail_out := 0
    total_out := 0
    next_in := 0
    read_in := 0
    avail_in := 0
    read_in_length := 0
    lit_huff_code := zero_code
    dist_huff_code := zero_code
    new_block := 0
    bfinal := 0
    btype := 0
    stack_junk := zero_code }

/-- The final stored block holding `x`: the header byte `0x01`, `len` and
`nlen = ~len` in little-endian order, then the bytes of `x`. -/
def stored_block (x : List Nat) : List Nat :=
  [1, x.length % 256, x.length / 256, 255 - x.length % 256, 255 - x.length / 256] ++ x

/-- The symbol `next_lit` that the body of the block loop decodes first. -/
def pair_symbol (dls : Nat) (s : inflate_state) : Nat :=
  (decode_next dls s s.lit_huff_code).1

/-- The state of the block loop after `next_lit` is decoded. -/
def state_after_symbol (dls : Nat) (s : inflate_state) : inflate_state :=
  (decode_next dls s s.lit_huff_code).2

/-- The `repeat_length` the body computes when `next_lit` is a length symbol. -/
def pair_length (dls : Nat) (s : inflate_state) : Nat :=
  (decode_length (state_after_symbol dls s) (pair_symbol dls s)).1

/-- The state of the block loop after the length extra bits are read. -/
def state_after_length (dls : Nat) (s : inflate_state) : inflate_state :=
  (decode_length (state_after_symbol dls s) (pair_symbol dls s)).2

/-- The `look_back_dist` the body computes after the length. -/
def pair_distance (dls : Nat) (s : inflate_state) : Nat :=
  (decode_distance dls (state_after_length dls s)).1

/-- The state of the block loop after the distance and its extra bits are read. -/
def state_after_pair (dls : Nat) (s : inflate_state) : inflate_state :=
  (decode_distance dls (state_after_length dls s)).2

/-- A state in the middle of a Huffman block, for the witnesses: every
literal/length lookup gives length symbol 257 with a 1-bit code, every distance
lookup gives distance symbol 0 with a 1-bit code; one byte `'a'` has been
written, three bytes of output are left and the input is four zero bytes. -/
def pair_state : inflate_state :=
  { blank_state with
    out_mem := mem_of [97]
    next_out := 1
    avail_out := 3
    total_out := 1
    avail_in := 4
    lit_huff_code := { small_code_lookup := fun _ => 257 ||| (1 <<< 9), long_code_lookup := fun _ => 0 }
    dist_huff_code := { small_code_lookup := fun _ => 0 ||| (1 <<< 9), long_code_lookup := fun _ => 0 } }

/-- The state `t` has the output memory and output counters of `s`. -/
structure OutSame (s t : inflate_state) : Prop where
  out_mem : t.out_mem = s.out_mem
  next_out : t.next_out = s.next_out
  avail_out : t.avail_out = s.avail_out
  total_out : t.total_out = s.total_out

/-- The output accounting of a run that started with capacity `cap` on the
output memory `out0`: `next_out` is `total_out` bytes after `out_stream`,
`total_out + avail_out` is the capacity, and no byte at or after offset
`total_out` has been written. -/
structure OutInv (cap : Nat) (out0 : Nat → Nat) (s : inflate_state) : Prop where
  next_out : s.next_out = s.total_out
  sum : s.total_out + s.avail_out = cap
  rest : ∀ k, s.total_out ≤ k → s.out_mem k = out0 k

/-- The number of symbols `i < n` whose length is `L`, for a non-zero `L`
(symbols of length 0 get no code). -/
def cnt (lens : Nat → Nat) (L : Nat) : Nat → Nat
  | 0 => 0
  | n + 1 => cnt lens L n + (if lens n = L ∧ L ≠ 0 then 1 else 0)

/-- The code the first loop of `make_inflate_huff_code` stores for symbol `i`:
the bit reversal of the start value of its length plus the number of earlier
symbols of that length. -/
def code_at (nc0 : Nat → Nat) (lens : Nat → Nat) (i : Nat) : Nat :=
  bit_reverse2 ((nc0 (lens i) + cnt lens (lens i) i) % 65536) (lens i)

/-- The entry of `small_code_lookup[idx]` after the first loop of
`make_inflate_huff_code` has handled the symbols below `n`: the entry of the
last symbol whose pattern covers `idx`, or the previous content. -/
def small_after (dls : Nat) (nc0 : Nat → Nat) (lens : Nat → Nat) (small0 : Nat → Nat) :
    Nat → Nat → Nat
  | 0, idx => small0 idx
  | n + 1, idx =>
    if lens n ≠ 0 ∧ lens n ≤ dls ∧ idx % 2 ^ lens n = code_at nc0 lens n ∧
        idx / 2 ^ lens n < 2 ^ (dls - lens n) then
      (n ||| (lens n <<< 9)) % 65536
    else small_after dls nc0 lens small0 n idx

/-- The length of the RFC 1951 fixed code of the literal/length symbol `v`:
8 below 144, 9 up to 255, 7 up to 279, 8 from 280 on. -/
def fixed_len (v : Nat) : Nat :=
  if v < 144 then 8 else if v < 256 then 9 else if v < 280 then 7 else 8

/-- The RFC 1951 fixed code of the literal/length symbol `v`, as the number
its bits spell most significant bit first: `0x30 + v`, `0x190 + (v - 144)`,
`v - 256` and `0xC0 + (v - 280)` on the four ranges. -/
def fixed_code (v : Nat) : Nat :=
  if v < 144 then 48 + v else if v < 256 then 400 + (v - 144)
  else if v < 280 then v - 256 else 192 + (v - 280)

/-- The fixed code of `v` in stream order (first bit in bit 0), the form in
which `make_inflate_huff_code` stores a code. -/
def fixed_rcode (v : Nat) : Nat := bit_reverse2 (fixed_code v) (fixed_len v)

/-- The symbol whose fixed code the low bits of the window `w` start with
(bit 0 is the first stream bit): the 7-bit codes are below 24, the 8-bit ones
below 200, the rest have 9 bits. -/
def fixed_sym (w : Nat) : Nat :=
  if bit_reverse2 (w % 128) 7 < 24 then 256 + bit_reverse2 (w % 128) 7
  else if bit_reverse2 (w % 256) 8 < 192 then bit_reverse2 (w % 256) 8 - 48
  else if bit_reverse2 (w % 256) 8 < 200 then 280 + (bit_reverse2 (w % 256) 8 - 192)
  else 144 + (bit_reverse2 (w % 512) 9 - 400)

/-- The stream holds, from bit `P` on, the first `n` bits of the fixed code of
symbol `v`, most significant code bit first. -/
def HasCode (mem : Nat → Nat) (P v n : Nat) : Prop :=
  ∀ j, j < n → sbit mem (P + j) = (fixed_code v).testBit (fixed_len v - 1 - j)

/-- The short table `T` is the one of the fixed literal/length code for the
lookup width `dls`: the entry at `idx` holds the symbol whose code is a prefix
of `idx` in bits 0..8 and its length from bit 9 on. -/
def FixedTable (dls : Nat) (T : inflate_huff_code) : Prop :=
  ∀ idx, idx < 2 ^ dls →
    T.small_code_lookup idx = 512 * fixed_len (fixed_sym idx) + fixed_sym idx

/-- The bits of the `L`-bit code `c`, most significant bit first. -/
def code_bits (c L : Nat) : List Bool := (List.range L).map (fun j => c.testBit (L - 1 - j))

/-- The RFC 1951 fixed code of the byte `v`, most significant bit first: the
8-bit code `0x30 + v` below 144, the 9-bit code `0x190 + (v - 144)` from 144 on. -/
def fixed_literal_bits (v : Nat) : List Bool :=
  if v < 144 then code_bits (0x30 + v) 8 else code_bits (0x190 + (v - 144)) 9

/-- The bits of a fixed block after its header: the code of each byte of `x`,
then the 7-bit end-of-block code `0000000`. -/
def fixed_tail_bits : List Nat → List Bool
  | [] => List.replicate 7 false
  | v :: r => fixed_literal_bits v ++ fixed_tail_bits r

/-- The bits of the single final fixed block for `x`: `1` (bfinal), `1, 0`
(btype 1, least significant bit first), the codes and the end-of-block code. -/
def fixed_block_bits (x : List Nat) : List Bool := [true, true, false] ++ fixed_tail_bits x

/-- Bits packed into bytes, least significant bit first, the last byte padded
with zero bits. -/
def pack_bits (B : List Bool) : List Nat :=
  (List.range ((B.length + 7) / 8)).map (fun m => bits_val (fun k => B.getD k false) (8 * m) 8)

/-- The bytes of the single final fixed block for `x`. -/
def fixed_block (x : List Nat) : List Nat := pack_bits (fixed_block_bits x)

/-- The input holds, from bit `P` up to its end at byte `E`, the bits of a
fixed block that has the bytes `x` left to encode. -/
def TailAt (mem : Nat → Nat) (P E : Nat) (x : List Nat) : Prop :=
  ∀ j, j < (fixed_tail_bits x).length → P + j < 8 * E →
    sbit mem (P + j) = (fixed_tail_bits x).getD j false

/-- The state `read_header` hands to `setup_dynamic_header`: `new_block`
cleared, `bfinal` and `btype` read. -/
def header_state (s : inflate_state) : inflate_state :=
  let r1 := inflate_in_read_bits { s with new_block := 0 } 1
  let s1 := { r1.2 with bfinal := r1.1 % 256 }
  let r2 := inflate_in_read_bits s1 2
  { r2.2 with btype := r2.1 % 256 }

/-- The main loop of `setup_dynamic_header` run on the state `s`: the status
and the variables when it ends. -/
def dyn_header_loop (dls fuel : Nat) (s : inflate_state) : Option (Status × dyn_vars) :=
  dyn_loop dls
    (make_inflate_huff_code dls s.stack_junk (dyn_code_lengths s).code_huff CODE_LEN_CODES
      (dyn_code_lengths s).code_count)
    ((inflate_in_read_bits s 5).1 % 256)
    ((inflate_in_read_bits (inflate_in_read_bits s 5).2 5).1 % 256)
    fuel (dyn_start (dyn_code_lengths s).s)

/-- The variables of the second loop of
`make_inflate_huff_code(result, huff_code_table, table_length, count)` when its
trip `i` starts. -/
def long_codes_at (dls : Nat) (result : inflate_huff_code) (huff_code_table : Nat → huff_code)
    (table_length : Nat) (count : Nat → Nat) (i : Nat) : long_build :=
  long_codes dls
    (make_inflate_huff_code_first dls result huff_code_table table_length count).long_code_list
    { table := (make_inflate_huff_code_first dls result huff_code_table table_length count).table
      small := (make_inflate_huff_code_first dls result huff_code_table table_length count).small
      long := result.long_code_lookup
      long_code_lookup_length := 0 }
    i

/-- What the call `make_inflate_huff_code(&state->lit_huff_code,
lit_and_dist_huff, LIT_LEN, lit_count)` of `setup_dynamic_header` does in trip
`i` of its second loop, for the variables `v` the main loop leaves: the code
it tests against `0xFFFF` and the symbols it stores in `temp_code_list`. -/
def lit_temp_code_list (dls : Nat) (v : dyn_vars) (i : Nat) : Nat × List Nat :=
  (((long_codes_at dls v.s.lit_huff_code v.lit_and_dist_huff LIT_LEN v.lit_count i).table
      ((make_inflate_huff_code_first dls v.s.lit_huff_code v.lit_and_dist_huff LIT_LEN
        v.lit_count).long_code_list.getD i 0)).code,
   (collect_group dls
      (long_codes_at dls v.s.lit_huff_code v.lit_and_dist_huff LIT_LEN v.lit_count i).table
      (make_inflate_huff_code_first dls v.s.lit_huff_code v.lit_and_dist_huff LIT_LEN
        v.lit_count).long_code_list i).2)

/-- The state a run on the input `c` has when `read_header` has read the
three header bits of the first block. -/
def first_header_state (c : List Nat) (cap : Nat) : inflate_state :=
  header_state (isal_inflate_init blank_state (mem_of c) c.length (fun _ => 0) cap)

/-- The trace of a run on the input `c` up to the end of the main loop of
`setup_dynamic_header` in the first block: `btype`, the status of the loop,
whether one of the three tests `read_in_length < 0` on the way holds (after the
header bits, after the code-length code, after the main loop), and the 286
literal/length code lengths read. -/
def dyn_lengths_trace (dls fuel : Nat) (c : List Nat) (cap : Nat) :
    Option (Nat × Status × Bool × List Nat) :=
  (dyn_header_loop dls fuel (first_header_state c cap)).map
    (fun r =>
      ((first_header_state c cap).btype, r.1,
       decide ((first_header_state c cap).read_in_length < 0 ∨
         (dyn_code_lengths (first_header_state c cap)).s.read_in_length < 0 ∨
         r.2.s.read_in_length < 0),
       (List.range LIT_LEN).map (fun k => (r.2.lit_and_dist_huff k).length)))

/-- The trace of the call `make_inflate_huff_code(&state->lit_huff_code,
lit_and_dist_huff, LIT_LEN, lit_count)` that follows in the run on `c`: the
list of long codes, and the code tested and the `temp_code_list` gathered in
trip `i` of its second loop. -/
def lit_table_trace (dls fuel : Nat) (c : List Nat) (cap i : Nat) :
    Option (List Nat × Nat × List Nat) :=
  (dyn_header_loop dls fuel (first_header_state c cap)).map
    (fun r =>
      ((make_inflate_huff_code_first dls r.2.s.lit_huff_code r.2.lit_and_dist_huff LIT_LEN
          r.2.lit_count).long_code_list,
       lit_temp_code_list dls r.2 i))

/-- A final dynamic block that encodes the one byte `'a'`; its literal/length
code has the lengths 11 (symbol 0), 15 (symbols 1 to 32), 11 (symbol 33),
3 to 9 (symbols 34 to 40), 1 (symbol 97) and 2 (symbol 256), a complete code. -/
def overflow_stream_10 : List Nat :=
  [5, 225, 129, 161, 109, 81, 22, 69, 193, 52, 0, 0, 0, 64, 207, 181, 207, 125, 63, 173,
   202, 63, 137, 81, 37]

/-- A final dynamic block that encodes the one byte `'a'`; its literal/length
code has the lengths 10 (symbol 0), 15 (symbols 1 to 64), 10 (symbol 65),
3 to 8 (symbols 66 to 71), 1 (symbol 97) and 2 (symbol 256), a complete code. -/
def overflow_stream_9 : List Nat :=
  [5, 225, 129, 129, 69, 89, 20, 69, 193, 12, 0, 0, 0, 0, 0, 0, 0, 192, 236, 115, 223, 239,
   56, 42, 255, 36, 86, 149, 0]

/-- The calls `inflate_in_read_bits(state, n)` for the widths `n` of the list,
in order: the values returned and the state left. -/
def read_bits_seq : inflate_state → List Nat → List Nat × inflate_state
  | s, [] => ([], s)
  | s, n :: ns =>
    ((inflate_in_read_bits s n).1 :: (read_bits_seq (inflate_in_read_bits s n).2 ns).1,
     (read_bits_seq (inflate_in_read_bits s n).2 ns).2)

/-- Bit `k` of the byte sequence `b` read as an LSB-first bit stream: stream
bit `8m + t` is bit `t` of `b[m]`. -/
def stream_bit (b : List Nat) (k : Nat) : Bool := (b.getD (k / 8) 0).testBit (k % 8)

/-- The integers a reader at bit `P` of the bit stream `f` is to return for
the widths of the list: for each width `n` the integer whose bit `j < n` is the
stream bit at `P` plus the sum of the earlier widths plus `j`. -/
def stream_values (f : Nat → Bool) : Nat → List Nat → List Nat
  | _, [] => []
  | P, n :: ns => bits_val f P n :: stream_values f (P + n) ns

/-- From the state `s` to the state `t` no output byte below the `total_out`
of `s` has changed: what was written stays written. -/
def Kept (s t : inflate_state) : Prop := ∀ k, k < s.total_out → t.out_mem k = s.out_mem k

/-- A step from `s` to `t` of a run with capacity `cap` on the output memory
`out0`: `t` satisfies the output accounting, `total_out` has not decreased and
the bytes written before the step are kept.  With the accounting of `s` this
says that the step wrote exactly the bytes from the old to the new
`total_out`. -/
structure OutStep (cap : Nat) (out0 : Nat → Nat) (s t : inflate_state) : Prop where
  inv : OutInv cap out0 t
  mono : s.total_out ≤ t.total_out
  kept : Kept s t

/-- The table `inflate_code_huff` that `setup_dynamic_header` builds for the
code-length code, on the state `s` handed to it. -/
def code_length_table (dls : Nat) (s : inflate_state) : inflate_huff_code :=
  make_inflate_huff_code dls s.stack_junk (dyn_code_lengths s).code_huff CODE_LEN_CODES
    (dyn_code_lengths s).code_count

/-- The first symbol `setup_dynamic_header` decodes with the code-length code,
on the state `s` handed to it, and the state after it. -/
def first_length_symbol (dls : Nat) (s : inflate_state) : Nat × inflate_state :=
  decode_next dls (dyn_code_lengths s).s (code_length_table dls s)

/-- A final dynamic block whose code-length code gives one bit to the symbols
0 and 16, followed by the code of 16: `hlit = hdist = hclen = 0`, the four
lengths 1, 0, 0, 1 (for 16, 17, 18, 0), then the bit 1. -/
def repeat_first_stream : List Nat := [5, 0, 2, 36]

/-- A final fixed block holding one length/distance pair and the end-of-block
code: the header bits 1, 1, 0, the code `0000001` of the length symbol 257
(length 3), the code `11110` of the distance symbol 30, the code `0000000`. -/
def zero_distance_stream : List Nat := [3, 62, 0]

/-- The same block with the code `11111` of the distance symbol 31. -/
def zero_distance_stream_31 : List Nat := [3, 126, 0]

/-- The trace of a run on the input `c` with the output buffer `out0` up to
the first trip of the block loop: the status of `read_header`, then
`next_lit`, `repeat_length`, `look_back_dist` of that trip and `total_out`
before it. -/
def first_pair_trace (dls fuel : Nat) (c out0 : List Nat) :
    Option (Status × Nat × Nat × Nat × Nat) :=
  (read_header dls fuel
    (isal_inflate_init blank_state (mem_of c) c.length (mem_of out0) out0.length)).map
    (fun r => (r.1, pair_symbol dls r.2, pair_length dls r.2, pair_distance dls r.2,
      r.2.total_out))

/-- The result of a run on the input `c` with the output buffer `out0`: the
status, `total_out` and the output. -/
def run_result (dls fuel : Nat) (c out0 : List Nat) : Option (Status × Nat × List Nat) :=
  (isal_inflate_stateless dls fuel
    (isal_inflate_init blank_state (mem_of c) c.length (mem_of out0) out0.length)).map
    (fun r => (r.1, r.2.total_out, output r.2))

/-- A final dynamic block header with `hlit = 0` and `hdist = 31`: the
code-length symbols are 18 (138 zeros), 18 (119 zeros), 18 (30 zeros), 1, 1. -/
def dist_overrun_stream : List Nat := [5, 223, 33, 1, 0, 0, 0, 0, 144, 255, 179, 159, 0]

/-- A final dynamic block header with `hlit = 0` and `hdist = 29`: the
code-length symbols are 18 (138 zeros), 18 (119 zeros), 18 (28 zeros), 1 and
16 (6 repeats), a run that starts in the last slot of the array. -/
def repeat_overrun_stream : List Nat := [5, 221, 5, 1, 0, 0, 0, 0, 144, 255, 179, 143, 104]

/-- A final dynamic block header with `hlit = 30` and `hdist = 1`: the
code-length symbols are
18 (138 zeros), 18 (138 zeros), 17 (10 zeros), 1, 1, 1. -/
def cursor_back_stream : List Nat := [245, 193, 33, 1, 0, 0, 0, 0, 144, 255, 255, 59, 0]

/-- The cursor `current` of the main loop of `setup_dynamic_header`, trip by
trip: its value when the trip starts and its value after the two tests that
open the body. -/
def dyn_cursor_trace (dls : Nat) (code : inflate_huff_code) (hlit hdist : Nat) :
    Nat → dyn_vars → List (Nat × Nat)
  | 0, _ => []
  | fuel + 1, v =>
    if v.current < LIT_LEN + hdist + 1 then
      (v.current, (dyn_enter hlit v).current) ::
        (match dyn_body dls code hlit v with
         | DynStep.ret _ _ => []
         | DynStep.next w => dyn_cursor_trace dls code hlit hdist fuel w)
    else []

/-- The cursor trace of the run on the input `c`, with `hlit` and `hdist` as
read from it. -/
def first_cursor_trace (dls fuel : Nat) (c : List Nat) : Nat × Nat × List (Nat × Nat) :=
  ((inflate_in_read_bits (first_header_state c 0) 5).1 % 256,
   (inflate_in_read_bits (inflate_in_read_bits (first_header_state c 0) 5).2 5).1 % 256,
   dyn_cursor_trace dls (code_length_table dls (first_header_state c 0))
    ((inflate_in_read_bits (first_header_state c 0) 5).1 % 256)
    ((inflate_in_read_bits (inflate_in_read_bits (first_header_state c 0) 5).2 5).1 % 256)
    fuel (dyn_start (dyn_code_lengths (first_header_state c 0)).s))

/-- The end of the main loop of `setup_dynamic_header` in the run on the input
`c`: the status, the cursor `current`, and the lengths in the four slots
`lit_and_dist_huff[LIT_LEN + DIST_LEN + k]`, `k < 4`, which lie after the end
of the array. -/
def dyn_overrun_trace (dls fuel : Nat) (c : List Nat) : Option (Status × Nat × List Nat) :=
  (dyn_header_loop dls fuel (first_header_state c 0)).map
    (fun r => (r.1, r.2.current,
      (List.range 4).map (fun k => (r.2.lit_and_dist_huff (LIT_LEN + DIST_LEN + k)).length)))

/-- A final dynamic block whose literal/length code is incomplete: one bit for
`'a'` (code `0`), two bits for the end-of-block symbol (code `10`), no symbol
for the bits `11`.  Its data bits are `0`, nine times `1`, then `1, 0`. -/
def stale_entry_stream : List Nat :=
  [5, 192, 129, 0, 0, 0, 0, 128, 32, 214, 252, 37, 206, 255, 0]

/-- The state an earlier decode leaves: the state after `isal_inflate_init` and
`isal_inflate_stateless` on the empty fixed block `03 00`, started from the
all-zero state. -/
def used_state (dls : Nat) : inflate_state :=
  ((isal_inflate_stateless dls 3
    (isal_inflate_init blank_state (mem_of [3, 0]) 2 (fun _ => 0) 0)).map Prod.snd).getD
    blank_state

/-- The result of `isal_inflate_init` on the state `st` followed by
`isal_inflate_stateless`, on the input `c` with capacity `cap`: the status,
`total_out` and the output. -/
def run_result_from (dls fuel : Nat) (st : inflate_state) (c : List Nat) (cap : Nat) :
    Option (Status × Nat × List Nat) :=
  (isal_inflate_stateless dls fuel
    (isal_inflate_init st (mem_of c) c.length (fun _ => 0) cap)).map
    (fun r => (r.1, r.2.total_out, output r.2))

/-- The entry `small_code_lookup[idx]` of the literal/length table after
`read_header` has read the first block header of the input `c`, in a run
started by `isal_inflate_init` on the state `st`. -/
def lit_entry_after_header (dls fuel : Nat) (st : inflate_state) (c : List Nat) (idx : Nat) :
    Option Nat :=
  (read_header dls fuel (isal_inflate_init st (mem_of c) c.length (fun _ => 0) 0)).map
    (fun r => r.2.lit_huff_code.small_code_lookup idx)

/-- The input accounting of a run on the input `c` with capacity `cap`: the
status, `total_out`, and `next_in` (as an offset from `in_stream`) and
`avail_in` at the return. -/
def run_input_accounting (dls fuel : Nat) (c : List Nat) (cap : Nat) :
    Option (Status × Nat × Nat × Nat) :=
  (isal_inflate_stateless dls fuel
    (isal_inflate_init blank_state (mem_of c) c.length (fun _ => 0) cap)).map
    (fun r => (r.1, r.2.total_out, r.2.next_in, r.2.avail_in))

/-- The `struct huff_code` array whose lengths are those of the list (0 after
its end), with the code fields zero. -/
def table_of_lengths (l : List Nat) : Nat → huff_code :=
  fun i => { code := 0, length := l.getD i 0 }

/-- The length histogram of the list: `count[L]` is the number of entries
equal to `L`, for every `L`, `count[0]` included. -/
def histogram (l : List Nat) : Nat → Nat := fun L => l.count L

/-- The Kraft sum of the first `n` lengths, in units of `2^-15`: each non-zero
length `L` counts `2^(15 - L)`. -/
def kraft_sum (lens : Nat → Nat) : Nat → Nat
  | 0 => 0
  | n + 1 => kraft_sum lens n + (if lens n = 0 then 0 else 2 ^ (15 - lens n))

/-- A complete code on 286 symbols: lengths 11 (symbol 0), 15 (symbols 1 to
32), 11 (symbol 33), 3 to 9 (symbols 34 to 40), 1 (symbol 97), 2 (symbol 256). -/
def overflow_lengths_10 : List Nat :=
  [11] ++ List.replicate 32 15 ++ [11, 3, 4, 5, 6, 7, 8, 9] ++ List.replicate 56 0 ++ [1]
    ++ List.replicate 158 0 ++ [2] ++ List.replicate 29 0

/-- A complete code on 286 symbols: lengths 10 (symbol 0), 15 (symbols 1 to
64), 10 (symbol 65), 3 to 8 (symbols 66 to 71), 1 (symbol 97), 2 (symbol 256). -/
def overflow_lengths_9 : List Nat :=
  [10] ++ List.replicate 64 15 ++ [10, 3, 4, 5, 6, 7, 8] ++ List.replicate 25 0 ++ [1]
    ++ List.replicate 158 0 ++ [2] ++ List.replicate 29 0

/-- What the call `make_inflate_huff_code(result, huff_code_table,
table_length, count)` does in trip `i` of its second loop: the list of long
codes, the code it tests against `0xFFFF` and the symbols it stores in
`temp_code_list`. -/
def temp_code_trace (dls : Nat) (result : inflate_huff_code) (huff_code_table : Nat → huff_code)
    (table_length : Nat) (count : Nat → Nat) (i : Nat) : List Nat × Nat × List Nat :=
  ((make_inflate_huff_code_first dls result huff_code_table table_length count).long_code_list,
   ((long_codes_at dls result huff_code_table table_length count i).table
      ((make_inflate_huff_code_first dls result huff_code_table table_length
        count).long_code_list.getD i 0)).code,
   (collect_group dls
      (long_codes_at dls result huff_code_table table_length count i).table
      (make_inflate_huff_code_first dls result huff_code_table table_length
        count).long_code_list i).2)

/-- The `next_code` array of RFC 1951, section 3.2.2, for the length counts
`count`: `next_code[1] = 0` and, for `i >= 2`,
`next_code[i] = (next_code[i - 1] + count[i - 1]) << 1`, in unbounded
arithmetic.  `count[0]` is not used. -/
def rfc_next_code (count : Nat → Nat) : Nat → Nat
  | 0 => 0
  | 1 => 0
  | i + 2 => (rfc_next_code count (i + 1) + count (i + 1)) <<< 1

/-- The RFC 1951 canonical code of the symbol `i`, assign-then-increment in
ascending symbol order: `next_code` of its length plus the number of earlier
symbols of the same length. -/
def rfc_code (count lens : Nat → Nat) (i : Nat) : Nat :=
  rfc_next_code count (lens i) + cnt lens (lens i) i

/-- The width-`L` bit reversal of `c`: bit `j < L` is bit `L - 1 - j` of `c`. -/
def reverse_bits (c L : Nat) : Nat := bits_val (fun j => c.testBit (L - 1 - j)) 0 L

/-- The sum of `count[k] * 2^(15 - k)` over `1 <= k < L`: the part of the
Kraft sum, in units of `2^-15`, taken by the codes shorter than `L`. -/
def weighted_below (count : Nat → Nat) : Nat → Nat
  | 0 => 0
  | 1 => 0
  | L + 2 => weighted_below count (L + 1) + count (L + 1) * 2 ^ (15 - (L + 1))
/-- The code lengths 3, 3, 3, 3, 3, 2, 4, 4 of the symbols 0 to 7. -/
def canon_example_table : Nat → huff_code :=
  fun i => { code := 0, length := [3, 3, 3, 3, 3, 2, 4, 4].getD i 0 }

/-- The histogram of `canon_example_table`, with a `count[0]` of 5. -/
def canon_example_count : Nat → Nat := fun L => [5, 0, 1, 5, 2].getD L 0

/-- One code-length symbol as `setup_dynamic_header` reads it in a trip of its
main loop: the symbol `decode_next` returns, with the extra bits
`inflate_in_read_bits` returns for 16 (2 bits), 17 (3 bits) and 18 (7 bits),
and the state after them; `none` where the trip returns from the function
(`read_in_length < 0` after `decode_next`, or a symbol above 18). -/
def cl_read_symbol (dls : Nat) (code : inflate_huff_code) (s : inflate_state) :
    Option ((Nat × Nat) × inflate_state) :=
  let r := decode_next dls s code
  if r.2.read_in_length < 0 then none
  else if r.1 < 16 then some ((r.1, 0), r.2)
  else if r.1 = 16 then some ((16, (inflate_in_read_bits r.2 2).1), (inflate_in_read_bits r.2 2).2)
  else if r.1 = 17 then some ((17, (inflate_in_read_bits r.2 3).1), (inflate_in_read_bits r.2 3).2)
  else if r.1 = 18 then some ((18, (inflate_in_read_bits r.2 7).1), (inflate_in_read_bits r.2 7).2)
  else none

/-- The next `k` code-length symbols of the input, each with its extra bits,
and the state after them. -/
def cl_symbols (dls : Nat) (code : inflate_huff_code) :
    Nat → inflate_state → Option (List (Nat × Nat) × inflate_state)
  | 0, s => some ([], s)
  | k + 1, s =>
    match cl_read_symbol dls code s with
    | none => none
    | some (p, s1) =>
      match cl_symbols dls code k s1 with
      | none => none
      | some (l, t) => some (p :: l, t)

/-- The run-length expansion of RFC 1951, section 3.2.7, for one code-length
symbol with its extra bits `x`, after the flattened lengths `acc`: 0 to 15 is
that length; 16 repeats the last length of `acc` `3 + x` times and has no
meaning when `acc` is empty; 17 is `3 + x` zeros; 18 is `11 + x` zeros. -/
def rfc_expand_one (acc : List Nat) (p : Nat × Nat) : Option (List Nat) :=
  if p.1 < 16 then some (acc ++ [p.1])
  else if p.1 = 16 then
    match acc.getLast? with
    | none => none
    | some l => some (acc ++ List.replicate (3 + p.2) l)
  else if p.1 = 17 then some (acc ++ List.replicate (3 + p.2) 0)
  else if p.1 = 18 then some (acc ++ List.replicate (11 + p.2) 0)
  else none

/-- The run-length expansion of a sequence of code-length symbols, after the
flattened lengths `acc`. -/
def rfc_expand : List Nat → List (Nat × Nat) → Option (List Nat)
  | acc, [] => some acc
  | acc, p :: rest =>
    match rfc_expand_one acc p with
    | none => none
    | some acc1 => rfc_expand acc1 rest

/-- The index in `lit_and_dist_huff` of the entry `m` of the flattened
lengths: the literal/length lengths from 0, the distance lengths from
`LIT_LEN`. -/
def cl_slot (hlit m : Nat) : Nat :=
  if m < 257 + hlit then m else LIT_LEN + (m - (257 + hlit))

/-- The array `lit_and_dist_huff` that holds the flattened lengths `e` in
that layout, all else zero. -/
def cl_layout (hlit : Nat) (e : List Nat) : Nat → huff_code :=
  fun p =>
    { code := 0
      length := if p < 257 + hlit then e.getD p 0
        else if LIT_LEN ≤ p then e.getD (257 + hlit + (p - LIT_LEN)) 0 else 0 }

/-- The variables of the main loop of `setup_dynamic_header` hold the
flattened lengths `acc`, and the cursor is where a repeat loop leaves it. -/
structure DynInv (hlit : Nat) (acc : List Nat) (v : dyn_vars) : Prop where
  table : v.lit_and_dist_huff = cl_layout hlit acc
  prev : v.previous = if acc.length = 0 then none else some (cl_slot hlit (acc.length - 1))
  lit : ∀ L, 1 ≤ L → v.lit_count L = (acc.take (257 + hlit)).count L
  dist : ∀ L, 1 ≤ L → v.dist_count L = (acc.drop (257 + hlit)).count L
  cur : v.current = cl_slot hlit acc.length
  cid : v.count_is_dist = decide (257 + hlit ≤ acc.length)

/-- The variables of the main loop of `setup_dynamic_header` hold the
flattened lengths `acc` when a trip starts: the cursor may still stand at
`257 + hlit`, before the jump to `LIT_LEN`. -/
structure DynPre (hlit : Nat) (acc : List Nat) (v : dyn_vars) : Prop where
  table : v.lit_and_dist_huff = cl_layout hlit acc
  prev : v.previous = if acc.length = 0 then none else some (cl_slot hlit (acc.length - 1))
  lit : ∀ L, 1 ≤ L → v.lit_count L = (acc.take (257 + hlit)).count L
  dist : ∀ L, 1 ≤ L → v.dist_count L = (acc.drop (257 + hlit)).count L
  cur : (v.current = cl_slot hlit acc.length ∧
      v.count_is_dist = decide (257 + hlit ≤ acc.length)) ∨
    (acc.length = 257 + hlit ∧ v.current = 257 + hlit ∧ v.count_is_dist = false)

/-- A final dynamic block header with `hlit = hdist = 0`, the code-length
code 18: 1 bit, 2 and 16: 2 bits, and the code-length symbols 18 (138
zeros), 18 (116 zeros), 2, 16 (3 repeats): 258 lengths. -/
def run_length_stream : List Nat := [5, 128, 133, 0, 0, 0, 0, 128, 252, 165, 27]

/-- The lengths that `run_length_stream` encodes. -/
def run_length_lengths : List Nat := List.replicate 254 0 ++ [2, 2, 2, 2]

/-- A complete code on 286 symbols for `DECODE_LOOKUP_SIZE = 10`: the symbols
0 to 4 have the lengths 11 to 15 and open one long-code group each; the
symbols 5 to 61 fill these groups (one more code of length 11, three of length
12, seven of length 13, fifteen of length 14, thirty-one of length 15); the
symbols 62 to 70 have the lengths 1, 2, 3, 4, 5, 6, 7, 9, 10. -/
def straddle_lengths_10 : List Nat :=
  [11, 12, 13, 14, 15] ++ [11] ++ List.replicate 3 12 ++ List.replicate 7 13
    ++ List.replicate 15 14 ++ List.replicate 31 15 ++ [1, 2, 3, 4, 5, 6, 7, 9, 10]
    ++ List.replicate 215 0

/-- A complete code on 286 symbols for `DECODE_LOOKUP_SIZE = 9`: the symbols
0 to 5 have the lengths 10 to 15 and open one long-code group each; the
symbols 6 to 125 fill these groups; the symbols 126 to 132 have the lengths
1, 2, 3, 4, 5, 6, 8. -/
def straddle_lengths_9 : List Nat :=
  [10, 11, 12, 13, 14, 15] ++ [10] ++ List.replicate 3 11 ++ List.replicate 7 12
    ++ List.replicate 15 13 ++ List.replicate 31 14 ++ List.replicate 63 15
    ++ [1, 2, 3, 4, 5, 6, 8] ++ List.replicate 153 0

/-- The long-code group of `first_bits` in the call
`make_inflate_huff_code(result, huff_code_table, table_length, count)`: the
symbols with a length above `DECODE_LOOKUP_SIZE` whose bit-reversed code, as
the first loop stores it, has the low `DECODE_LOOKUP_SIZE` bits `first_bits`;
with it the largest length among them. -/
def long_group (dls : Nat) (result : inflate_huff_code) (huff_code_table : Nat → huff_code)
    (table_length : Nat) (count : Nat → Nat) (first_bits : Nat) : List Nat × Nat :=
  (((make_inflate_huff_code_first dls result huff_code_table table_length
      count).long_code_list.filter
      (fun s => decide
        (((make_inflate_huff_code_first dls result huff_code_table table_length
          count).table s).code &&& ((1 <<< dls) - 1) = first_bits))),
   (((make_inflate_huff_code_first dls result huff_code_table table_length
      count).long_code_list.filter
      (fun s => decide
        (((make_inflate_huff_code_first dls result huff_code_table table_length
          count).table s).code &&& ((1 <<< dls) - 1) = first_bits))).map
      (fun s => (huff_code_table s).length)).foldl max 0)

/-- Trip `i` of the second loop of `make_inflate_huff_code(result,
huff_code_table, table_length, count)`: the symbol `long_code_list[i]`, its
`first_bits`, the symbols the trip stores in `temp_code_list`, and
`long_code_lookup_length` when the trip starts. -/
def long_group_trip (dls : Nat) (result : inflate_huff_code) (huff_code_table : Nat → huff_code)
    (table_length : Nat) (count : Nat → Nat) (i : Nat) : Nat × Nat × List Nat × Nat :=
  ((make_inflate_huff_code_first dls result huff_code_table table_length
      count).long_code_list.getD i 0,
   ((long_codes_at dls result huff_code_table table_length count i).table
      ((make_inflate_huff_code_first dls result huff_code_table table_length
        count).long_code_list.getD i 0)).code &&& ((1 <<< dls) - 1),
   (collect_group dls
      (long_codes_at dls result huff_code_table table_length count i).table
      (make_inflate_huff_code_first dls result huff_code_table table_length
        count).long_code_list i).2,
   (long_codes_at dls result huff_code_table table_length count i).long_code_lookup_length)

/-- The entry `small_code_lookup[first_bits]` that
`make_inflate_huff_code(result, huff_code_table, table_length, count)` leaves,
split into bit 15, the bits 9 to 13 and the bits 0 to 8. -/
def pointer_entry_fields (dls : Nat) (result : inflate_huff_code)
    (huff_code_table : Nat → huff_code) (table_length : Nat) (count : Nat → Nat)
    (first_bits : Nat) : Bool × Nat × Nat :=
  (((make_inflate_huff_code dls result huff_code_table table_length
      count).small_code_lookup first_bits).testBit 15,
   ((make_inflate_huff_code dls result huff_code_table table_length
      count).small_code_lookup first_bits >>> 9) % 32,
   (make_inflate_huff_code dls result huff_code_table table_length
      count).small_code_lookup first_bits % 512)

/-! ## Theorems -/

theorem store_same {α : Type} (f : Nat → α) (i : Nat) (v : α) : store f i v i = v := by
  simp [store]

theorem store_other {α : Type} (f : Nat → α) (i k : Nat) (v : α) (h : k ≠ i) :
    store f i v k = f k := by
  simp [store, h]

/-! ### The bit reader -/

theorem bits_val_lt (f : Nat → Bool) (P n : Nat) : bits_val f P n < 2 ^ n := by
  induction n with
  | zero => simp [bits_val]
  | succ n ih =>
    simp only [bits_val]
    have hb : (f (P + n)).toNat ≤ 1 := Bool.toNat_le _
    have : 2 ^ n * (f (P + n)).toNat ≤ 2 ^ n * 1 := Nat.mul_le_mul_left _ hb
    rw [Nat.pow_succ]
    omega

theorem testBit_bits_val (f : Nat → Bool) (P n j : Nat) :
    (bits_val f P n).testBit j = (decide (j < n) && f (P + j)) := by
  induction n with
  | zero => simp [bits_val]
  | succ n ih =>
    simp only [bits_val]
    rw [Nat.add_comm, Nat.testBit_mul_pow_two_add _ (bits_val_lt f P n)]
    by_cases h : j < n
    · simp [h, ih, Nat.lt_succ_of_lt h]
    · by_cases h2 : j = n
      · subst h2
        cases hb : f (P + j) <;> simp [hb]
      · have h3 : ¬ j < n + 1 := by omega
        have h4 : ¬ (j - n = 0) := by omega
        simp [h, h3, h4, Nat.testBit_bool_to_nat]

theorem sval_lt (mem : Nat → Nat) (P n : Nat) : sval mem P n < 2 ^ n :=
  bits_val_lt _ P n

theorem testBit_sval (mem : Nat → Nat) (P n j : Nat) :
    (sval mem P n).testBit j = (decide (j < n) && sbit mem (P + j)) :=
  testBit_bits_val _ P n j

theorem load_u8_lt (mem : Nat → Nat) (p : Nat) : load_u8 mem p < 256 := by
  unfold load_u8; omega

theorem sbit_byte (mem : Nat → Nat) (p k : Nat) (hk : k < 8) :
    sbit mem (8 * p + k) = (load_u8 mem p).testBit k := by
  unfold sbit
  have h1 : (8 * p + k) / 8 = p := by omega
  have h2 : (8 * p + k) % 8 = k := by omega
  rw [h1, h2]

theorem testBit_load_u8_ge (mem : Nat → Nat) (p k : Nat) (hk : 8 ≤ k) :
    (load_u8 mem p).testBit k = false := by
  apply Nat.testBit_lt_two_pow
  have := load_u8_lt mem p
  have : (2 : Nat) ^ 8 ≤ 2 ^ k := Nat.pow_le_pow_right (by norm_num) hk
  omega

theorem testBit_load_le (mem : Nat → Nat) (n p k : Nat) :
    (load_le mem p n).testBit k = (decide (k < 8 * n) && sbit mem (8 * p + k)) := by
  induction n generalizing p k with
  | zero => simp [load_le]
  | succ n ih =>
    simp only [load_le]
    have h := Nat.testBit_mul_pow_two_add (load_le mem (p + 1) n)
      (show load_u8 mem p < 2 ^ 8 from load_u8_lt mem p) k
    rw [show load_u8 mem p + 256 * load_le mem (p + 1) n
        = 2 ^ 8 * load_le mem (p + 1) n + load_u8 mem p by norm_num; omega, h]
    by_cases hk : k < 8
    · have : k < 8 * (n + 1) := by omega
      simp [hk, this, sbit_byte mem p k hk]
    · have e : 8 * (p + 1) + (k - 8) = 8 * p + k := by omega
      simp only [hk, if_false, ih, e]
      congr 1
      apply decide_eq_decide.mpr
      omega

theorem load_u64_eq (mem : Nat → Nat) (p : Nat) : load_u64 mem p = load_le mem p 8 := by
  simp [load_u64, load_le, Nat.add_assoc]

theorem testBit_load_u64 (mem : Nat → Nat) (p k : Nat) :
    (load_u64 mem p).testBit k = (decide (k < 64) && sbit mem (8 * p + k)) := by
  rw [load_u64_eq, testBit_load_le]

theorem ReaderOnly.same (s : inflate_state) : ReaderOnly s s :=
  ⟨rfl, rfl, rfl, rfl, rfl, rfl, rfl, rfl, rfl, rfl, rfl⟩

theorem ReaderOnly.trans {s t u : inflate_state} (h1 : ReaderOnly s t) (h2 : ReaderOnly t u) :
    ReaderOnly s u :=
  ⟨h2.in_mem.trans h1.in_mem, h2.out_mem.trans h1.out_mem, h2.next_out.trans h1.next_out,
   h2.avail_out.trans h1.avail_out, h2.total_out.trans h1.total_out,
   h2.lit_huff_code.trans h1.lit_huff_code, h2.dist_huff_code.trans h1.dist_huff_code,
   h2.new_block.trans h1.new_block, h2.bfinal.trans h1.bfinal, h2.btype.trans h1.btype,
   h2.stack_junk.trans h1.stack_junk⟩

/-- One trip of the byte loop of `inflate_in_load` keeps the reader at its
stream position. -/
theorem reads_load_byte {s : inflate_state} {P E : Nat} (h : Reads s P E)
    (h56 : s.read_in_length ≤ 56) (ha : 0 < s.avail_in) :
    Reads
      { s with
        read_in := (s.read_in ||| (load_u8 s.in_mem s.next_in <<< s.read_in_length.toNat))
          % 2 ^ 64
        next_in := s.next_in + 1
        avail_in := s.avail_in - 1
        read_in_length := s.read_in_length + 8 } P E := by
  obtain ⟨h0, h64, hpos, hfin, hav, hlt, hvalid, hjunk⟩ := h
  have hr : ((s.read_in_length.toNat : Nat) : Int) = s.read_in_length := Int.toNat_of_nonneg h0
  generalize s.read_in_length.toNat = r at hr
  have hP : P + r = 8 * s.next_in := by omega
  refine ⟨?_, ?_, ?_, ?_, ?_, ?_, ?_, ?_⟩
  · show 0 ≤ s.read_in_length + 8
    omega
  · show s.read_in_length + 8 ≤ 64
    omega
  · show (P : Int) + (s.read_in_length + 8) = 8 * ((s.next_in + 1 : Nat) : Int)
    push_cast; omega
  · show s.next_in + 1 + (s.avail_in - 1) = E
    omega
  · show s.avail_in - 1 < 2 ^ 32
    omega
  · exact Nat.mod_lt _ (by norm_num)
  · intro j hj
    show ((s.read_in ||| (load_u8 s.in_mem s.next_in <<< r)) % 2 ^ 64).testBit j
      = sbit s.in_mem (P + j)
    have hj' : (j : Int) < s.read_in_length + 8 := hj
    have hj64 : j < 64 := by omega
    rw [Nat.testBit_mod_two_pow, Nat.testBit_or, Nat.testBit_shiftLeft]
    by_cases hjr : j < r
    · have hv := hvalid j (by omega)
      have : ¬ j ≥ r := by omega
      simp [hj64, hv, this]
    · have hb : sbit s.in_mem (P + j) = (load_u8 s.in_mem s.next_in).testBit (j - r) := by
        rw [← sbit_byte s.in_mem s.next_in (j - r) (by omega)]
        congr 1; omega
      have hge : j ≥ r := by omega
      cases hrb : s.read_in.testBit j
      · simp [hj64, hge, hb]
      · have := (hjunk j hrb).1
        simp [hj64, this]
  · intro j hj
    have hj1 : ((s.read_in ||| (load_u8 s.in_mem s.next_in <<< r)) % 2 ^ 64).testBit j = true :=
      hj
    rw [Nat.testBit_mod_two_pow, Nat.testBit_or, Nat.testBit_shiftLeft] at hj1
    simp only [Bool.and_eq_true, Bool.or_eq_true, decide_eq_true_eq] at hj1
    rcases hj1.2 with h1 | ⟨h1, h2⟩
    · exact hjunk j h1
    · have h8 : j - r < 8 := by
        by_contra hc
        rw [testBit_load_u8_ge _ _ _ (by omega)] at h2
        exact Bool.noConfusion h2
      have hb : sbit s.in_mem (P + j) = (load_u8 s.in_mem s.next_in).testBit (j - r) := by
        rw [← sbit_byte s.in_mem s.next_in (j - r) h8]
        congr 1; omega
      exact ⟨hb.trans h2, by omega⟩

/-- The byte loop of `inflate_in_load` keeps the reader at its stream position
and stops with at least 57 bits or with the input used up. -/
theorem inflate_in_load_loop_reads (fuel : Nat) :
    ∀ (s : inflate_state) (P E : Nat), Reads s P E → s.avail_in ≤ fuel →
      Reads (inflate_in_load_loop fuel s) P E ∧
      ReaderOnly s (inflate_in_load_loop fuel s) ∧
      (57 ≤ (inflate_in_load_loop fuel s).read_in_length ∨
        (inflate_in_load_loop fuel s).avail_in = 0) ∧
      s.read_in_length ≤ (inflate_in_load_loop fuel s).read_in_length := by
  induction fuel with
  | zero =>
    intro s P E h ha
    simp only [inflate_in_load_loop]
    exact ⟨h, ReaderOnly.same s, Or.inr (by omega), le_refl _⟩
  | succ n ih =>
    intro s P E h ha
    simp only [inflate_in_load_loop]
    by_cases hc : s.read_in_length < 57 ∧ 0 < s.avail_in
    · rw [if_pos hc]
      have h1 := reads_load_byte h (by omega) hc.2
      obtain ⟨i1, i2, i3, i4⟩ := ih _ P E h1 (by show s.avail_in - 1 ≤ n; omega)
      refine ⟨i1, ?_, i3, ?_⟩
      · refine ReaderOnly.trans ?_ i2
        exact ⟨rfl, rfl, rfl, rfl, rfl, rfl, rfl, rfl, rfl, rfl, rfl⟩
      · have : s.read_in_length + 8 ≤ _ := i4
        omega
    · rw [if_neg hc]
      refine ⟨h, ReaderOnly.same s, ?_, le_refl _⟩
      by_cases h57 : 57 ≤ s.read_in_length
      · exact Or.inl h57
      · right
        have : ¬ 0 < s.avail_in := fun h0 => hc ⟨by omega, h0⟩
        omega

/-- The 64-bit load of `inflate_in_load` keeps the reader at its stream
position and leaves at least 57 bits. -/
theorem reads_load_u64 {s : inflate_state} {P E : Nat} (h : Reads s P E)
    (h56 : s.read_in_length ≤ 56) (ha : 8 ≤ s.avail_in) :
    Reads
      { s with
        read_in := (s.read_in ||| (load_u64 s.in_mem s.next_in <<< s.read_in_length.toNat))
          % 2 ^ 64
        next_in := s.next_in + ((8 - (s.read_in_length + 7).tdiv 8) % 256).toNat
        avail_in := (s.avail_in + 2 ^ 32 - ((8 - (s.read_in_length + 7).tdiv 8) % 256).toNat)
          % 2 ^ 32
        read_in_length :=
          s.read_in_length + (((8 - (s.read_in_length + 7).tdiv 8) % 256).toNat : Nat) * 8 } P E ∧
    57 ≤ s.read_in_length + (((8 - (s.read_in_length + 7).tdiv 8) % 256).toNat : Nat) * 8 := by
  obtain ⟨h0, h64, hpos, hfin, hav, hlt, hvalid, hjunk⟩ := h
  have hr : ((s.read_in_length.toNat : Nat) : Int) = s.read_in_length := Int.toNat_of_nonneg h0
  generalize s.read_in_length.toNat = r at hr
  have hP : P + r = 8 * s.next_in := by omega
  rw [Int.tdiv_eq_ediv (by omega) (by norm_num)]
  have hnb : ∃ nb : Nat, ((8 - (s.read_in_length + 7) / 8) % 256).toNat = nb ∧ 1 ≤ nb ∧ nb ≤ 8 ∧
      57 ≤ r + 8 * nb ∧ r + 8 * nb ≤ 64 := ⟨_, rfl, by omega, by omega, by omega, by omega⟩
  obtain ⟨nb, hnbe, hnb1, hnb8, hnb57, hnb64⟩ := hnb
  rw [hnbe]
  refine ⟨⟨?_, ?_, ?_, ?_, ?_, ?_, ?_, ?_⟩, ?_⟩
  · show 0 ≤ s.read_in_length + (nb : Int) * 8
    omega
  · show s.read_in_length + (nb : Int) * 8 ≤ 64
    omega
  · show (P : Int) + (s.read_in_length + (nb : Int) * 8) = 8 * ((s.next_in + nb : Nat) : Int)
    push_cast; omega
  · show s.next_in + nb + (s.avail_in + 2 ^ 32 - nb) % 2 ^ 32 = E
    omega
  · exact Nat.mod_lt _ (by norm_num)
  · exact Nat.mod_lt _ (by norm_num)
  · intro j hj
    show ((s.read_in ||| (load_u64 s.in_mem s.next_in <<< r)) % 2 ^ 64).testBit j
      = sbit s.in_mem (P + j)
    have hj' : (j : Int) < s.read_in_length + (nb : Int) * 8 := hj
    have hj64 : j < 64 := by omega
    rw [Nat.testBit_mod_two_pow, Nat.testBit_or, Nat.testBit_shiftLeft, testBit_load_u64]
    by_cases hjr : j < r
    · have hv := hvalid j (by omega)
      have : ¬ j ≥ r := by omega
      simp [hj64, hv, this]
    · have hge : j ≥ r := by omega
      have hlt64 : j - r < 64 := by omega
      have e : 8 * s.next_in + (j - r) = P + j := by omega
      cases hrb : s.read_in.testBit j
      · simp [hj64, hge, hlt64, e]
      · have := (hjunk j hrb).1
        simp [hj64, this]
  · intro j hj
    have hj1 : ((s.read_in ||| (load_u64 s.in_mem s.next_in <<< r)) % 2 ^ 64).testBit j = true :=
      hj
    rw [Nat.testBit_mod_two_pow, Nat.testBit_or, Nat.testBit_shiftLeft, testBit_load_u64] at hj1
    simp only [Bool.and_eq_true, Bool.or_eq_true, decide_eq_true_eq] at hj1
    rcases hj1.2 with h1 | ⟨h1, h2, h3⟩
    · exact hjunk j h1
    · have e : 8 * s.next_in + (j - r) = P + j := by omega
      rw [e] at h3
      exact ⟨h3, by omega⟩
  · omega

/-- `inflate_in_load` keeps the reader at its stream position; it returns with
at least 57 bits in `read_in` or with the input used up. -/
theorem inflate_in_load_reads {s : inflate_state} {P E : Nat} (k : Nat) (h : Reads s P E)
    (h56 : s.read_in_length ≤ 56) :
    Reads (inflate_in_load s k) P E ∧ ReaderOnly s (inflate_in_load s k) ∧
    (57 ≤ (inflate_in_load s k).read_in_length ∨ (inflate_in_load s k).avail_in = 0) := by
  unfold inflate_in_load
  by_cases h8 : 8 ≤ s.avail_in
  · rw [if_pos h8]
    obtain ⟨i1, i2⟩ := reads_load_u64 h h56 h8
    exact ⟨i1, ⟨rfl, rfl, rfl, rfl, rfl, rfl, rfl, rfl, rfl, rfl, rfl⟩, Or.inl i2⟩
  · rw [if_neg h8]
    obtain ⟨i1, i2, i3, _⟩ := inflate_in_load_loop_reads s.avail_in s P E h (le_refl _)
    exact ⟨i1, i2, i3⟩

/-- With no input left `inflate_in_load` does nothing. -/
theorem inflate_in_load_empty (s : inflate_state) (k : Nat) (h : s.avail_in = 0) :
    inflate_in_load s k = s := by
  unfold inflate_in_load
  rw [if_neg (by omega), h]
  rfl

/-- A reader that has enough input left after position `P` holds at least `n`
bits once loaded. -/
theorem reads_enough {s : inflate_state} {P E n : Nat} (h : Reads s P E)
    (hn : P + n ≤ 8 * E) (hl : 57 ≤ s.read_in_length ∨ s.avail_in = 0) (h56 : n ≤ 56) :
    (n : Int) ≤ s.read_in_length := by
  obtain ⟨h0, h64, hpos, hfin, hav, hlt, hvalid, hjunk⟩ := h
  rcases hl with hl | hl
  · omega
  · omega

/-- Taking the low `n` bits off a reader that holds them. -/
theorem reads_consume {s : inflate_state} {P E n : Nat} (h : Reads s P E)
    (hn : (n : Int) ≤ s.read_in_length) :
    s.read_in % 2 ^ n = sval s.in_mem P n ∧
    Reads { s with read_in := s.read_in >>> n, read_in_length := s.read_in_length - n }
      (P + n) E := by
  obtain ⟨h0, h64, hpos, hfin, hav, hlt, hvalid, hjunk⟩ := h
  refine ⟨?_, ⟨?_, ?_, ?_, hfin, hav, ?_, ?_, ?_⟩⟩
  · apply Nat.eq_of_testBit_eq
    intro j
    rw [Nat.testBit_mod_two_pow, testBit_sval]
    by_cases hj : j < n
    · simp [hj, hvalid j (by omega)]
    · simp [hj]
  · show 0 ≤ s.read_in_length - n
    omega
  · show s.read_in_length - n ≤ 64
    omega
  · show ((P + n : Nat) : Int) + (s.read_in_length - n) = 8 * (s.next_in : Int)
    push_cast; omega
  · show s.read_in >>> n < 2 ^ 64
    rw [Nat.shiftRight_eq_div_pow]
    exact lt_of_le_of_lt (Nat.div_le_self _ _) hlt
  · intro j hj
    show (s.read_in >>> n).testBit j = sbit s.in_mem (P + n + j)
    have hj' : (j : Int) < s.read_in_length - n := hj
    rw [Nat.testBit_shiftRight, hvalid (n + j) (by push_cast; omega), Nat.add_assoc]
  · intro j hj
    have hj1 : (s.read_in >>> n).testBit j = true := hj
    rw [Nat.testBit_shiftRight] at hj1
    have := hjunk (n + j) hj1
    rw [Nat.add_assoc]
    exact this

theorem one_shiftLeft_sub_one_and (x n : Nat) : x &&& ((1 <<< n) - 1) = x % 2 ^ n := by
  rw [Nat.one_shiftLeft, Nat.and_pow_two_sub_one_eq_mod]

/-- `inflate_in_read_bits(n)` with the `n` bits present in the input: it
returns the next `n` stream bits and moves the reader past them. -/
theorem inflate_in_read_bits_reads {s : inflate_state} {P E : Nat} (n : Nat)
    (h : Reads s P E) (h56 : n ≤ 56) (hn : P + n ≤ 8 * E) :
    (inflate_in_read_bits s n).1 = sval s.in_mem P n ∧
    Reads (inflate_in_read_bits s n).2 (P + n) E ∧
    ReaderOnly s (inflate_in_read_bits s n).2 := by
  unfold inflate_in_read_bits
  by_cases hc : s.read_in_length < n
  · simp only [hc, if_true]
    obtain ⟨i1, i2, i3⟩ := inflate_in_load_reads n h (by omega)
    have hen := reads_enough i1 hn i3 h56
    obtain ⟨c1, c2⟩ := reads_consume i1 hen
    refine ⟨?_, c2, ?_⟩
    · rw [one_shiftLeft_sub_one_and, c1, i2.in_mem]
    · exact ReaderOnly.trans i2 ⟨rfl, rfl, rfl, rfl, rfl, rfl, rfl, rfl, rfl, rfl, rfl⟩
  · simp only [hc, if_false]
    obtain ⟨c1, c2⟩ := reads_consume (n := n) h (by omega)
    refine ⟨?_, c2, ⟨rfl, rfl, rfl, rfl, rfl, rfl, rfl, rfl, rfl, rfl, rfl⟩⟩
    rw [one_shiftLeft_sub_one_and, c1]

/-- `inflate_in_read_bits(n)` with fewer than `n` bits left in the input:
`read_in_length` becomes negative and no input is left. -/
theorem inflate_in_read_bits_short {s : inflate_state} {P E : Nat} (n : Nat)
    (h : Reads s P E) (h56 : n ≤ 56) (hn : 8 * E < P + n) :
    (inflate_in_read_bits s n).2.read_in_length < 0 ∧
    (inflate_in_read_bits s n).2.avail_in = 0 ∧
    ReaderOnly s (inflate_in_read_bits s n).2 := by
  unfold inflate_in_read_bits
  have hlt : s.read_in_length < n := by
    obtain ⟨h0, h64, hpos, hfin, hav, hlt, hvalid, hjunk⟩ := h
    omega
  simp only [hlt, if_true]
  obtain ⟨i1, i2, i3⟩ := inflate_in_load_reads n h (by omega)
  obtain ⟨h0, h64, hpos, hfin, hav, _, _, _⟩ := i1
  have ha0 : (inflate_in_load s n).avail_in = 0 := by
    rcases i3 with i3 | i3
    · omega
    · exact i3
  refine ⟨?_, ha0, ReaderOnly.trans i2 ⟨rfl, rfl, rfl, rfl, rfl, rfl, rfl, rfl, rfl, rfl, rfl⟩⟩
  show (inflate_in_load s n).read_in_length - (n : Int) < 0
  omega

/-- Once `read_in_length` is negative and the input is used up, further
reads keep it so. -/
theorem inflate_in_read_bits_underflow (s : inflate_state) (n : Nat)
    (h0 : s.read_in_length < 0) (ha : s.avail_in = 0) :
    (inflate_in_read_bits s n).2.read_in_length < 0 ∧
    (inflate_in_read_bits s n).2.avail_in = 0 ∧
    ReaderOnly s (inflate_in_read_bits s n).2 := by
  unfold inflate_in_read_bits
  have hlt : s.read_in_length < n := by omega
  simp only [hlt, if_true, inflate_in_load_empty s n ha]
  refine ⟨?_, ha, ⟨rfl, rfl, rfl, rfl, rfl, rfl, rfl, rfl, rfl, rfl, rfl⟩⟩
  show s.read_in_length - (n : Int) < 0
  omega

theorem Reads.congr {s t : inflate_state} {P E : Nat} (h : Reads s P E)
    (e1 : t.read_in = s.read_in) (e2 : t.read_in_length = s.read_in_length)
    (e3 : t.next_in = s.next_in) (e4 : t.avail_in = s.avail_in) (e5 : t.in_mem = s.in_mem) :
    Reads t P E := by
  obtain ⟨h0, h64, hpos, hfin, hav, hlt, hvalid, hjunk⟩ := h
  refine ⟨?_, ?_, ?_, ?_, ?_, ?_, ?_, ?_⟩
  · rw [e2]; exact h0
  · rw [e2]; exact h64
  · rw [e2, e3]; exact hpos
  · rw [e3, e4]; exact hfin
  · rw [e4]; exact hav
  · rw [e1]; exact hlt
  · rw [e1, e2, e5]; exact hvalid
  · rw [e1, e5]; exact hjunk

/-- After `isal_inflate_init` the reader stands at bit 0 of an input of
`in_size` bytes. -/
theorem reads_init (st : inflate_state) (in_mem out_mem : Nat → Nat) (in_size out_size : Nat)
    (h : in_size < 2 ^ 32) :
    Reads (isal_inflate_init st in_mem in_size out_mem out_size) 0 in_size := by
  refine ⟨le_refl _, by show (0 : Int) ≤ 64; norm_num, ?_, ?_, h, ?_, ?_, ?_⟩
  · show ((0 : Nat) : Int) + 0 = 8 * ((0 : Nat) : Int)
    norm_num
  · show 0 + in_size = in_size
    omega
  · show (0 : Nat) < 2 ^ 64
    norm_num
  · intro j hj
    have : (j : Int) < 0 := hj
    omega
  · intro j hj
    have : (0 : Nat).testBit j = true := hj
    simp at this

/-! ### The stored-block decoder -/

/-- `read_header` on a stored-block header (`btype == 0`) whose three bits are
in the input: it returns 0, stores `bfinal`, and leaves the reader empty at the
next byte boundary. -/
theorem read_header_stored (dls fuel : Nat) {s : inflate_state} {P E : Nat}
    (h : Reads s P E) (hE : E < 2 ^ 32) (h3 : P + 3 ≤ 8 * E)
    (hbt : sval s.in_mem (P + 1) 2 = 0) :
    ∃ t, read_header dls fuel s = some (Status.DECOMPRESSION_FINISHED, t) ∧
      t.read_in = 0 ∧ t.read_in_length = 0 ∧ t.next_in = (P + 10) / 8 ∧
      t.avail_in = E - (P + 10) / 8 ∧ t.new_block = 0 ∧ t.bfinal = sval s.in_mem P 1 ∧
      t.btype = 0 ∧ t.in_mem = s.in_mem ∧ t.out_mem = s.out_mem ∧ t.next_out = s.next_out ∧
      t.avail_out = s.avail_out ∧ t.total_out = s.total_out := by
  have h0 : Reads { s with new_block := 0 } P E := h.congr rfl rfl rfl rfl rfl
  obtain ⟨a1, a2, a3⟩ := inflate_in_read_bits_reads 1 h0 (by norm_num) (by omega)
  simp only [read_header]
  generalize inflate_in_read_bits { s with new_block := 0 } 1 = r1 at a1 a2 a3 ⊢
  obtain ⟨v1, t1⟩ := r1
  have a1' : v1 = sval s.in_mem P 1 := a1
  have a2' : Reads t1 (P + 1) E := a2
  have a3' : ReaderOnly { s with new_block := 0 } t1 := a3
  clear a1 a2 a3
  have h1 : Reads { t1 with bfinal := v1 % 256 } (P + 1) E := a2'.congr rfl rfl rfl rfl rfl
  obtain ⟨b1, b2, b3⟩ := inflate_in_read_bits_reads 2 h1 (by norm_num) (by omega)
  simp only []
  generalize inflate_in_read_bits { t1 with bfinal := v1 % 256 } 2 = r2 at b1 b2 b3 ⊢
  obtain ⟨v2, t2⟩ := r2
  have b1' : v2 = 0 := by
    have : v2 = sval t1.in_mem (P + 1) 2 := b1
    rw [this, a3'.in_mem]; exact hbt
  have b2' : Reads t2 (P + 3) E := b2
  have b3' : ReaderOnly { t1 with bfinal := v1 % 256 } t2 := b3
  clear b1 b2 b3
  subst b1'
  obtain ⟨c0, c64, cpos, cfin, cav, _, _, _⟩ := b2'
  have hnn : ¬ t2.read_in_length < 0 := by omega
  have hlt1 : sval s.in_mem P 1 < 2 ^ 1 := sval_lt _ _ _
  simp only [hnn, if_false, Nat.zero_mod, if_true]
  refine ⟨_, rfl, rfl, rfl, ?_, ?_, ?_, ?_, rfl, ?_, ?_, ?_, ?_, ?_⟩
  · rw [Int.tdiv_eq_ediv c0 (by norm_num)]
    show _ - _ = _
    omega
  · rw [Int.tdiv_eq_ediv c0 (by norm_num)]
    show (_ + _) % 2 ^ 32 = _
    omega
  · exact b3'.new_block.trans a3'.new_block
  · show t2.bfinal = _
    rw [b3'.bfinal]
    show v1 % 256 = _
    omega
  · exact b3'.in_mem.trans a3'.in_mem
  · exact b3'.out_mem.trans a3'.out_mem
  · exact b3'.next_out.trans a3'.next_out
  · exact b3'.avail_out.trans a3'.avail_out
  · exact b3'.total_out.trans a3'.total_out

/-- `decode_literal_block` on a block whose `len` data bytes are all in the
input and fit the output: the bytes are copied and the block is complete. -/
theorem decode_literal_block_complete (s : inflate_state)
    (hlen : load_u16 s.in_mem s.next_in = 65535 - load_u16 s.in_mem (s.next_in + 2))
    (hout : load_u16 s.in_mem s.next_in ≤ s.avail_out)
    (hin : load_u16 s.in_mem s.next_in + 4 ≤ s.avail_in) (hav : s.avail_in < 2 ^ 32) :
    decode_literal_block s = (Status.DECOMPRESSION_FINISHED,
      { s with
        out_mem := memcpy s.out_mem s.in_mem s.next_out (s.next_in + 4)
          (load_u16 s.in_mem s.next_in)
        next_out := s.next_out + load_u16 s.in_mem s.next_in
        avail_out := s.avail_out - load_u16 s.in_mem s.next_in
        total_out := s.total_out + load_u16 s.in_mem s.next_in
        next_in := s.next_in + 4 + load_u16 s.in_mem s.next_in
        avail_in := s.avail_in - (load_u16 s.in_mem s.next_in + 4)
        new_block := 1 }) := by
  unfold decode_literal_block
  rw [if_neg (by omega), if_neg (not_not.mpr hlen), if_neg (by omega), if_neg (by omega)]
  unfold decode_literal_copy
  have h3 : (s.avail_in + 2 ^ 32 - (load_u16 s.in_mem s.next_in + 4)) % 2 ^ 32
      = s.avail_in - (load_u16 s.in_mem s.next_in + 4) := by omega
  rw [if_neg (by simp)]
  simp only [h3]

theorem holds_getD {mem : Nat → Nat} {bytes : List Nat} (h : Holds mem bytes) (i : Nat)
    (hi : i < bytes.length) : mem i = bytes.getD i 0 := h i hi

theorem holds_mem_of (bytes : List Nat) : Holds (mem_of bytes) bytes := fun _ _ => rfl

theorem stored_block_length (x : List Nat) : (stored_block x).length = x.length + 5 := by
  simp [stored_block]

/-- The first trip of the driver on an input whose first byte announces a
stored block (`btype == 0`): the header is read and `decode_literal_block` is
called with the reader empty at byte 1. -/
theorem inflate_block_stored_first (dls fuel : Nat) (st : inflate_state)
    (in_mem out_mem : Nat → Nat) (n cap : Nat) (hn1 : 1 ≤ n) (hn : n < 2 ^ 32)
    (hbt : in_mem 0 % 8 / 2 = 0) :
    ∃ t, inflate_block dls fuel (isal_inflate_init st in_mem n out_mem cap)
        = some (decode_literal_block t) ∧
      t.read_in = 0 ∧ t.read_in_length = 0 ∧ t.next_in = 1 ∧ t.avail_in = n - 1 ∧
      t.new_block = 0 ∧ t.bfinal = in_mem 0 % 2 ∧ t.btype = 0 ∧ t.in_mem = in_mem ∧
      t.out_mem = out_mem ∧ t.next_out = 0 ∧ t.avail_out = cap ∧ t.total_out = 0 := by
  have hr := reads_init st in_mem out_mem n cap hn
  have b0 : sbit in_mem 0 = decide (in_mem 0 % 2 = 1) := by
    show (in_mem 0 % 256).testBit 0 = _
    rw [Nat.testBit_to_div_mod]
    apply decide_eq_decide.mpr
    omega
  have b1 : sbit in_mem 1 = false := by
    show (in_mem 0 % 256).testBit 1 = _
    rw [Nat.testBit_to_div_mod]
    apply decide_eq_false
    omega
  have b2 : sbit in_mem 2 = false := by
    show (in_mem 0 % 256).testBit 2 = _
    rw [Nat.testBit_to_div_mod]
    apply decide_eq_false
    omega
  have hs1 : sval in_mem (0 + 1) 2 = 0 := by
    show 0 + 2 ^ 0 * (sbit in_mem 1).toNat + 2 ^ 1 * (sbit in_mem 2).toNat = 0
    rw [b1, b2]; rfl
  have hs0 : sval in_mem 0 1 = in_mem 0 % 2 := by
    show 0 + 2 ^ 0 * (sbit in_mem 0).toNat = _
    rw [b0]
    by_cases c : in_mem 0 % 2 = 1
    · simp only [c, decide_True, Bool.toNat_true]; rfl
    · simp only [c, decide_False, Bool.toNat_false]; omega
  obtain ⟨t1, e1, r1, r2, r3, r4, r5, r6, r7, r8, r9, r10, r11, r12⟩ :=
    read_header_stored dls fuel hr hn (by omega) hs1
  refine ⟨t1, ?_, r1, r2, by rw [r3], by rw [r4], r5, by rw [r6]; exact hs0, r7, r8, r9,
    r10, r11, r12⟩
  unfold inflate_block
  have hnb : (isal_inflate_init st in_mem n out_mem cap).new_block ≠ 0 := by
    show (1 : Nat) ≠ 0
    norm_num
  rw [if_pos hnb, e1]
  simp only [r7, if_true]

/-- The driver returns the first non-zero status of a trip. -/
theorem isal_inflate_stateless_error (dls fuel : Nat) (s t : inflate_state) (e : Status)
    (hc : s.new_block = 0 ∨ s.bfinal = 0)
    (hb : inflate_block dls (fuel + 1) s = some (e, t))
    (he : e ≠ Status.DECOMPRESSION_FINISHED) :
    isal_inflate_stateless dls (fuel + 1) s = some (e, t) := by
  rw [isal_inflate_stateless, if_pos hc, hb]
  cases e <;> first | rfl | exact absurd rfl he

/-- The driver goes on with the next trip after a trip that returns 0. -/
theorem isal_inflate_stateless_next (dls fuel : Nat) (s t : inflate_state)
    (hc : s.new_block = 0 ∨ s.bfinal = 0)
    (hb : inflate_block dls (fuel + 1) s = some (Status.DECOMPRESSION_FINISHED, t)) :
    isal_inflate_stateless dls (fuel + 1) s = isal_inflate_stateless dls fuel t := by
  rw [isal_inflate_stateless, if_pos hc, hb]

/-- The driver ends when a final block is complete: it gives the whole bytes
left in `read_in` back to the input. -/
theorem isal_inflate_stateless_done (dls fuel : Nat) (s : inflate_state)
    (h1 : s.new_block ≠ 0) (h2 : s.bfinal ≠ 0) :
    isal_inflate_stateless dls (fuel + 1) s = some (Status.DECOMPRESSION_FINISHED,
      { s with
        next_in := ((s.next_in : Int) - s.read_in_length.tdiv 8).toNat
        avail_in := (((s.avail_in : Int) + s.read_in_length.tdiv 8) % 2 ^ 32).toNat }) := by
  rw [isal_inflate_stateless, if_neg (by tauto)]

/-- C2. Stored-block round trip: for a byte sequence `x` of at most 65535
bytes and an output capacity of at least `|x|`, `isal_inflate_init` followed by
`isal_inflate_stateless` on `01 len nlen x` returns `DECOMPRESSION_FINISHED`
with the output equal to `x`, `total_out = |x|`, `avail_out = cap - |x|` and
`avail_in = 0`, whatever lies in memory after the input. -/
theorem stored_block_round_trip (dls fuel : Nat) (st : inflate_state)
    (in_mem out_mem : Nat → Nat) (x : List Nat) (cap : Nat)
    (hx : x.length ≤ 65535) (hcap : x.length ≤ cap) (hin : Holds in_mem (stored_block x)) :
    ∃ t, isal_inflate_stateless dls (fuel + 2)
        (isal_inflate_init st in_mem (stored_block x).length out_mem cap)
        = some (Status.DECOMPRESSION_FINISHED, t) ∧
      output t = x ∧ t.total_out = x.length ∧ t.avail_out = cap - x.length ∧
      t.avail_in = 0 := by
  have hn := stored_block_length x
  have m0 : in_mem 0 = 1 := by
    rw [hin 0 (by omega)]; simp [stored_block]
  have m1 : in_mem 1 = x.length % 256 := by
    rw [hin 1 (by omega)]; simp [stored_block]
  have m2 : in_mem 2 = x.length / 256 := by
    rw [hin 2 (by omega)]; simp [stored_block]
  have m3 : in_mem 3 = 255 - x.length % 256 := by
    rw [hin 3 (by omega)]; simp [stored_block]
  have m4 : in_mem 4 = 255 - x.length / 256 := by
    rw [hin 4 (by omega)]; simp [stored_block]
  have m5 : ∀ k, k < x.length → in_mem (5 + k) = x.getD k 0 := by
    intro k hk
    rw [hin (5 + k) (by omega)]
    unfold stored_block
    rw [List.getD_append_right _ _ _ _ (by simp)]
    simp
  obtain ⟨t1, e1, r1, r2, r3, r4, r5, r6, r7, r8, r9, r10, r11, r12⟩ :=
    inflate_block_stored_first dls (fuel + 2) st in_mem out_mem (stored_block x).length cap
      (by omega) (by omega) (by rw [m0])
  have hlen : load_u16 t1.in_mem t1.next_in = x.length := by
    rw [r8, r3]
    unfold load_u16 load_u8
    rw [m1, m2]; omega
  have hnlen : load_u16 t1.in_mem (t1.next_in + 2) = 65535 - x.length := by
    rw [r8, r3]
    unfold load_u16 load_u8
    rw [m3, m4]; omega
  have hd := decode_literal_block_complete t1 (by rw [hlen, hnlen]; omega)
    (by rw [hlen, r11]; exact hcap) (by rw [hlen, r4]; omega) (by rw [r4]; omega)
  rw [hd] at e1
  rw [isal_inflate_stateless_next dls (fuel + 1) _ _ (Or.inr rfl) e1]
  rw [isal_inflate_stateless_done dls fuel _ (by show (1 : Nat) ≠ 0; norm_num)
    (by show t1.bfinal ≠ 0; rw [r6, m0]; norm_num)]
  refine ⟨_, rfl, ?_, ?_, ?_, ?_⟩
  · show (List.range (t1.total_out + load_u16 t1.in_mem t1.next_in)).map
      (memcpy t1.out_mem t1.in_mem t1.next_out (t1.next_in + 4)
        (load_u16 t1.in_mem t1.next_in)) = x
    rw [hlen, r12, r8, r9, r10, r3]
    apply List.ext_getElem
    · simp
    · intro k h1 h2
      rw [List.getElem_map, List.getElem_range]
      unfold memcpy
      rw [if_pos ⟨by omega, by omega⟩]
      rw [show 1 + 4 + (k - 0) = 5 + k by omega, m5 k h2]
      exact List.getD_eq_getElem _ _ h2
  · show t1.total_out + load_u16 t1.in_mem t1.next_in = x.length
    rw [hlen, r12]; omega
  · show t1.avail_out - load_u16 t1.in_mem t1.next_in = cap - x.length
    rw [hlen, r11]
  · show ((((t1.avail_in - (load_u16 t1.in_mem t1.next_in + 4) : Nat) : Int)
      + t1.read_in_length.tdiv 8) % 2 ^ 32).toNat = 0
    rw [r2, hlen, r4, hn]
    have : x.length + 5 - 1 - (x.length + 4) = 0 := by omega
    rw [this]
    simp

/-- Witness of C2: `01 05 00 FA FF 'hello'` gives `'hello'`. -/
theorem stored_block_round_trip_witness :
    ∃ t, isal_inflate_stateless 10 2
        (isal_inflate_init blank_state
          (mem_of [1, 5, 0, 250, 255, 104, 101, 108, 108, 111]) 10 (fun _ => 0) 5)
        = some (Status.DECOMPRESSION_FINISHED, t) ∧
      output t = [104, 101, 108, 108, 111] ∧ t.total_out = 5 ∧ t.avail_out = 0 ∧
      t.avail_in = 0 :=
  stored_block_round_trip 10 0 blank_state
    (mem_of [1, 5, 0, 250, 255, 104, 101, 108, 108, 111]) (fun _ => 0)
    [104, 101, 108, 108, 111] 5 (by decide) (by decide)
    (holds_mem_of [1, 5, 0, 250, 255, 104, 101, 108, 108, 111])

/-- C10. `decode_literal_block` returns `INVALID_NON_COMPRESSED_BLOCK_LENGTH`
exactly when at least four input bytes are available and the little-endian
16-bit values `len` and `nlen` read from them do not satisfy
`len == (~nlen & 0xffff)`; in that case the output memory, `next_out`,
`avail_out` and `total_out` are left as they were.  The stream
`01 05 00 00 00 'hello'` makes `isal_inflate_stateless` return that status. -/
theorem decode_literal_block_length_mismatch (s : inflate_state) :
    ((decode_literal_block s).1 = Status.INVALID_NON_COMPRESSED_BLOCK_LENGTH ↔
      (4 ≤ s.avail_in ∧
        load_u16 s.in_mem s.next_in ≠ 65535 - load_u16 s.in_mem (s.next_in + 2))) ∧
    ((decode_literal_block s).1 = Status.INVALID_NON_COMPRESSED_BLOCK_LENGTH →
      (decode_literal_block s).2.out_mem = s.out_mem ∧
      (decode_literal_block s).2.next_out = s.next_out ∧
      (decode_literal_block s).2.avail_out = s.avail_out ∧
      (decode_literal_block s).2.total_out = s.total_out) ∧
    (∀ (dls fuel : Nat) (st : inflate_state) (out : Nat → Nat) (cap : Nat),
      status_of (isal_inflate_stateless dls (fuel + 1)
        (isal_inflate_init st (mem_of [1, 5, 0, 0, 0, 104, 101, 108, 108, 111]) 10 out cap))
      = some Status.INVALID_NON_COMPRESSED_BLOCK_LENGTH) := by
  have key : ∀ u : inflate_state,
      ((decode_literal_block u).1 = Status.INVALID_NON_COMPRESSED_BLOCK_LENGTH ↔
        (4 ≤ u.avail_in ∧
          load_u16 u.in_mem u.next_in ≠ 65535 - load_u16 u.in_mem (u.next_in + 2))) ∧
      ((decode_literal_block u).1 = Status.INVALID_NON_COMPRESSED_BLOCK_LENGTH →
        (decode_literal_block u).2.out_mem = u.out_mem ∧
        (decode_literal_block u).2.next_out = u.next_out ∧
        (decode_literal_block u).2.avail_out = u.avail_out ∧
        (decode_literal_block u).2.total_out = u.total_out) := by
    intro u
    unfold decode_literal_block decode_literal_copy
    by_cases h4 : u.avail_in < 4
    · rw [if_pos h4]
      refine ⟨⟨fun h => ?_, fun h => ?_⟩, fun h => ?_⟩
      · cases h
      · omega
      · cases h
    · rw [if_neg h4]
      by_cases hl : load_u16 u.in_mem u.next_in ≠ 65535 - load_u16 u.in_mem (u.next_in + 2)
      · rw [if_pos hl]
        exact ⟨⟨fun _ => ⟨by omega, hl⟩, fun _ => rfl⟩, fun _ => ⟨rfl, rfl, rfl, rfl⟩⟩
      · rw [if_neg hl]
        refine ⟨⟨fun h => ?_, fun h => absurd h.2 hl⟩, fun h => ?_⟩ <;>
          split_ifs at h
  refine ⟨(key s).1, (key s).2, ?_⟩
  intro dls fuel st out cap
  obtain ⟨t1, e1, r1, r2, r3, r4, r5, r6, r7, r8, r9, r10, r11, r12⟩ :=
    inflate_block_stored_first dls (fuel + 1) st
      (mem_of [1, 5, 0, 0, 0, 104, 101, 108, 108, 111]) out 10 cap
      (by norm_num) (by norm_num) (by decide)
  have hst : (decode_literal_block t1).1 = Status.INVALID_NON_COMPRESSED_BLOCK_LENGTH := by
    rw [(key t1).1, r4, r8, r3]
    exact ⟨by norm_num, by decide⟩
  have e2 : inflate_block dls (fuel + 1)
      (isal_inflate_init st (mem_of [1, 5, 0, 0, 0, 104, 101, 108, 108, 111]) 10 out cap)
      = some (Status.INVALID_NON_COMPRESSED_BLOCK_LENGTH, (decode_literal_block t1).2) := by
    rw [e1, ← hst]
  rw [isal_inflate_stateless_error dls fuel _ _ _ (Or.inr rfl) e2 (by decide)]
  rfl

/-- `decode_literal_block` on a block that lacks between one and four of its
`len` data bytes: it takes the block for complete, copies `len` bytes, so reads
past the end of the input, and `avail_in` wraps around. -/
theorem decode_literal_block_overrun (s : inflate_state)
    (hlen : load_u16 s.in_mem s.next_in = 65535 - load_u16 s.in_mem (s.next_in + 2))
    (hout : load_u16 s.in_mem s.next_in ≤ s.avail_out)
    (h4 : 4 ≤ s.avail_in) (hge : load_u16 s.in_mem s.next_in ≤ s.avail_in)
    (hlt : s.avail_in < load_u16 s.in_mem s.next_in + 4) :
    decode_literal_block s = (Status.DECOMPRESSION_FINISHED,
      { s with
        out_mem := memcpy s.out_mem s.in_mem s.next_out (s.next_in + 4)
          (load_u16 s.in_mem s.next_in)
        next_out := s.next_out + load_u16 s.in_mem s.next_in
        avail_out := s.avail_out - load_u16 s.in_mem s.next_in
        total_out := s.total_out + load_u16 s.in_mem s.next_in
        next_in := s.next_in + 4 + load_u16 s.in_mem s.next_in
        avail_in := s.avail_in + 2 ^ 32 - (load_u16 s.in_mem s.next_in + 4)
        new_block := 1 }) := by
  unfold decode_literal_block
  rw [if_neg (by omega), if_neg (not_not.mpr hlen), if_neg (by omega), if_neg (by omega)]
  unfold decode_literal_copy
  have h3 : (s.avail_in + 2 ^ 32 - (load_u16 s.in_mem s.next_in + 4)) % 2 ^ 32
      = s.avail_in + 2 ^ 32 - (load_u16 s.in_mem s.next_in + 4) := by omega
  rw [if_neg (by simp)]
  simp only [h3]

/-- C5, the code at the failing input `01 05 00 FA FF 'hel'` (a stored block
of `len = 5` with three data bytes) and an output capacity of 5: the run
returns `DECOMPRESSION_FINISHED` with `total_out = 5`, `next_in` two bytes past
the end of the eight input bytes and `avail_in` wrapped to `2^32 - 2`. -/
theorem truncated_stored_block_run (dls fuel : Nat) (st : inflate_state)
    (out_mem : Nat → Nat) :
    ∃ t, isal_inflate_stateless dls (fuel + 2)
        (isal_inflate_init st (mem_of [1, 5, 0, 250, 255, 104, 101, 108]) 8 out_mem 5)
        = some (Status.DECOMPRESSION_FINISHED, t) ∧
      t.total_out = 5 ∧ t.next_in = 10 ∧ t.avail_in = 4294967294 := by
  obtain ⟨t1, e1, r1, r2, r3, r4, r5, r6, r7, r8, r9, r10, r11, r12⟩ :=
    inflate_block_stored_first dls (fuel + 2) st
      (mem_of [1, 5, 0, 250, 255, 104, 101, 108]) out_mem 8 5
      (by norm_num) (by norm_num) (by decide)
  have hlen : load_u16 t1.in_mem t1.next_in = 5 := by rw [r8, r3]; decide
  have hnlen : load_u16 t1.in_mem (t1.next_in + 2) = 65530 := by rw [r8, r3]; decide
  have hd := decode_literal_block_overrun t1 (by rw [hlen, hnlen])
    (by rw [hlen, r11]) (by rw [r4]; norm_num) (by rw [hlen, r4]; norm_num)
    (by rw [hlen, r4]; norm_num)
  rw [hd] at e1
  rw [isal_inflate_stateless_next dls (fuel + 1) _ _ (Or.inr rfl) e1]
  rw [isal_inflate_stateless_done dls fuel _ (by show (1 : Nat) ≠ 0; norm_num)
    (by show t1.bfinal ≠ 0; rw [r6]; decide)]
  refine ⟨_, rfl, ?_, ?_, ?_⟩
  · show t1.total_out + load_u16 t1.in_mem t1.next_in = 5
    rw [hlen, r12]
  · show (((t1.next_in + 4 + load_u16 t1.in_mem t1.next_in : Nat) : Int)
      - t1.read_in_length.tdiv 8).toNat = 10
    rw [hlen, r3, r2]; decide
  · show ((((t1.avail_in + 2 ^ 32 - (load_u16 t1.in_mem t1.next_in + 4) : Nat) : Int)
      + t1.read_in_length.tdiv 8) % 2 ^ 32).toNat = 4294967294
    rw [hlen, r4, r2]; decide

/-- C6, the code at the failing input: a state with `avail_in = 7` whose input
is `05 00 FA FF 'hel'` (`len = 5`, three data bytes) and `avail_out = 5`.
`decode_literal_block` returns 0 having copied 5 bytes (`7 - 4 = 3` are
present), `next_in` ends 9 bytes on (7 are available) and `avail_in` is
`2^32 - 2`. -/
theorem decode_literal_block_reads_past_input :
    (decode_literal_block
      { blank_state with
        in_mem := mem_of [5, 0, 250, 255, 104, 101, 108]
        avail_in := 7
        avail_out := 5 }).1 = Status.DECOMPRESSION_FINISHED ∧
    (decode_literal_block
      { blank_state with
        in_mem := mem_of [5, 0, 250, 255, 104, 101, 108]
        avail_in := 7
        avail_out := 5 }).2.total_out = 5 ∧
    (decode_literal_block
      { blank_state with
        in_mem := mem_of [5, 0, 250, 255, 104, 101, 108]
        avail_in := 7
        avail_out := 5 }).2.next_in = 9 ∧
    (decode_literal_block
      { blank_state with
        in_mem := mem_of [5, 0, 250, 255, 104, 101, 108]
        avail_in := 7
        avail_out := 5 }).2.avail_in = 4294967294 := by
  decide

/-! ### Frames: what the reading functions leave alone -/

theorem inflate_in_load_loop_frame (fuel : Nat) :
    ∀ s : inflate_state, ReaderOnly s (inflate_in_load_loop fuel s) := by
  induction fuel with
  | zero => intro s; exact ReaderOnly.same s
  | succ n ih =>
    intro s
    simp only [inflate_in_load_loop]
    split_ifs
    · refine ReaderOnly.trans ?_ (ih _)
      exact ⟨rfl, rfl, rfl, rfl, rfl, rfl, rfl, rfl, rfl, rfl, rfl⟩
    · exact ReaderOnly.same s

theorem inflate_in_load_frame (s : inflate_state) (k : Nat) :
    ReaderOnly s (inflate_in_load s k) := by
  unfold inflate_in_load
  split_ifs
  · exact ⟨rfl, rfl, rfl, rfl, rfl, rfl, rfl, rfl, rfl, rfl, rfl⟩
  · exact inflate_in_load_loop_frame _ s

theorem inflate_in_read_bits_frame (s : inflate_state) (n : Nat) :
    ReaderOnly s (inflate_in_read_bits s n).2 := by
  unfold inflate_in_read_bits
  split_ifs
  · exact ReaderOnly.trans (inflate_in_load_frame s n)
      ⟨rfl, rfl, rfl, rfl, rfl, rfl, rfl, rfl, rfl, rfl, rfl⟩
  · exact ⟨rfl, rfl, rfl, rfl, rfl, rfl, rfl, rfl, rfl, rfl, rfl⟩

theorem decode_next_frame (dls : Nat) (s : inflate_state) (c : inflate_huff_code) :
    ReaderOnly s (decode_next dls s c).2 := by
  unfold decode_next
  simp only []
  generalize hs1 :
    (if s.read_in_length ≤ DEFLATE_CODE_MAX_LENGTH then inflate_in_load s 0 else s) = s1
  have h1 : ReaderOnly s s1 := by
    rw [← hs1]
    split_ifs
    · exact inflate_in_load_frame s 0
    · exact ReaderOnly.same s
  split_ifs <;>
    exact ReaderOnly.trans h1 ⟨rfl, rfl, rfl, rfl, rfl, rfl, rfl, rfl, rfl, rfl, rfl⟩

theorem decode_length_frame (s : inflate_state) (next_lit : Nat) :
    ReaderOnly s (decode_length s next_lit).2 :=
  inflate_in_read_bits_frame s _

theorem decode_distance_frame (dls : Nat) (s : inflate_state) :
    ReaderOnly s (decode_distance dls s).2 :=
  ReaderOnly.trans (decode_next_frame dls s _) (inflate_in_read_bits_frame _ _)

theorem state_after_pair_frame (dls : Nat) (s : inflate_state) :
    ReaderOnly s (state_after_pair dls s) :=
  ReaderOnly.trans (decode_next_frame dls s _)
    (ReaderOnly.trans (decode_length_frame _ _) (decode_distance_frame dls _))

/-! ### The back-copy -/

theorem byte_copy_loop_spec (n : Nat) :
    ∀ (mem : Nat → Nat) (dest src : Nat), src < dest →
      (∀ k, k < dest → byte_copy_loop mem dest src n k = mem k) ∧
      (∀ k, dest + n ≤ k → byte_copy_loop mem dest src n k = mem k) ∧
      (∀ i, i < n → byte_copy_loop mem dest src n (dest + i)
        = byte_copy_loop mem dest src n (src + i)) := by
  induction n with
  | zero =>
    intro mem dest src _
    exact ⟨fun _ _ => rfl, fun _ _ => rfl, fun i hi => absurd hi (Nat.not_lt_zero i)⟩
  | succ n ih =>
    intro mem dest src hsd
    obtain ⟨a, b, c⟩ := ih (store mem dest (mem src)) (dest + 1) (src + 1) (by omega)
    simp only [byte_copy_loop]
    refine ⟨?_, ?_, ?_⟩
    · intro k hk
      rw [a k (by omega), store_other _ _ _ _ (by omega)]
    · intro k hk
      rw [b k (by omega), store_other _ _ _ _ (by omega)]
    · intro i hi
      cases i with
      | zero =>
        show byte_copy_loop _ _ _ n dest = byte_copy_loop _ _ _ n src
        rw [a dest (by omega), a src (by omega), store_same,
          store_other _ _ _ _ (by omega)]
      | succ j =>
        have := c j (by omega)
        rw [show dest + (j + 1) = dest + 1 + j by omega,
          show src + (j + 1) = src + 1 + j by omega]
        exact this

/-- The back-copy has the byte-by-byte overlapping semantics on both code paths. -/
theorem back_copy_spec (out : Nat → Nat) (p d n : Nat) (hd : 1 ≤ d) (hp : d ≤ p) :
    (∀ i, i < n → back_copy out p d n (p + i) = back_copy out p d n (p + i - d)) ∧
    (∀ i, i < n → back_copy out p d n (p + i) = out (p - d + i % d)) ∧
    (∀ k, k < p → back_copy out p d n k = out k) ∧
    (∀ k, p + n ≤ k → back_copy out p d n k = out k) ∧
    (d = 1 → ∀ i, i < n → back_copy out p d n (p + i) = out (p - 1)) ∧
    (d > n → back_copy out p d n = memcpy out out p (p - d) n) ∧
    (d ≤ n → back_copy out p d n = byte_copy out p d n) ∧
    (∀ i, i < n → byte_copy out p d n (p + i) = out (p - d + i % d)) := by
  have hb : ∀ i, i < n → byte_copy out p d n (p + i) = out (p - d + i % d) := by
    obtain ⟨a, _, c⟩ := byte_copy_loop_spec n out p (p - d) (by omega)
    intro i
    induction i using Nat.strong_induction_on with
    | _ i ih =>
      intro hi
      unfold byte_copy
      rw [c i hi]
      by_cases hid : i < d
      · rw [a _ (by omega), Nat.mod_eq_of_lt hid]
      · have h1 := ih (i - d) (by omega) (by omega)
        unfold byte_copy at h1
        rw [show p - d + i = p + (i - d) by omega, h1]
        congr 2
        exact (Nat.mod_eq_sub_mod (by omega)).symm
  have hm : d > n → ∀ i, i < n → memcpy out out p (p - d) n (p + i) = out (p - d + i % d) := by
    intro hdn i hi
    unfold memcpy
    rw [if_pos ⟨by omega, by omega⟩, Nat.mod_eq_of_lt (by omega)]
    congr 1; omega
  have h2 : ∀ i, i < n → back_copy out p d n (p + i) = out (p - d + i % d) := by
    intro i hi
    unfold back_copy
    split_ifs with hc
    · exact hm hc i hi
    · exact hb i hi
  have h3 : ∀ k, k < p → back_copy out p d n k = out k := by
    intro k hk
    unfold back_copy
    split_ifs with hc
    · unfold memcpy
      rw [if_neg (by omega)]
    · exact (byte_copy_loop_spec n out p (p - d) (by omega)).1 k hk
  refine ⟨?_, h2, h3, ?_, ?_, ?_, ?_, hb⟩
  · intro i hi
    rw [h2 i hi]
    by_cases hid : i < d
    · rw [h3 _ (by omega), Nat.mod_eq_of_lt hid]
      congr 1; omega
    · rw [show p + i - d = p + (i - d) by omega, h2 (i - d) (by omega)]
      congr 2
      exact Nat.mod_eq_sub_mod (by omega)
  · intro k hk
    unfold back_copy
    split_ifs with hc
    · unfold memcpy
      rw [if_neg (by omega)]
    · exact (byte_copy_loop_spec n out p (p - d) (by omega)).2.1 k hk
  · intro h1 i hi
    rw [h2 i hi, h1, Nat.mod_one]
    rfl
  · intro hc
    unfold back_copy
    rw [if_pos hc]
  · intro hc
    unfold back_copy
    rw [if_neg (by omega)]

/-- C9. The back-copy of `decode_huffman_code_block_stateless_base` at output
position `p` with distance `d` (`1 <= d <= p`) and length `n` has the
byte-by-byte overlapping semantics on both code paths: afterwards
`out'[p + i] = out'[p + i - d] = out[p - d + i % d]` for `i < n`, the bytes
before `p` and from `p + n` on are unchanged; this holds for the `memcpy`
branch (`d > n`), for `byte_copy` (any `n`), hence for the branch the code
takes.  With `d = 1` the byte at `p - 1` is written `n` times. -/
theorem back_copy_overlapping (out : Nat → Nat) (p d n : Nat) (hd : 1 ≤ d) (hp : d ≤ p) :
    (∀ i, i < n → back_copy out p d n (p + i) = back_copy out p d n (p + i - d)) ∧
    (∀ i, i < n → back_copy out p d n (p + i) = out (p - d + i % d)) ∧
    (∀ k, k < p → back_copy out p d n k = out k) ∧
    (∀ k, p + n ≤ k → back_copy out p d n k = out k) ∧
    (d = 1 → ∀ i, i < n → back_copy out p d n (p + i) = out (p - 1)) ∧
    (d > n → back_copy out p d n = memcpy out out p (p - d) n) ∧
    (d ≤ n → back_copy out p d n = byte_copy out p d n) ∧
    (∀ i, i < n → byte_copy out p d n (p + i) = out (p - d + i % d)) :=
  back_copy_spec out p d n hd hp

/-- Witness of C9: position 1, distance 1, length 5. -/
theorem back_copy_overlapping_witness :
    (1 ≤ 1 ∧ 1 ≤ 1) ∧
    (∀ i, i < 5 → back_copy (mem_of [97]) 1 1 5 (1 + i) = mem_of [97] (1 - 1)) :=
  ⟨⟨by decide, by decide⟩,
    (back_copy_overlapping (mem_of [97]) 1 1 5 (by decide) (by decide)).2.2.2.2.1 rfl⟩

/-! ### The look-back bound -/

/-- C8. In the body of the block loop, for a length/distance pair decoded
without input underflow and with `repeat_length <= avail_out`: the body returns
`INVALID_LOOK_BACK_DISTANCE` if and only if `look_back_dist > total_out`, and
then `decode_huffman_code_block_stateless_base` returns it with nothing
written; otherwise (in particular when `look_back_dist == total_out`) the pair
is accepted and the back-copy is performed from `next_out - look_back_dist`,
which is the first byte emitted when `look_back_dist == total_out == next_out`. -/
theorem look_back_distance_bound (dls : Nat) (s : inflate_state)
    (hsym : 256 < pair_symbol dls s ∧ pair_symbol dls s < 286)
    (hnu1 : 0 ≤ (state_after_symbol dls s).read_in_length)
    (hfit : pair_length dls s ≤ s.avail_out)
    (hnu : 0 ≤ (state_after_pair dls s).read_in_length) :
    ((∃ t, decode_huffman_body dls s = Step.ret Status.INVALID_LOOK_BACK_DISTANCE t) ↔
      pair_distance dls s > s.total_out) ∧
    (pair_distance dls s > s.total_out →
      decode_huffman_body dls s
        = Step.ret Status.INVALID_LOOK_BACK_DISTANCE (state_after_pair dls s) ∧
      (s.new_block = 0 → ∀ fuel, decode_huffman_code_block_stateless_base dls (fuel + 1) s
        = some (Status.INVALID_LOOK_BACK_DISTANCE, state_after_pair dls s)) ∧
      (state_after_pair dls s).out_mem = s.out_mem ∧
      (state_after_pair dls s).next_out = s.next_out ∧
      (state_after_pair dls s).avail_out = s.avail_out ∧
      (state_after_pair dls s).total_out = s.total_out) ∧
    (pair_distance dls s ≤ s.total_out →
      decode_huffman_body dls s = Step.next
        { state_after_pair dls s with
          out_mem := back_copy s.out_mem s.next_out (pair_distance dls s) (pair_length dls s)
          next_out := s.next_out + pair_length dls s
          avail_out := s.avail_out - pair_length dls s
          total_out := s.total_out + pair_length dls s }) ∧
    (pair_distance dls s = s.total_out → s.next_out = s.total_out → 1 ≤ s.total_out →
      ∀ i, i < pair_length dls s →
        back_copy s.out_mem s.next_out (pair_distance dls s) (pair_length dls s) (s.next_out + i)
          = s.out_mem (i % s.total_out)) := by
  have f1 := decode_next_frame dls s s.lit_huff_code
  have f2 := decode_length_frame (state_after_symbol dls s) (pair_symbol dls s)
  have f3 := state_after_pair_frame dls s
  have hb : decode_huffman_body dls s =
      if pair_distance dls s > s.total_out then
        Step.ret Status.INVALID_LOOK_BACK_DISTANCE (state_after_pair dls s)
      else Step.next
        { state_after_pair dls s with
          out_mem := back_copy s.out_mem s.next_out (pair_distance dls s) (pair_length dls s)
          next_out := s.next_out + pair_length dls s
          avail_out := s.avail_out - pair_length dls s
          total_out := s.total_out + pair_length dls s } := by
    unfold decode_huffman_body
    simp only []
    have c1 : ¬ (decode_next dls s s.lit_huff_code).2.read_in_length < 0 := by
      have := hnu1; unfold state_after_symbol at this; omega
    have c2 : ¬ (decode_next dls s s.lit_huff_code).1 < 256 := by
      have := hsym.1; unfold pair_symbol at this; omega
    have c3 : ¬ (decode_next dls s s.lit_huff_code).1 = 256 := by
      have := hsym.1; unfold pair_symbol at this; omega
    have c4 : (decode_next dls s s.lit_huff_code).1 < 286 := hsym.2
    rw [if_neg c1, if_neg c2, if_neg c3, if_pos c4]
    have c5 : ¬ (decode_length (decode_next dls s s.lit_huff_code).2
        (decode_next dls s s.lit_huff_code).1).2.avail_out
        < (decode_length (decode_next dls s s.lit_huff_code).2
          (decode_next dls s s.lit_huff_code).1).1 := by
      have e : (state_after_length dls s).avail_out = s.avail_out :=
        f2.avail_out.trans f1.avail_out
      have := hfit
      unfold pair_length at this
      unfold state_after_length state_after_symbol pair_symbol at e
      unfold state_after_symbol pair_symbol at this
      omega
    rw [if_neg c5]
    have c6 : ¬ (state_after_pair dls s).read_in_length < 0 := by omega
    have fold1 : decode_distance dls (decode_length (decode_next dls s s.lit_huff_code).2
        (decode_next dls s s.lit_huff_code).1).2
        = (pair_distance dls s, state_after_pair dls s) := rfl
    have fold2 : (decode_length (decode_next dls s s.lit_huff_code).2
        (decode_next dls s s.lit_huff_code).1).1 = pair_length dls s := rfl
    simp only [fold1, fold2]
    rw [if_neg c6, f3.total_out, f3.out_mem, f3.next_out, f3.avail_out]
  refine ⟨?_, ?_, ?_, ?_⟩
  · rw [hb]
    constructor
    · rintro ⟨t, ht⟩
      by_contra hc
      rw [if_neg hc] at ht
      cases ht
    · intro hc
      exact ⟨_, if_pos hc⟩
  · intro hc
    have hb2 : decode_huffman_body dls s
        = Step.ret Status.INVALID_LOOK_BACK_DISTANCE (state_after_pair dls s) := by
      rw [hb, if_pos hc]
    refine ⟨hb2, ?_, f3.out_mem, f3.next_out, f3.avail_out, f3.total_out⟩
    intro hnb fuel
    rw [decode_huffman_code_block_stateless_base, if_pos hnb, hb2]
  · intro hc
    rw [hb, if_neg (by omega)]
  · intro h1 h2 h3 i hi
    rw [h1, h2]
    have := (back_copy_spec s.out_mem s.total_out s.total_out (pair_length dls s) h3
      (le_refl _)).2.1 i hi
    rw [this, Nat.sub_self, Nat.zero_add]

/-- Witness of C8: in `pair_state` a pair of length 3 and distance 1 is decoded
with one byte written, so the distance equals `total_out` and is accepted. -/
theorem look_back_distance_bound_witness :
    (256 < pair_symbol 10 pair_state ∧ pair_symbol 10 pair_state < 286) ∧
    pair_distance 10 pair_state = 1 ∧ pair_state.total_out = 1 ∧
    ((∃ t, decode_huffman_body 10 pair_state
        = Step.ret Status.INVALID_LOOK_BACK_DISTANCE t) ↔
      pair_distance 10 pair_state > pair_state.total_out) :=
  ⟨by decide, by decide, rfl,
    (look_back_distance_bound 10 pair_state (by decide) (by decide) (by decide)
      (by decide)).1⟩

/-! ### Output accounting -/

theorem OutSame.keep (s : inflate_state) : OutSame s s := ⟨rfl, rfl, rfl, rfl⟩

theorem OutSame.chain {s t u : inflate_state} (h1 : OutSame s t) (h2 : OutSame t u) :
    OutSame s u :=
  ⟨h2.out_mem.trans h1.out_mem, h2.next_out.trans h1.next_out,
   h2.avail_out.trans h1.avail_out, h2.total_out.trans h1.total_out⟩

theorem ReaderOnly.out {s t : inflate_state} (h : ReaderOnly s t) : OutSame s t :=
  ⟨h.out_mem, h.next_out, h.avail_out, h.total_out⟩

theorem OutInv.of_same {cap : Nat} {out0 : Nat → Nat} {s t : inflate_state}
    (h : OutInv cap out0 s) (e : OutSame s t) : OutInv cap out0 t := by
  obtain ⟨h1, h2, h3⟩ := h
  refine ⟨?_, ?_, ?_⟩
  · rw [e.next_out, e.total_out]; exact h1
  · rw [e.avail_out, e.total_out]; exact h2
  · rw [e.out_mem, e.total_out]; exact h3

theorem read_code_lengths_frame (v0 : code_len_vars) (n : Nat) :
    ReaderOnly v0.s (read_code_lengths v0 n).s := by
  induction n with
  | zero => exact ReaderOnly.same _
  | succ n ih => exact ReaderOnly.trans ih (inflate_in_read_bits_frame _ 3)

theorem dyn_count_incr_s (v : dyn_vars) (len : Nat) : (dyn_count_incr v len).s = v.s := by
  unfold dyn_count_incr; split_ifs <;> rfl

theorem dyn_advance_s (hlit : Nat) (v : dyn_vars) : (dyn_advance hlit v).s = v.s := by
  unfold dyn_advance; split_ifs <;> rfl

theorem dyn_repeat_previous_s (hlit : Nat) (v : dyn_vars) (n : Nat) :
    (dyn_repeat_previous hlit v n).s = v.s := by
  induction n with
  | zero => rfl
  | succ n ih =>
    simp only [dyn_repeat_previous]
    rw [dyn_advance_s]
    show (dyn_count_incr _ _).s = v.s
    rw [dyn_count_incr_s]
    exact ih

theorem dyn_repeat_zero_s (hlit : Nat) (v : dyn_vars) (n : Nat) :
    (dyn_repeat_zero hlit v n).s = v.s := by
  induction n with
  | zero => rfl
  | succ n ih =>
    simp only [dyn_repeat_zero]
    rw [dyn_advance_s]
    exact ih

theorem dyn_enter_s (hlit : Nat) (v : dyn_vars) : (dyn_enter hlit v).s = v.s := by
  unfold dyn_enter
  simp only []
  split_ifs <;> rfl

theorem dyn_set_length_s (v : dyn_vars) (symbol : Nat) : (dyn_set_length v symbol).s = v.s := by
  unfold dyn_set_length
  show (dyn_count_incr v symbol).s = v.s
  exact dyn_count_incr_s v symbol

/-- The body of the main loop of `setup_dynamic_header` changes the state only
in the fields of the bit reader. -/
theorem dyn_body_frame (dls : Nat) (code : inflate_huff_code) (hlit : Nat) (v : dyn_vars) :
    (∀ e w, dyn_body dls code hlit v = DynStep.ret e w → ReaderOnly v.s w.s) ∧
    (∀ w, dyn_body dls code hlit v = DynStep.next w → ReaderOnly v.s w.s) := by
  have h0 : ReaderOnly v.s (decode_next dls (dyn_enter hlit v).s code).2 := by
    refine ReaderOnly.trans ?_ (decode_next_frame dls (dyn_enter hlit v).s code)
    rw [dyn_enter_s]
    exact ReaderOnly.same _
  unfold dyn_body
  simp only []
  refine ⟨?_, ?_⟩
  · intro e w h
    split_ifs at h <;> cases h <;> exact h0
  · intro w h
    split_ifs at h <;> cases h
    · rw [dyn_set_length_s]; exact h0
    · rw [dyn_repeat_previous_s]
      exact ReaderOnly.trans h0 (inflate_in_read_bits_frame _ _)
    · rw [dyn_repeat_zero_s]
      exact ReaderOnly.trans h0 (inflate_in_read_bits_frame _ _)
    · rw [dyn_repeat_zero_s]
      exact ReaderOnly.trans h0 (inflate_in_read_bits_frame _ _)

theorem dyn_loop_frame (dls : Nat) (code : inflate_huff_code) (hlit hdist : Nat) (fuel : Nat) :
    ∀ (v : dyn_vars) (e : Status) (w : dyn_vars),
      dyn_loop dls code hlit hdist fuel v = some (e, w) → ReaderOnly v.s w.s := by
  induction fuel with
  | zero => intro v e w h; cases h
  | succ n ih =>
    intro v e w h
    rw [dyn_loop] at h
    split_ifs at h
    · cases hb : dyn_body dls code hlit v with
      | ret e1 w1 =>
        rw [hb] at h
        cases h
        exact (dyn_body_frame dls code hlit v).1 _ _ hb
      | next w1 =>
        rw [hb] at h
        exact ReaderOnly.trans ((dyn_body_frame dls code hlit v).2 _ hb) (ih _ _ _ h)
    · cases h
      exact ReaderOnly.same _

theorem dyn_code_lengths_frame (s : inflate_state) : ReaderOnly s (dyn_code_lengths s).s := by
  have h1 := inflate_in_read_bits_frame s 5
  have h2 := inflate_in_read_bits_frame (inflate_in_read_bits s 5).2 5
  have h3 := inflate_in_read_bits_frame (inflate_in_read_bits (inflate_in_read_bits s 5).2 5).2 4
  have h4 := read_code_lengths_frame
    { s := (inflate_in_read_bits (inflate_in_read_bits (inflate_in_read_bits s 5).2 5).2 4).2
      code_huff := zero_huff_table
      code_count := fun _ => 0 }
    ((inflate_in_read_bits (inflate_in_read_bits (inflate_in_read_bits s 5).2 5).2 4).1 % 256 + 4)
  exact ReaderOnly.trans h1 (ReaderOnly.trans h2 (ReaderOnly.trans h3 h4))

theorem dyn_finish_out (dls : Nat) (v : dyn_vars) : OutSame v.s (dyn_finish dls v).2 := by
  unfold dyn_finish
  split_ifs
  · exact OutSame.keep _
  · exact ⟨rfl, rfl, rfl, rfl⟩

theorem setup_dynamic_header_out (dls fuel : Nat) (s t : inflate_state) (e : Status)
    (h : setup_dynamic_header dls fuel s = some (e, t)) : OutSame s t := by
  unfold setup_dynamic_header at h
  simp only [] at h
  have f1 := (dyn_code_lengths_frame s).out
  split_ifs at h
  · cases h
    exact f1
  · generalize hl : dyn_loop dls _ _ _ fuel (dyn_start (dyn_code_lengths s).s) = r at h
    cases r with
    | none => cases h
    | some q =>
      obtain ⟨e1, w⟩ := q
      have f2 : OutSame (dyn_code_lengths s).s w.s := (dyn_loop_frame _ _ _ _ _ _ _ _ hl).out
      cases e1 <;> simp only [Option.some.injEq] at h
      · have f3 := dyn_finish_out dls w
        rw [h] at f3
        exact OutSame.chain f1 (OutSame.chain f2 f3)
      all_goals
        cases h
        exact OutSame.chain f1 f2

theorem read_header_out (dls fuel : Nat) (s t : inflate_state) (e : Status)
    (h : read_header dls fuel s = some (e, t)) : OutSame s t := by
  have g1 : OutSame s { s with new_block := 0 } := ⟨rfl, rfl, rfl, rfl⟩
  have f1 : OutSame s (inflate_in_read_bits { s with new_block := 0 } 1).2 :=
    OutSame.chain g1 (inflate_in_read_bits_frame _ 1).out
  unfold read_header at h
  simp only [] at h
  generalize inflate_in_read_bits { s with new_block := 0 } 1 = r1 at f1 h
  have g2 : OutSame r1.2 { r1.2 with bfinal := r1.1 % 256 } := ⟨rfl, rfl, rfl, rfl⟩
  have f2 : OutSame s (inflate_in_read_bits { r1.2 with bfinal := r1.1 % 256 } 2).2 :=
    OutSame.chain f1 (OutSame.chain g2 (inflate_in_read_bits_frame _ 2).out)
  generalize inflate_in_read_bits { r1.2 with bfinal := r1.1 % 256 } 2 = r2 at f2 h
  have g3 : OutSame r2.2 { r2.2 with btype := r2.1 % 256 } := ⟨rfl, rfl, rfl, rfl⟩
  have f3 := OutSame.chain f2 g3
  split_ifs at h
  · cases h; exact f3
  · cases h; exact OutSame.chain f3 ⟨rfl, rfl, rfl, rfl⟩
  · cases h; exact OutSame.chain f3 ⟨rfl, rfl, rfl, rfl⟩
  · exact OutSame.chain f3 (setup_dynamic_header_out dls fuel _ _ _ h)
  · cases h; exact f3

theorem byte_copy_loop_frame (n : Nat) :
    ∀ (mem : Nat → Nat) (dest src k : Nat), k < dest ∨ dest + n ≤ k →
      byte_copy_loop mem dest src n k = mem k := by
  induction n with
  | zero => intro mem dest src k _; rfl
  | succ n ih =>
    intro mem dest src k hk
    simp only [byte_copy_loop]
    rw [ih _ _ _ _ (by omega), store_other _ _ _ _ (by omega)]

/-- The back-copy writes only the `repeat_length` bytes from `next_out` on. -/
theorem back_copy_frame (out : Nat → Nat) (p d n k : Nat) (hk : k < p ∨ p + n ≤ k) :
    back_copy out p d n k = out k := by
  unfold back_copy
  split_ifs
  · unfold memcpy
    rw [if_neg (by omega)]
  · exact byte_copy_loop_frame n out p (p - d) k hk

theorem setup_static_header_out (dls : Nat) (s : inflate_state) :
    OutSame s (setup_static_header dls s) := by
  unfold setup_static_header
  exact ⟨rfl, rfl, rfl, rfl⟩

theorem decode_literal_copy_inv {cap : Nat} {out0 : Nat → Nat} {s : inflate_state}
    (len : Nat) (h : OutInv cap out0 s) (hl : len ≤ s.avail_out) :
    OutInv cap out0 (decode_literal_copy s len).2 := by
  obtain ⟨h1, h2, h3⟩ := h
  have key : OutInv cap out0
      { s with
        out_mem := memcpy s.out_mem s.in_mem s.next_out s.next_in len
        next_out := s.next_out + len
        avail_out := s.avail_out - len
        total_out := s.total_out + len
        next_in := s.next_in + len
        avail_in := (s.avail_in + 2 ^ 32 - (len + 4)) % 2 ^ 32 } := by
    refine ⟨?_, ?_, ?_⟩
    · show s.next_out + len = s.total_out + len
      rw [h1]
    · show s.total_out + len + (s.avail_out - len) = cap
      omega
    · intro k hk
      have hk' : s.total_out + len ≤ k := hk
      show memcpy s.out_mem s.in_mem s.next_out s.next_in len k = out0 k
      unfold memcpy
      rw [if_neg (by omega)]
      exact h3 k (by omega)
  unfold decode_literal_copy
  split_ifs <;> exact key

/-- `decode_literal_block` keeps the output accounting. -/
theorem decode_literal_block_inv {cap : Nat} {out0 : Nat → Nat} {s : inflate_state}
    (h : OutInv cap out0 s) : OutInv cap out0 (decode_literal_block s).2 := by
  have g : OutSame s { s with next_in := s.next_in + 4 } := ⟨rfl, rfl, rfl, rfl⟩
  have g1 : OutSame s { s with next_in := s.next_in + 4, new_block := 1 } := ⟨rfl, rfl, rfl, rfl⟩
  unfold decode_literal_block
  split_ifs with c1 c2 c3 c4
  · exact h
  · exact h.of_same g
  · exact h.of_same g
  · refine decode_literal_copy_inv _ (h.of_same g) ?_
    show s.avail_in % 65536 ≤ s.avail_out
    have := Nat.mod_le s.avail_in 65536
    omega
  · refine decode_literal_copy_inv _ (h.of_same g1) ?_
    show load_u16 s.in_mem s.next_in ≤ s.avail_out
    omega

/-- When the body of the block loop returns, it has written nothing. -/
theorem decode_huffman_body_ret_out (dls : Nat) (s : inflate_state) (e : Status)
    (t : inflate_state) (ht : decode_huffman_body dls s = Step.ret e t) : OutSame s t := by
  have f1 : OutSame s (decode_next dls s s.lit_huff_code).2 := (decode_next_frame dls s _).out
  have f2 : OutSame s (decode_length (decode_next dls s s.lit_huff_code).2
      (decode_next dls s s.lit_huff_code).1).2 :=
    OutSame.chain f1 (decode_length_frame _ _).out
  have f3 : OutSame s (decode_distance dls (decode_length (decode_next dls s s.lit_huff_code).2
      (decode_next dls s s.lit_huff_code).1).2).2 :=
    OutSame.chain f2 (decode_distance_frame dls _).out
  unfold decode_huffman_body at ht
  simp only [] at ht
  generalize decode_next dls s s.lit_huff_code = r at f1 f2 f3 ht
  generalize decode_length r.2 r.1 = l at f2 f3 ht
  generalize decode_distance dls l.2 = d at f3 ht
  split_ifs at ht <;> cases ht <;> assumption

/-- When the body of the block loop goes on, it keeps the output accounting
and does not lower `total_out`. -/
theorem decode_huffman_body_next_inv {cap : Nat} {out0 : Nat → Nat} (dls : Nat)
    {s : inflate_state} (h : OutInv cap out0 s) (t : inflate_state)
    (ht : decode_huffman_body dls s = Step.next t) :
    OutInv cap out0 t ∧ s.total_out ≤ t.total_out := by
  have f1 : OutSame s (decode_next dls s s.lit_huff_code).2 := (decode_next_frame dls s _).out
  have f2 : OutSame s (decode_length (decode_next dls s s.lit_huff_code).2
      (decode_next dls s s.lit_huff_code).1).2 :=
    OutSame.chain f1 (decode_length_frame _ _).out
  have f3 : OutSame s (decode_distance dls (decode_length (decode_next dls s s.lit_huff_code).2
      (decode_next dls s s.lit_huff_code).1).2).2 :=
    OutSame.chain f2 (decode_distance_frame dls _).out
  have i1 := h.of_same f1
  have i3 := h.of_same f3
  unfold decode_huffman_body at ht
  simp only [] at ht
  generalize decode_next dls s s.lit_huff_code = r at f1 f2 f3 i1 i3 ht
  generalize decode_length r.2 r.1 = l at f2 f3 i3 ht
  generalize decode_distance dls l.2 = d at f3 i3 ht
  split_ifs at ht with c1 c2 c3 c4 c5 c6 c7 c8 <;> cases ht
  · obtain ⟨a, b, c⟩ := i1
    refine ⟨⟨?_, ?_, ?_⟩, ?_⟩
    · show r.2.next_out + 1 = r.2.total_out + 1
      rw [a]
    · show r.2.total_out + 1 + (r.2.avail_out - 1) = cap
      omega
    · intro k hk
      have hk' : r.2.total_out + 1 ≤ k := hk
      show store r.2.out_mem r.2.next_out r.1 k = out0 k
      rw [store_other _ _ _ _ (by omega)]
      exact c k (by omega)
    · show s.total_out ≤ r.2.total_out + 1
      rw [f1.total_out]; omega
  · refine ⟨i1.of_same ⟨rfl, rfl, rfl, rfl⟩, ?_⟩
    show s.total_out ≤ r.2.total_out
    rw [f1.total_out]
  · obtain ⟨a, b, c⟩ := i3
    have hav : d.2.avail_out = l.2.avail_out := f3.avail_out.trans f2.avail_out.symm
    refine ⟨⟨?_, ?_, ?_⟩, ?_⟩
    · show d.2.next_out + l.1 = d.2.total_out + l.1
      rw [a]
    · show d.2.total_out + l.1 + (d.2.avail_out - l.1) = cap
      omega
    · intro k hk
      have hk' : d.2.total_out + l.1 ≤ k := hk
      show back_copy d.2.out_mem d.2.next_out d.1 l.1 k = out0 k
      rw [back_copy_frame _ _ _ _ _ (by omega)]
      exact c k (by omega)
    · show s.total_out ≤ d.2.total_out + l.1
      rw [f3.total_out]; omega

/-- `decode_huffman_code_block_stateless_base` keeps the output accounting and
never lowers `total_out`. -/
theorem decode_huffman_inv {cap : Nat} {out0 : Nat → Nat} (dls fuel : Nat) :
    ∀ (s : inflate_state) (e : Status) (t : inflate_state), OutInv cap out0 s →
      decode_huffman_code_block_stateless_base dls fuel s = some (e, t) →
      OutInv cap out0 t ∧ s.total_out ≤ t.total_out := by
  induction fuel with
  | zero => intro s e t _ h; cases h
  | succ n ih =>
    intro s e t hs h
    rw [decode_huffman_code_block_stateless_base] at h
    split_ifs at h
    · cases hb : decode_huffman_body dls s with
      | ret e1 t1 =>
        rw [hb] at h
        cases h
        have f := decode_huffman_body_ret_out dls s _ _ hb
        exact ⟨hs.of_same f, by rw [f.total_out]⟩
      | next t1 =>
        rw [hb] at h
        obtain ⟨j1, j2⟩ := decode_huffman_body_next_inv dls hs _ hb
        obtain ⟨k1, k2⟩ := ih _ _ _ j1 h
        exact ⟨k1, le_trans j2 k2⟩
    · cases h
      exact ⟨hs, le_refl _⟩

theorem decode_literal_block_total_out (s : inflate_state) :
    s.total_out ≤ (decode_literal_block s).2.total_out := by
  unfold decode_literal_block decode_literal_copy
  split_ifs <;> first | exact le_refl _ | exact Nat.le_add_right _ _

/-- One trip of the driver keeps the output accounting and does not lower
`total_out`. -/
theorem inflate_block_inv {cap : Nat} {out0 : Nat → Nat} (dls fuel : Nat)
    (s : inflate_state) (e : Status) (t : inflate_state) (hs : OutInv cap out0 s)
    (h : inflate_block dls fuel s = some (e, t)) :
    OutInv cap out0 t ∧ s.total_out ≤ t.total_out := by
  unfold inflate_block at h
  have key : ∀ (s1 : inflate_state) (e1 : Status), OutSame s s1 →
      (match (some (e1, s1) : Option (Status × inflate_state)) with
        | none => none
        | some (Status.DECOMPRESSION_FINISHED, s1) =>
          if s1.btype = 0 then some (decode_literal_block s1)
          else decode_huffman_code_block_stateless_base dls fuel s1
        | some (e, s1) => some (e, s1)) = some (e, t) →
      OutInv cap out0 t ∧ s.total_out ≤ t.total_out := by
    intro s1 e1 f h1
    have hs1 := hs.of_same f
    cases e1 <;> simp only [] at h1
    · split_ifs at h1
      · have h2 := Option.some.inj h1
        have ht : (decode_literal_block s1).2 = t := by rw [h2]
        rw [← ht]
        refine ⟨decode_literal_block_inv hs1, ?_⟩
        rw [← f.total_out]
        exact decode_literal_block_total_out s1
      · obtain ⟨a, b⟩ := decode_huffman_inv dls fuel _ _ _ hs1 h1
        exact ⟨a, by rw [← f.total_out]; exact b⟩
    all_goals
      cases h1
      exact ⟨hs1, by rw [f.total_out]⟩
  split_ifs at h with c
  · cases hr : read_header dls fuel s with
    | none => rw [hr] at h; cases h
    | some q =>
      obtain ⟨e1, s1⟩ := q
      rw [hr] at h
      exact key s1 e1 (read_header_out dls fuel _ _ _ hr) h
  · exact key s Status.DECOMPRESSION_FINISHED (OutSame.keep s) h

/-- The driver keeps the output accounting from its entry to its return. -/
theorem isal_inflate_stateless_inv {cap : Nat} {out0 : Nat → Nat} (dls fuel : Nat) :
    ∀ (s : inflate_state) (e : Status) (t : inflate_state), OutInv cap out0 s →
      isal_inflate_stateless dls fuel s = some (e, t) →
      OutInv cap out0 t ∧ s.total_out ≤ t.total_out := by
  induction fuel with
  | zero => intro s e t _ h; cases h
  | succ n ih =>
    intro s e t hs h
    rw [isal_inflate_stateless] at h
    split_ifs at h
    · cases hb : inflate_block dls (n + 1) s with
      | none => rw [hb] at h; cases h
      | some q =>
        obtain ⟨e1, s1⟩ := q
        rw [hb] at h
        obtain ⟨j1, j2⟩ := inflate_block_inv dls (n + 1) s e1 s1 hs hb
        cases e1 <;> simp only [] at h
        · obtain ⟨k1, k2⟩ := ih _ _ _ j1 h
          exact ⟨k1, le_trans j2 k2⟩
        all_goals
          cases h
          exact ⟨j1, j2⟩
    · cases h
      exact ⟨hs.of_same ⟨rfl, rfl, rfl, rfl⟩, le_refl _⟩

theorem out_inv_init (st : inflate_state) (in_mem out_mem : Nat → Nat) (in_size cap : Nat) :
    OutInv cap out_mem (isal_inflate_init st in_mem in_size out_mem cap) :=
  ⟨rfl, Nat.zero_add cap, fun _ _ => rfl⟩

/-- C7. Output overflow is detected before any write.  In the body of the
block loop a literal decoded with `avail_out == 0`, and a length symbol whose
`repeat_length` exceeds `avail_out`, make the body and
`decode_huffman_code_block_stateless_base` return `OUT_BUFFER_OVERFLOW` with
the output memory, `next_out`, `avail_out` and `total_out` as they were; a
stored block with matching `len`/`nlen` and `len > avail_out` makes
`decode_literal_block` return it having moved only `next_in`; the driver
returns the status of the trip.  Consequently, for every run started by
`isal_inflate_init` with capacity `cap` that returns, `total_out <= cap`, no
byte at or after offset `cap` differs from the initial output memory,
`next_out = out_stream + total_out` and `total_out + avail_out = cap`. -/
theorem output_overflow_detected (dls : Nat) :
    (∀ s : inflate_state, 0 ≤ (state_after_symbol dls s).read_in_length →
      pair_symbol dls s < 256 → s.avail_out = 0 →
      decode_huffman_body dls s
        = Step.ret Status.OUT_BUFFER_OVERFLOW (state_after_symbol dls s) ∧
      OutSame s (state_after_symbol dls s) ∧
      (s.new_block = 0 → ∀ fuel, decode_huffman_code_block_stateless_base dls (fuel + 1) s
        = some (Status.OUT_BUFFER_OVERFLOW, state_after_symbol dls s))) ∧
    (∀ s : inflate_state, 0 ≤ (state_after_symbol dls s).read_in_length →
      256 < pair_symbol dls s → pair_symbol dls s < 286 → s.avail_out < pair_length dls s →
      decode_huffman_body dls s
        = Step.ret Status.OUT_BUFFER_OVERFLOW (state_after_length dls s) ∧
      OutSame s (state_after_length dls s) ∧
      (s.new_block = 0 → ∀ fuel, decode_huffman_code_block_stateless_base dls (fuel + 1) s
        = some (Status.OUT_BUFFER_OVERFLOW, state_after_length dls s))) ∧
    (∀ s : inflate_state, 4 ≤ s.avail_in →
      load_u16 s.in_mem s.next_in = 65535 - load_u16 s.in_mem (s.next_in + 2) →
      s.avail_out < load_u16 s.in_mem s.next_in →
      decode_literal_block s
        = (Status.OUT_BUFFER_OVERFLOW, { s with next_in := s.next_in + 4 })) ∧
    (∀ (fuel : Nat) (s t : inflate_state), s.new_block = 0 ∨ s.bfinal = 0 →
      inflate_block dls (fuel + 1) s = some (Status.OUT_BUFFER_OVERFLOW, t) →
      isal_inflate_stateless dls (fuel + 1) s = some (Status.OUT_BUFFER_OVERFLOW, t)) ∧
    (∀ (fuel : Nat) (st : inflate_state) (in_mem : Nat → Nat) (in_size : Nat)
      (out_mem : Nat → Nat) (cap : Nat) (e : Status) (t : inflate_state),
      isal_inflate_stateless dls fuel (isal_inflate_init st in_mem in_size out_mem cap)
        = some (e, t) →
      t.total_out ≤ cap ∧ (∀ k, cap ≤ k → t.out_mem k = out_mem k) ∧
      t.next_out = t.total_out ∧ t.total_out + t.avail_out = cap) := by
  refine ⟨?_, ?_, ?_, ?_, ?_⟩
  · intro s h1 h2 h3
    have f1 : OutSame s (state_after_symbol dls s) := (decode_next_frame dls s _).out
    have hb : decode_huffman_body dls s
        = Step.ret Status.OUT_BUFFER_OVERFLOW (state_after_symbol dls s) := by
      unfold decode_huffman_body
      simp only []
      have c1 : ¬ (decode_next dls s s.lit_huff_code).2.read_in_length < 0 := by
        have := h1; unfold state_after_symbol at this; omega
      have c2 : (decode_next dls s s.lit_huff_code).1 < 256 := h2
      have c3 : (decode_next dls s s.lit_huff_code).2.avail_out < 1 := by
        have := f1.avail_out; unfold state_after_symbol at this; omega
      rw [if_neg c1, if_pos c2, if_pos c3]
      rfl
    refine ⟨hb, f1, ?_⟩
    intro hnb fuel
    rw [decode_huffman_code_block_stateless_base, if_pos hnb, hb]
  · intro s h1 h2 h3 h4
    have f1 : OutSame s (state_after_symbol dls s) := (decode_next_frame dls s _).out
    have f2 : OutSame s (state_after_length dls s) :=
      OutSame.chain f1 (decode_length_frame _ _).out
    have hb : decode_huffman_body dls s
        = Step.ret Status.OUT_BUFFER_OVERFLOW (state_after_length dls s) := by
      unfold decode_huffman_body
      simp only []
      have c1 : ¬ (decode_next dls s s.lit_huff_code).2.read_in_length < 0 := by
        have := h1; unfold state_after_symbol at this; omega
      have c2 : ¬ (decode_next dls s s.lit_huff_code).1 < 256 := by
        have := h2; unfold pair_symbol at this; omega
      have c3 : ¬ (decode_next dls s s.lit_huff_code).1 = 256 := by
        have := h2; unfold pair_symbol at this; omega
      have c4 : (decode_next dls s s.lit_huff_code).1 < 286 := h3
      have c5 : (decode_length (decode_next dls s s.lit_huff_code).2
          (decode_next dls s s.lit_huff_code).1).2.avail_out
          < (decode_length (decode_next dls s s.lit_huff_code).2
            (decode_next dls s s.lit_huff_code).1).1 := by
        have e := f2.avail_out
        have := h4
        unfold pair_length at this
        unfold state_after_length state_after_symbol pair_symbol at e
        unfold state_after_symbol pair_symbol at this
        omega
      rw [if_neg c1, if_neg c2, if_neg c3, if_pos c4, if_pos c5]
      rfl
    refine ⟨hb, f2, ?_⟩
    intro hnb fuel
    rw [decode_huffman_code_block_stateless_base, if_pos hnb, hb]
  · intro s h1 h2 h3
    unfold decode_literal_block
    rw [if_neg (by omega), if_neg (not_not.mpr h2), if_pos h3]
  · intro fuel s t hc hb
    exact isal_inflate_stateless_error dls fuel s t _ hc hb (by decide)
  · intro fuel st in_mem in_size out_mem cap e t h
    obtain ⟨⟨a, b, c⟩, _⟩ := isal_inflate_stateless_inv dls fuel _ _ _
      (out_inv_init st in_mem out_mem in_size cap) h
    exact ⟨by omega, fun k hk => c k (by omega), a, b⟩

/-- Witness of C7: in `pair_state` with two bytes of output left, the pair of
length 3 does not fit and the body returns `OUT_BUFFER_OVERFLOW`. -/
theorem output_overflow_detected_witness :
    ({ pair_state with avail_out := 2 } : inflate_state).avail_out
      < pair_length 10 { pair_state with avail_out := 2 } ∧
    decode_huffman_body 10 { pair_state with avail_out := 2 }
      = Step.ret Status.OUT_BUFFER_OVERFLOW
          (state_after_length 10 { pair_state with avail_out := 2 }) :=
  ⟨by decide,
    ((output_overflow_detected 10).2.1 { pair_state with avail_out := 2 } (by decide)
      (by decide) (by decide) (by decide)).1⟩

/-! ### The first loop of the table builder -/

theorem bit_swap16_lt (bits : Nat) : bit_swap16 bits < 65536 := by
  unfold bit_swap16
  exact Nat.mod_lt _ (by norm_num)

theorem bit_reverse2_lt (bits length : Nat) (h : length ≤ 16) :
    bit_reverse2 bits length < 2 ^ length := by
  unfold bit_reverse2
  rw [Nat.shiftRight_eq_div_pow]
  have h1 : bit_swap16 bits < 2 ^ 16 := bit_swap16_lt bits
  have h2 : (2 : Nat) ^ 16 = 2 ^ (16 - length) * 2 ^ length := by
    rw [← Nat.pow_add]; congr 1; omega
  rw [Nat.div_lt_iff_lt_mul (Nat.two_pow_pos _)]
  rw [h2] at h1
  rw [Nat.mul_comm]
  exact h1

theorem fill_small_spec (small : Nat → Nat) (code len val : Nat) (hc : code < 2 ^ len)
    (n idx : Nat) :
    fill_small small code len val n idx
      = if idx % 2 ^ len = code ∧ idx / 2 ^ len < n then val else small idx := by
  induction n with
  | zero => simp [fill_small]
  | succ j ih =>
    simp only [fill_small, store]
    have hp : 0 < 2 ^ len := Nat.two_pow_pos len
    by_cases h : idx = (j <<< len) + code
    · rw [if_pos h]
      have h1 : idx % 2 ^ len = code := by
        rw [h, Nat.shiftLeft_eq, Nat.add_comm, Nat.add_mul_mod_self_right, Nat.mod_eq_of_lt hc]
      have h2 : idx / 2 ^ len = j := by
        rw [h, Nat.shiftLeft_eq, Nat.add_comm, Nat.add_mul_div_right _ _ hp,
          Nat.div_eq_of_lt hc, Nat.zero_add]
      rw [if_pos ⟨h1, by omega⟩]
    · rw [if_neg h, ih]
      by_cases h1 : idx % 2 ^ len = code
      · have h2 : idx / 2 ^ len ≠ j := by
          intro e
          apply h
          rw [Nat.shiftLeft_eq, ← e, ← h1, Nat.mul_comm]
          exact (Nat.div_add_mod idx (2 ^ len)).symm
        by_cases h3 : idx / 2 ^ len < j
        · rw [if_pos ⟨h1, h3⟩, if_pos ⟨h1, by omega⟩]
        · rw [if_neg (fun c => h3 c.2), if_neg (fun c => by omega)]
      · rw [if_neg (fun c => h1 c.1), if_neg (fun c => h1 c.1)]

theorem cnt_succ_same (lens : Nat → Nat) (n : Nat) (h : lens n ≠ 0) :
    cnt lens (lens n) (n + 1) = cnt lens (lens n) n + 1 := by
  simp [cnt, h]

theorem cnt_succ_other (lens : Nat → Nat) (L n : Nat) (h : ¬ (lens n = L ∧ L ≠ 0)) :
    cnt lens L (n + 1) = cnt lens L n := by
  simp only [cnt, if_neg h, Nat.add_zero]

/-- What the first loop of `make_inflate_huff_code` has computed after `n`
symbols. -/
theorem assign_codes_spec (dls : Nat) (b0 : huff_build)
    (hnc : ∀ L, b0.next_code L < 65536) (hl0 : b0.long_code_list = []) (n : Nat) :
    (∀ L, (assign_codes dls b0 n).next_code L
      = (b0.next_code L + cnt (fun i => (b0.table i).length) L n) % 65536) ∧
    (∀ i, ((assign_codes dls b0 n).table i).length = (b0.table i).length) ∧
    (∀ i, i < n → (b0.table i).length ≠ 0 → ((assign_codes dls b0 n).table i).code
      = code_at b0.next_code (fun i => (b0.table i).length) i) ∧
    ((∀ i, i < n → (b0.table i).length ≤ 16) → ∀ idx, (assign_codes dls b0 n).small idx
      = small_after dls b0.next_code (fun i => (b0.table i).length) b0.small n idx) ∧
    (assign_codes dls b0 n).long_code_list
      = (List.range n).filter (fun i => decide ((b0.table i).length ≠ 0 ∧
          ¬ (b0.table i).length ≤ dls)) := by
  induction n with
  | zero =>
    refine ⟨fun L => ?_, fun _ => rfl, fun i hi => absurd hi (Nat.not_lt_zero i),
      fun _ _ => rfl, ?_⟩
    · show b0.next_code L = (b0.next_code L + 0) % 65536
      rw [Nat.add_zero, Nat.mod_eq_of_lt (hnc L)]
    · show b0.long_code_list = _
      rw [hl0]; rfl
  | succ n ih =>
    obtain ⟨i1, i2, i3, i4, i5⟩ := ih
    have hl : ((assign_codes dls b0 n).table n).length = (b0.table n).length := i2 n
    simp only [assign_codes]
    unfold assign_step
    simp only [hl]
    by_cases h0 : (b0.table n).length = 0
    · rw [if_neg (not_not.mpr h0)]
      refine ⟨fun L => ?_, i2, fun i hi hne => ?_, fun h16 idx => ?_, ?_⟩
      · rw [i1, cnt_succ_other]
        intro c
        exact c.2 (c.1 ▸ h0)
      · have : i ≠ n := fun e => hne (e ▸ h0)
        exact i3 i (by omega) hne
      · rw [i4 (fun i hi => h16 i (by omega))]
        simp only [small_after]
        rw [if_neg (fun c => c.1 h0)]
      · rw [i5, List.range_succ, List.filter_append]
        simp [h0]
    · rw [if_pos h0]
      have hcode : bit_reverse2 ((assign_codes dls b0 n).next_code (b0.table n).length)
          (b0.table n).length = code_at b0.next_code (fun i => (b0.table i).length) n := by
        rw [i1]; rfl
      have k1 : ∀ L, store (assign_codes dls b0 n).next_code (b0.table n).length
          (((assign_codes dls b0 n).next_code (b0.table n).length + 1) % 65536) L
          = (b0.next_code L + cnt (fun i => (b0.table i).length) L (n + 1)) % 65536 := by
        intro L
        by_cases hL : L = (b0.table n).length
        · subst hL
          rw [store_same, i1, cnt_succ_same (fun i => (b0.table i).length) n h0]
          omega
        · rw [store_other _ _ _ _ hL, i1, cnt_succ_other]
          intro c
          exact hL c.1.symm
      have k2 : ∀ i, (store (assign_codes dls b0 n).table n
          { code := bit_reverse2 ((assign_codes dls b0 n).next_code (b0.table n).length)
              (b0.table n).length, length := (b0.table n).length } i).length
          = (b0.table i).length := by
        intro i
        by_cases hi : i = n
        · subst hi; rw [store_same]
        · rw [store_other _ _ _ _ hi]; exact i2 i
      have k3 : ∀ i, i < n + 1 → (b0.table i).length ≠ 0 →
          (store (assign_codes dls b0 n).table n
          { code := bit_reverse2 ((assign_codes dls b0 n).next_code (b0.table n).length)
              (b0.table n).length, length := (b0.table n).length } i).code
          = code_at b0.next_code (fun i => (b0.table i).length) i := by
        intro i hi hne
        by_cases hin : i = n
        · subst hin; rw [store_same]; exact hcode
        · rw [store_other _ _ _ _ hin]; exact i3 i (by omega) hne
      by_cases hd : (b0.table n).length ≤ dls
      · rw [if_pos hd]
        refine ⟨k1, k2, k3, fun h16 idx => ?_, ?_⟩
        · show fill_small _ _ _ _ _ idx = _
          rw [hcode, fill_small_spec _ _ _ _ (by
            have := bit_reverse2_lt ((b0.next_code (b0.table n).length
              + cnt (fun i => (b0.table i).length) (b0.table n).length n) % 65536)
              (b0.table n).length (h16 n (by omega))
            exact this)]
          simp only [small_after]
          rw [Nat.one_shiftLeft]
          by_cases hm : idx % 2 ^ (b0.table n).length
              = code_at b0.next_code (fun i => (b0.table i).length) n ∧
              idx / 2 ^ (b0.table n).length < 2 ^ (dls - (b0.table n).length)
          · rw [if_pos hm, if_pos ⟨h0, hd, hm.1, hm.2⟩]
          · rw [if_neg hm, if_neg (fun c => hm ⟨c.2.2.1, c.2.2.2⟩)]
            exact i4 (fun i hi => h16 i (by omega)) idx
        · show (assign_codes dls b0 n).long_code_list = _
          rw [i5, List.range_succ, List.filter_append]
          simp [hd]
      · rw [if_neg hd]
        refine ⟨k1, k2, k3, fun h16 idx => ?_, ?_⟩
        · show (assign_codes dls b0 n).small idx = _
          rw [i4 (fun i hi => h16 i (by omega))]
          simp only [small_after]
          rw [if_neg (fun c => hd c.2.1)]
        · show (assign_codes dls b0 n).long_code_list ++ [n] = _
          rw [i5, List.range_succ, List.filter_append]
          have hd2 : dls < (b0.table n).length := by omega
          simp [hd2, h0]


theorem small_after_unique (dls : Nat) (nc0 lens small0 : Nat → Nat) (v idx : Nat)
    (h1 : lens v ≠ 0) (h2 : lens v ≤ dls) (h3 : idx % 2 ^ lens v = code_at nc0 lens v)
    (h4 : idx / 2 ^ lens v < 2 ^ (dls - lens v)) (n : Nat) (hv : v < n)
    (hu : ∀ i, v < i → i < n → ¬ (lens i ≠ 0 ∧ idx % 2 ^ lens i = code_at nc0 lens i)) :
    small_after dls nc0 lens small0 n idx = (v ||| (lens v <<< 9)) % 65536 := by
  induction n with
  | zero => omega
  | succ n ih =>
    simp only [small_after]
    by_cases hvn : v = n
    · subst hvn
      rw [if_pos ⟨h1, h2, h3, h4⟩]
    · rw [if_neg (fun c => hu n (by omega) (by omega) ⟨c.1, c.2.2.1⟩)]
      exact ih (by omega) (fun i hi1 hi2 => hu i hi1 (by omega))

theorem long_codes_nil (dls : Nat) (b0 : long_build) : long_codes dls [] b0 0 = b0 := rfl

set_option maxRecDepth 100000 in
theorem fixed_sym_matches :
    ∀ w, w < 512 → fixed_sym w < 288 ∧
      w % 2 ^ fixed_len (fixed_sym w) = fixed_rcode (fixed_sym w) := by
  decide!

set_option maxRecDepth 100000 in
theorem fixed_sym_of_code :
    ∀ n, n < 288 → ∀ k, k < 4 → k < 2 ^ (9 - fixed_len n) →
      fixed_sym (fixed_rcode n + k * 2 ^ fixed_len n) = n := by
  decide!

set_option maxRecDepth 100000 in
theorem static_code_at :
    ∀ n, n < 288 → code_at (next_code_init static_lit_count)
      (fun i => (static_lit_code i).length) n = fixed_rcode n := by
  decide!

theorem fixed_len_cases (n : Nat) : fixed_len n = 7 ∨ fixed_len n = 8 ∨ fixed_len n = 9 := by
  unfold fixed_len; split_ifs <;> simp

theorem static_length (n : Nat) (h : n < 288) : (static_lit_code n).length = fixed_len n := by
  unfold static_lit_code fixed_len LIT_LEN
  simp only []
  split_ifs <;> rfl

theorem static_length_ge (n : Nat) (h : 288 ≤ n) : (static_lit_code n).length = 0 := by
  unfold static_lit_code LIT_LEN
  simp only []
  split_ifs <;> first | rfl | omega

theorem fixed_sym_mod (w : Nat) : fixed_sym (w % 512) = fixed_sym w := by
  unfold fixed_sym
  have e1 : w % 512 % 128 = w % 128 := by omega
  have e2 : w % 512 % 256 = w % 256 := by omega
  have e3 : w % 512 % 512 = w % 512 := by omega
  rw [e1, e2, e3]

/-- A window whose low bits are the code of `n` decodes to `n`. -/
theorem fixed_sym_unique (n w : Nat) (hn : n < 288)
    (hm : w % 2 ^ fixed_len n = fixed_rcode n) : fixed_sym w = n := by
  rw [← fixed_sym_mod]
  have key : ∃ k, k < 4 ∧ k < 2 ^ (9 - fixed_len n) ∧
      w % 512 = fixed_rcode n + k * 2 ^ fixed_len n := by
    rcases fixed_len_cases n with h | h | h <;> rw [h] at hm ⊢
    · refine ⟨w % 512 / 128, by omega, ?_, ?_⟩
      · norm_num; omega
      · norm_num at hm ⊢; omega
    · refine ⟨w % 512 / 256, by omega, ?_, ?_⟩
      · norm_num; omega
      · norm_num at hm ⊢; omega
    · refine ⟨0, by omega, ?_, ?_⟩
      · norm_num
      · norm_num at hm ⊢; omega
  obtain ⟨k, hk1, hk2, hk3⟩ := key
  rw [hk3]
  exact fixed_sym_of_code n hn k hk1 hk2

theorem or_shift9 (n L : Nat) (hn : n < 512) : n ||| (L <<< 9) = 512 * L + n := by
  rw [Nat.shiftLeft_eq, Nat.mul_comm, Nat.lor_comm]
  exact (Nat.mul_add_lt_is_or (show n < 2 ^ 9 from hn) L).symm

/-- The short table that `make_inflate_huff_code` builds for the fixed
literal/length code, whatever its previous content: the entry at `idx` is the
symbol whose code is a prefix of `idx`, with its length. -/
theorem static_lit_small (dls : Nat) (h9 : 9 ≤ dls) (junk : inflate_huff_code)
    (idx : Nat) (hidx : idx < 2 ^ dls) :
    (make_inflate_huff_code dls junk static_lit_code (LIT_LEN + 2)
      static_lit_count).small_code_lookup idx
      = 512 * fixed_len (fixed_sym idx) + fixed_sym idx := by
  have hnc : ∀ L, next_code_init static_lit_count L < 65536 := by
    intro L
    cases L with
    | zero => simp [next_code_init]
    | succ k => simp only [next_code_init]; exact Nat.mod_lt _ (by norm_num)
  have hlen16 : ∀ i, (static_lit_code i).length ≤ 16 := by
    intro i
    unfold static_lit_code
    simp only []
    split_ifs <;> omega
  have hlen9 : ∀ i, (static_lit_code i).length ≤ 9 := by
    intro i
    unfold static_lit_code
    simp only []
    split_ifs <;> omega
  obtain ⟨_, _, _, a4, a5⟩ := assign_codes_spec dls
    { next_code := next_code_init static_lit_count
      table := static_lit_code
      small := junk.small_code_lookup
      long_code_list := [] } hnc rfl (LIT_LEN + 2)
  have hlong : (make_inflate_huff_code_first dls junk static_lit_code (LIT_LEN + 2)
      static_lit_count).long_code_list = [] := by
    unfold make_inflate_huff_code_first
    rw [a5]
    apply List.filter_eq_nil_iff.mpr
    intro i _
    have := hlen9 i
    simp only [decide_eq_true_eq, not_and, not_not]
    intro _
    show (static_lit_code i).length ≤ dls
    omega
  unfold make_inflate_huff_code make_inflate_huff_code_second
  simp only [hlong, List.length_nil, long_codes_nil]
  unfold make_inflate_huff_code_first
  rw [a4 (fun i _ => hlen16 i)]
  obtain ⟨f1, f2⟩ := fixed_sym_matches (idx % 512) (by omega)
  rw [fixed_sym_mod] at f1 f2
  have hL := static_length _ f1
  have hL9 : fixed_len (fixed_sym idx) ≤ 9 := by
    rcases fixed_len_cases (fixed_sym idx) with h | h | h <;> omega
  have hL0 : fixed_len (fixed_sym idx) ≠ 0 := by
    rcases fixed_len_cases (fixed_sym idx) with h | h | h <;> omega
  have hmod : idx % 2 ^ fixed_len (fixed_sym idx) = fixed_rcode (fixed_sym idx) := by
    rw [← f2]
    exact (Nat.mod_mod_of_dvd idx (pow_dvd_pow 2 hL9)).symm
  have hval := small_after_unique dls (next_code_init static_lit_count)
    (fun i => (static_lit_code i).length) junk.small_code_lookup (fixed_sym idx) idx
    (by show (static_lit_code _).length ≠ 0; rw [hL]; exact hL0)
    (by show (static_lit_code _).length ≤ dls; rw [hL]; omega)
    (by show idx % 2 ^ (static_lit_code _).length = _
        rw [static_code_at _ f1, hL]; exact hmod)
    (by show idx / 2 ^ (static_lit_code _).length < 2 ^ (dls - (static_lit_code _).length)
        rw [hL, Nat.div_lt_iff_lt_mul (Nat.two_pow_pos _), ← Nat.pow_add]
        rw [show dls - fixed_len (fixed_sym idx) + fixed_len (fixed_sym idx) = dls by omega]
        exact hidx)
    (LIT_LEN + 2) (by show fixed_sym idx < 288; exact f1)
    (by
      intro i hi1 hi2 hc
      have hi288 : i < 288 := hi2
      have e := hc.2
      rw [static_code_at i hi288] at e
      have e' : idx % 2 ^ fixed_len i = fixed_rcode i := by
        rw [← static_length i hi288]; exact e
      have := fixed_sym_unique i idx hi288 e'
      omega)
  rw [hval]
  show (fixed_sym idx ||| ((static_lit_code (fixed_sym idx)).length <<< 9)) % 65536 = _
  rw [hL, or_shift9 _ _ (by omega)]
  omega

set_option maxRecDepth 100000 in
theorem fixed_rcode_bits :
    ∀ v, v < 257 → ∀ j, j < 9 → j < fixed_len v →
      (fixed_rcode v).testBit j = (fixed_code v).testBit (fixed_len v - 1 - j) := by
  decide!

theorem fixed_len_le (v : Nat) : fixed_len v ≤ 9 := by
  rcases fixed_len_cases v with h | h | h <;> omega

theorem fixed_len_ge (v : Nat) : 7 ≤ fixed_len v := by
  rcases fixed_len_cases v with h | h | h <;> omega

theorem fixed_rcode_lt (v : Nat) : fixed_rcode v < 2 ^ fixed_len v :=
  bit_reverse2_lt _ _ (by have := fixed_len_le v; omega)

/-- The value of the first `n` stream bits of a code is the low `n` bits of
the reversed code the builder stores. -/
theorem sval_of_has_code {mem : Nat → Nat} {P v n : Nat} (h : HasCode mem P v n)
    (hn : n ≤ fixed_len v) (hv : v < 257) : sval mem P n = fixed_rcode v % 2 ^ n := by
  apply Nat.eq_of_testBit_eq
  intro j
  rw [testBit_sval, Nat.testBit_mod_two_pow]
  by_cases hj : j < n
  · have := fixed_len_le v
    rw [h j hj, fixed_rcode_bits v hv j (by omega) (by omega)]
  · simp [hj]

theorem mod_two_pow_mod (x a b : Nat) (h : b ≤ a) : x % 2 ^ a % 2 ^ b = x % 2 ^ b :=
  Nat.mod_mod_of_dvd x (pow_dvd_pow 2 h)

/-- The state `decode_next` works on after its conditional load keeps the
reader position; it holds 16 bits or all that is left of the input. -/
theorem decode_next_load_reads {s : inflate_state} {P E : Nat} (h : Reads s P E) :
    Reads (if s.read_in_length ≤ DEFLATE_CODE_MAX_LENGTH then inflate_in_load s 0 else s) P E ∧
    ReaderOnly s (if s.read_in_length ≤ DEFLATE_CODE_MAX_LENGTH then inflate_in_load s 0
      else s) ∧
    (16 ≤ (if s.read_in_length ≤ DEFLATE_CODE_MAX_LENGTH then inflate_in_load s 0
        else s).read_in_length ∨
      (if s.read_in_length ≤ DEFLATE_CODE_MAX_LENGTH then inflate_in_load s 0
        else s).avail_in = 0) := by
  by_cases hc : s.read_in_length ≤ DEFLATE_CODE_MAX_LENGTH
  · simp only [hc, if_true]
    have hc' : s.read_in_length ≤ 15 := hc
    obtain ⟨a, b, c⟩ := inflate_in_load_reads 0 h (by omega)
    refine ⟨a, b, ?_⟩
    rcases c with c | c
    · left; omega
    · right; exact c
  · simp only [hc, if_false]
    have hc' : ¬ s.read_in_length ≤ 15 := hc
    exact ⟨h, ReaderOnly.same s, Or.inl (by omega)⟩

theorem entry_fields (n L : Nat) (hn : n < 512) (hL : L < 64) :
    512 * L + n < 0x8000 ∧ (512 * L + n) >>> 9 = L ∧ (512 * L + n) &&& 0x1FF = n := by
  refine ⟨by omega, ?_, ?_⟩
  · rw [Nat.shiftRight_eq_div_pow]; norm_num; omega
  · have : (0x1FF : Nat) = 2 ^ 9 - 1 := by norm_num
    rw [this, Nat.and_pow_two_sub_one_eq_mod]; norm_num; omega

/-- `decode_next` with the fixed literal/length table on a stream that holds
the whole code of `v` at the reader position: it returns `v` and moves the
reader past the code. -/
theorem decode_next_fixed (dls : Nat) (h9 : 9 ≤ dls) (h15 : dls ≤ 15) {s : inflate_state}
    {P E : Nat} (h : Reads s P E) (T : inflate_huff_code) (hT : FixedTable dls T) (v : Nat)
    (hv : v < 257) (hfit : P + fixed_len v ≤ 8 * E) (hcode : HasCode s.in_mem P v (fixed_len v)) :
    (decode_next dls s T).1 = v ∧ Reads (decode_next dls s T).2 (P + fixed_len v) E ∧
    ReaderOnly s (decode_next dls s T).2 := by
  obtain ⟨a, b, c⟩ := decode_next_load_reads h
  unfold decode_next
  simp only []
  generalize (if s.read_in_length ≤ DEFLATE_CODE_MAX_LENGTH then inflate_in_load s 0 else s)
    = s1 at a b c ⊢
  have hL9 := fixed_len_le v
  have hen : (fixed_len v : Int) ≤ s1.read_in_length := by
    rcases c with c | c
    · omega
    · exact reads_enough a hfit (Or.inr c) (by omega)
  obtain ⟨c1, c2⟩ := reads_consume a hen
  have hp : (2 : Nat) ^ dls ≤ 65536 := by
    have : (2 : Nat) ^ dls ≤ 2 ^ 16 := Nat.pow_le_pow_right (by norm_num) (by omega)
    simpa using this
  have hidx : (s1.read_in &&& ((1 <<< dls) - 1)) % 65536 = s1.read_in % 2 ^ dls := by
    rw [one_shiftLeft_sub_one_and]
    exact Nat.mod_eq_of_lt (lt_of_lt_of_le (Nat.mod_lt _ (Nat.two_pow_pos dls)) hp)
  rw [hidx]
  have hlt : s1.read_in % 2 ^ dls < 2 ^ dls := Nat.mod_lt _ (Nat.two_pow_pos dls)
  have hsym : fixed_sym (s1.read_in % 2 ^ dls) = v := by
    apply fixed_sym_unique v _ (by omega)
    rw [mod_two_pow_mod _ _ _ (by omega), c1, b.in_mem,
      sval_of_has_code hcode (le_refl _) hv]
    exact Nat.mod_eq_of_lt (fixed_rcode_lt v)
  rw [hT _ hlt, hsym]
  obtain ⟨e1, e2, e3⟩ := entry_fields v (fixed_len v) (by omega) (by omega)
  rw [if_pos e1]
  simp only [e2, e3]
  exact ⟨trivial, c2, ReaderOnly.trans b ⟨rfl, rfl, rfl, rfl, rfl, rfl, rfl, rfl, rfl, rfl, rfl⟩⟩


/-- `decode_next` with the fixed literal/length table on an input that ends
inside the code of `v`: `read_in_length` is left negative. -/
theorem decode_next_fixed_short (dls : Nat) (h9 : 9 ≤ dls) (h15 : dls ≤ 15) {s : inflate_state}
    {P E : Nat} (h : Reads s P E) (T : inflate_huff_code) (hT : FixedTable dls T) (v : Nat)
    (hv : v < 257) (hfit : 8 * E < P + fixed_len v) (hPE : P ≤ 8 * E)
    (hcode : HasCode s.in_mem P v (8 * E - P)) :
    (decode_next dls s T).2.read_in_length < 0 := by
  obtain ⟨a, b, c⟩ := decode_next_load_reads h
  unfold decode_next
  simp only []
  generalize (if s.read_in_length ≤ DEFLATE_CODE_MAX_LENGTH then inflate_in_load s 0 else s)
    = s1 at a b c ⊢
  have hL9 := fixed_len_le v
  have hp : (2 : Nat) ^ dls ≤ 65536 := by
    have : (2 : Nat) ^ dls ≤ 2 ^ 16 := Nat.pow_le_pow_right (by norm_num) (by omega)
    simpa using this
  have hidx : (s1.read_in &&& ((1 <<< dls) - 1)) % 65536 = s1.read_in % 2 ^ dls := by
    rw [one_shiftLeft_sub_one_and]
    exact Nat.mod_eq_of_lt (lt_of_lt_of_le (Nat.mod_lt _ (Nat.two_pow_pos dls)) hp)
  rw [hidx]
  have hlt : s1.read_in % 2 ^ dls < 2 ^ dls := Nat.mod_lt _ (Nat.two_pow_pos dls)
  rw [hT _ hlt]
  generalize hw : s1.read_in % 2 ^ dls = w
  have hL9' := fixed_len_le (fixed_sym w)
  have hm := fixed_sym_matches (w % 512) (Nat.mod_lt _ (by norm_num))
  rw [fixed_sym_mod] at hm
  obtain ⟨hm1, hm2⟩ := hm
  obtain ⟨e1, e2, e3⟩ := entry_fields (fixed_sym w) (fixed_len (fixed_sym w)) (by omega)
    (by omega)
  rw [if_pos e1]
  simp only [e2]
  show s1.read_in_length - (fixed_len (fixed_sym w) : Int) < 0
  by_contra hcon
  have hen : (fixed_len (fixed_sym w) : Int) ≤ s1.read_in_length := by omega
  obtain ⟨c1, _⟩ := reads_consume a hen
  have hr : s1.read_in_length = ((8 * E - P : Nat) : Int) := by
    obtain ⟨h0, h64, hpos, hfin, hav, _, _, _⟩ := a
    rcases c with c | c
    · omega
    · omega
  have hle : fixed_len (fixed_sym w) ≤ 8 * E - P := by omega
  have hcode2 : HasCode s.in_mem P v (fixed_len (fixed_sym w)) :=
    fun j hj => hcode j (by omega)
  have hsv := sval_of_has_code hcode2 (by omega) hv
  have h512 : (512 : Nat) = 2 ^ 9 := by norm_num
  have e5 : ∀ L, L ≤ 9 → w % 2 ^ L = s1.read_in % 2 ^ L := by
    intro L hL
    rw [← hw]
    exact mod_two_pow_mod _ _ _ (by omega)
  have e4 : w % 512 % 2 ^ fixed_len (fixed_sym w) = s1.read_in % 2 ^ fixed_len (fixed_sym w) := by
    rw [h512, mod_two_pow_mod _ _ _ hL9', e5 _ hL9']
  rw [e4, c1, b.in_mem, hsv] at hm2
  have u1 := fixed_sym_unique (fixed_sym w) (fixed_rcode v) hm1 hm2
  have u2 := fixed_sym_of_code v (by omega) 0 (by norm_num) (Nat.two_pow_pos _)
  simp only [Nat.zero_mul, Nat.add_zero] at u2
  rw [u2] at u1
  rw [← u1] at hle
  omega

theorem code_bits_getD (c L j : Nat) (hj : j < L) :
    (code_bits c L).getD j false = c.testBit (L - 1 - j) := by
  simp [code_bits, List.getD_eq_getElem?_getD, List.getElem?_map, List.getElem?_range, hj]

theorem code_bits_length (c L : Nat) : (code_bits c L).length = L := by
  simp [code_bits]

theorem fixed_literal_bits_eq (v : Nat) (hv : v < 256) :
    fixed_literal_bits v = code_bits (fixed_code v) (fixed_len v) := by
  unfold fixed_literal_bits fixed_code fixed_len
  split_ifs <;> rfl

theorem fixed_literal_bits_length (v : Nat) (hv : v < 256) :
    (fixed_literal_bits v).length = fixed_len v := by
  rw [fixed_literal_bits_eq v hv, code_bits_length]

/-- The code of the first byte left, and the rest of the block after it. -/
theorem tail_at_cons {mem : Nat → Nat} {P E v : Nat} {r : List Nat}
    (h : TailAt mem P E (v :: r)) (hv : v < 256) :
    (∀ n, n ≤ fixed_len v → P + n ≤ 8 * E → HasCode mem P v n) ∧
    TailAt mem (P + fixed_len v) E r := by
  have hl := fixed_literal_bits_length v hv
  constructor
  · intro n hn hfit j hj
    have := h j (by simp only [fixed_tail_bits, List.length_append]; omega) (by omega)
    rw [this]
    simp only [fixed_tail_bits]
    rw [List.getD_append _ _ _ _ (by omega), fixed_literal_bits_eq v hv,
      code_bits_getD _ _ _ (by omega)]
  · intro j hj hfit
    have := h (fixed_len v + j) (by simp only [fixed_tail_bits, List.length_append]; omega)
      (by omega)
    rw [Nat.add_assoc, this]
    simp only [fixed_tail_bits]
    rw [List.getD_append_right _ _ _ _ (by omega), hl, Nat.add_sub_cancel_left]

/-- The end-of-block code at the end of the block. -/
theorem tail_at_nil {mem : Nat → Nat} {P E : Nat} (h : TailAt mem P E []) :
    ∀ n, n ≤ 7 → P + n ≤ 8 * E → HasCode mem P 256 n := by
  intro n hn hfit j hj
  have := h j (by simp [fixed_tail_bits]; omega) (by omega)
  rw [this]
  have h1 : fixed_code 256 = 0 := by decide
  rw [h1, Nat.zero_testBit]
  have hj7 : j < 7 := by omega
  interval_cases j <;> rfl


theorem pack_bits_length (B : List Bool) : (pack_bits B).length = (B.length + 7) / 8 := by
  simp [pack_bits]

/-- An input that holds a byte-prefix of the packing of `B` has the bits of
`B` as its stream bits. -/
theorem sbit_of_holds {mem : Nat → Nat} {p : List Nat} {B : List Bool} (hin : Holds mem p)
    (hp : p <+: pack_bits B) (k : Nat) (hk : k < 8 * p.length) :
    sbit mem k = B.getD k false := by
  have hi : k / 8 < p.length := by omega
  have hle : p.length ≤ (B.length + 7) / 8 := by
    rw [← pack_bits_length]; exact hp.length_le
  obtain ⟨t, ht⟩ := hp
  have e1 : mem (k / 8) = bits_val (fun k => B.getD k false) (8 * (k / 8)) 8 := by
    rw [hin _ hi, ← List.getD_append p t 0 (k / 8) hi, ht]
    have : k / 8 < (B.length + 7) / 8 := by omega
    simp [pack_bits, List.getD_eq_getElem?_getD, List.getElem?_map, List.getElem?_range, this]
  unfold sbit load_u8
  rw [e1, Nat.mod_eq_of_lt (by simpa using bits_val_lt (fun k => B.getD k false) (8 * (k / 8)) 8),
    testBit_bits_val]
  have h8 : k % 8 < 8 := Nat.mod_lt _ (by norm_num)
  simp only [h8, decide_True, Bool.true_and]
  rw [Nat.div_add_mod]

/-- The header of a fixed block (`btype == 1`), present in the input: the
reader moves past its three bits and the fixed tables are built. -/
theorem read_header_fixed (dls fuel : Nat) {s : inflate_state} {P E : Nat}
    (h : Reads s P E) (h3 : P + 3 ≤ 8 * E) (hbt : sval s.in_mem (P + 1) 2 = 1) :
    ∃ t, read_header dls fuel s = some (Status.DECOMPRESSION_FINISHED, t) ∧
      Reads t (P + 3) E ∧ t.new_block = 0 ∧ t.bfinal = sval s.in_mem P 1 ∧
      t.btype = 1 ∧ t.in_mem = s.in_mem ∧ OutSame s t ∧
      (9 ≤ dls → FixedTable dls t.lit_huff_code) := by
  have h0 : Reads { s with new_block := 0 } P E := h.congr rfl rfl rfl rfl rfl
  obtain ⟨a1, a2, a3⟩ := inflate_in_read_bits_reads 1 h0 (by norm_num) (by omega)
  simp only [read_header]
  generalize inflate_in_read_bits { s with new_block := 0 } 1 = r1 at a1 a2 a3 ⊢
  obtain ⟨v1, t1⟩ := r1
  have a1' : v1 = sval s.in_mem P 1 := a1
  have a2' : Reads t1 (P + 1) E := a2
  have a3' : ReaderOnly { s with new_block := 0 } t1 := a3
  clear a1 a2 a3
  have h1 : Reads { t1 with bfinal := v1 % 256 } (P + 1) E := a2'.congr rfl rfl rfl rfl rfl
  obtain ⟨b1, b2, b3⟩ := inflate_in_read_bits_reads 2 h1 (by norm_num) (by omega)
  simp only []
  generalize inflate_in_read_bits { t1 with bfinal := v1 % 256 } 2 = r2 at b1 b2 b3 ⊢
  obtain ⟨v2, t2⟩ := r2
  have b1' : v2 = 1 := by
    have : v2 = sval t1.in_mem (P + 1) 2 := b1
    rw [this, a3'.in_mem]; exact hbt
  have b2' : Reads t2 (P + 3) E := b2
  have b3' : ReaderOnly { t1 with bfinal := v1 % 256 } t2 := b3
  clear b1 b2 b3
  subst b1'
  have c0 := b2'.len_nonneg
  have hnn : ¬ t2.read_in_length < 0 := by omega
  have hlt1 : sval s.in_mem P 1 < 2 ^ 1 := sval_lt _ _ _
  simp only [hnn, if_false, Nat.one_mod, if_true]
  rw [if_neg (by norm_num)]
  refine ⟨_, rfl, ?_, ?_, ?_, rfl, ?_, ?_, ?_⟩
  · unfold setup_static_header
    exact b2'.congr rfl rfl rfl rfl rfl
  · unfold setup_static_header
    exact b3'.new_block.trans a3'.new_block
  · unfold setup_static_header
    show t2.bfinal = _
    rw [b3'.bfinal]
    show v1 % 256 = _
    omega
  · unfold setup_static_header
    exact b3'.in_mem.trans a3'.in_mem
  · unfold setup_static_header
    exact ⟨b3'.out_mem.trans a3'.out_mem, b3'.next_out.trans a3'.next_out,
      b3'.avail_out.trans a3'.avail_out, b3'.total_out.trans a3'.total_out⟩
  · intro h9 idx hidx
    unfold setup_static_header
    exact static_lit_small dls h9 _ idx hidx

/-- The header on an input with no bit left: `END_OF_INPUT`, the output
untouched. -/
theorem read_header_empty (dls fuel : Nat) {s : inflate_state} {P E : Nat}
    (h : Reads s P E) (h3 : 8 * E < P + 1) :
    ∃ t, read_header dls fuel s = some (Status.END_OF_INPUT, t) ∧ OutSame s t := by
  have h0 : Reads { s with new_block := 0 } P E := h.congr rfl rfl rfl rfl rfl
  obtain ⟨a1, a2, a3⟩ := inflate_in_read_bits_short 1 h0 (by norm_num) h3
  simp only [read_header]
  generalize inflate_in_read_bits { s with new_block := 0 } 1 = r1 at a1 a2 a3 ⊢
  obtain ⟨v1, t1⟩ := r1
  have a1' : t1.read_in_length < 0 := a1
  have a2' : t1.avail_in = 0 := a2
  have a3' : ReaderOnly { s with new_block := 0 } t1 := a3
  clear a1 a2 a3
  obtain ⟨b1, b2, b3⟩ := inflate_in_read_bits_underflow { t1 with bfinal := v1 % 256 } 2
    a1' a2'
  simp only []
  generalize inflate_in_read_bits { t1 with bfinal := v1 % 256 } 2 = r2 at b1 b2 b3 ⊢
  obtain ⟨v2, t2⟩ := r2
  have b1' : t2.read_in_length < 0 := b1
  have b3' : ReaderOnly { t1 with bfinal := v1 % 256 } t2 := b3
  clear b1 b2 b3
  simp only [b1', if_true]
  exact ⟨_, rfl, ⟨b3'.out_mem.trans a3'.out_mem, b3'.next_out.trans a3'.next_out,
      b3'.avail_out.trans a3'.avail_out, b3'.total_out.trans a3'.total_out⟩⟩

theorem output_same {s t : inflate_state} (h : OutSame s t) : output t = output s := by
  unfold output
  rw [h.total_out, h.out_mem]

/-- Storing a literal at `next_out` appends it to the output. -/
theorem output_push (s : inflate_state) (v : Nat) (h : s.next_out = s.total_out) :
    output { s with
      out_mem := store s.out_mem s.next_out v
      next_out := s.next_out + 1
      avail_out := s.avail_out - 1
      total_out := s.total_out + 1 } = output s ++ [v] := by
  unfold output
  show (List.range (s.total_out + 1)).map (store s.out_mem s.next_out v) = _
  rw [List.range_succ, List.map_append, h]
  congr 1
  · apply List.map_congr_left
    intro k hk
    rw [store_other _ _ _ _ (by have := List.mem_range.mp hk; omega)]
  · simp [store_same]

/-- The body of the block loop when `decode_next` returns a literal that fits
the output. -/
theorem decode_huffman_body_literal (dls : Nat) (s : inflate_state)
    (h1 : ¬ (decode_next dls s s.lit_huff_code).2.read_in_length < 0)
    (h2 : (decode_next dls s s.lit_huff_code).1 < 256)
    (h3 : ¬ (decode_next dls s s.lit_huff_code).2.avail_out < 1) :
    decode_huffman_body dls s = Step.next
      { (decode_next dls s s.lit_huff_code).2 with
        out_mem := store (decode_next dls s s.lit_huff_code).2.out_mem
          (decode_next dls s s.lit_huff_code).2.next_out (decode_next dls s s.lit_huff_code).1
        next_out := (decode_next dls s s.lit_huff_code).2.next_out + 1
        avail_out := (decode_next dls s s.lit_huff_code).2.avail_out - 1
        total_out := (decode_next dls s s.lit_huff_code).2.total_out + 1 } := by
  unfold decode_huffman_body
  simp only []
  rw [if_neg h1, if_pos h2, if_neg h3]

/-- The body of the block loop when `decode_next` returns the end-of-block
symbol. -/
theorem decode_huffman_body_eob (dls : Nat) (s : inflate_state)
    (h1 : ¬ (decode_next dls s s.lit_huff_code).2.read_in_length < 0)
    (h2 : (decode_next dls s s.lit_huff_code).1 = 256) :
    decode_huffman_body dls s = Step.next
      { (decode_next dls s s.lit_huff_code).2 with new_block := 1 } := by
  unfold decode_huffman_body
  simp only []
  rw [if_neg h1, if_neg (by omega), if_pos h2]

/-- The body of the block loop when `decode_next` runs out of input. -/
theorem decode_huffman_body_short (dls : Nat) (s : inflate_state)
    (h1 : (decode_next dls s s.lit_huff_code).2.read_in_length < 0) :
    decode_huffman_body dls s = Step.ret Status.END_OF_INPUT
      (decode_next dls s s.lit_huff_code).2 := by
  unfold decode_huffman_body
  simp only []
  rw [if_pos h1]


/-- One trip of the block loop over the code of a byte `v` that is whole in
the input: the byte is appended to the output and the reader stands after its
code. -/
theorem fixed_literal_step (dls : Nat) (h9 : 9 ≤ dls) (h15 : dls ≤ 15) {s : inflate_state}
    {P E : Nat} (v : Nat) (hv : v < 256) (hr : Reads s P E)
    (hT : FixedTable dls s.lit_huff_code) (hno : s.next_out = s.total_out)
    (hav : 1 ≤ s.avail_out) (hfit : P + fixed_len v ≤ 8 * E)
    (hcode : HasCode s.in_mem P v (fixed_len v)) :
    ∃ t, decode_huffman_body dls s = Step.next t ∧ Reads t (P + fixed_len v) E ∧
      t.lit_huff_code = s.lit_huff_code ∧ t.new_block = s.new_block ∧
      t.bfinal = s.bfinal ∧ t.in_mem = s.in_mem ∧ t.next_out = t.total_out ∧
      t.avail_out = s.avail_out - 1 ∧ t.total_out = s.total_out + 1 ∧
      output t = output s ++ [v] := by
  obtain ⟨d1, d2, d3⟩ := decode_next_fixed dls h9 h15 hr s.lit_huff_code hT v (by omega) hfit
    hcode
  have hb := decode_huffman_body_literal dls s (by have := d2.len_nonneg; omega)
    (by rw [d1]; exact hv) (by rw [d3.avail_out]; omega)
  generalize decode_next dls s s.lit_huff_code = r at d1 d2 d3 hb
  obtain ⟨w, s1⟩ := r
  have d1' : w = v := d1
  have d2' : Reads s1 (P + fixed_len v) E := d2
  have d3' : ReaderOnly s s1 := d3
  subst d1'
  refine ⟨_, hb, d2'.congr rfl rfl rfl rfl rfl, d3'.lit_huff_code, d3'.new_block, d3'.bfinal,
    d3'.in_mem, ?_, ?_, ?_, ?_⟩
  · show s1.next_out + 1 = s1.total_out + 1
    rw [d3'.next_out, d3'.total_out, hno]
  · show s1.avail_out - 1 = _
    rw [d3'.avail_out]
  · show s1.total_out + 1 = _
    rw [d3'.total_out]
  · rw [output_push s1 w (by rw [d3'.next_out, d3'.total_out, hno]), output_same d3'.out]

/-- The block loop on the rest of a fixed block that is whole in the input:
it returns 0 with the bytes left appended to the output and the block marked
complete. -/
theorem fixed_block_loop (dls : Nat) (h9 : 9 ≤ dls) (h15 : dls ≤ 15) (E fuel : Nat) :
    ∀ (x : List Nat) (P : Nat) (s : inflate_state), (∀ v ∈ x, v < 256) → Reads s P E →
      FixedTable dls s.lit_huff_code → s.new_block = 0 → s.next_out = s.total_out →
      x.length ≤ s.avail_out → TailAt s.in_mem P E x →
      P + (fixed_tail_bits x).length ≤ 8 * E →
      ∃ t, decode_huffman_code_block_stateless_base dls (fuel + x.length + 2) s
          = some (Status.DECOMPRESSION_FINISHED, t) ∧
        output t = output s ++ x ∧ t.total_out = s.total_out + x.length ∧
        t.avail_out = s.avail_out - x.length ∧ t.new_block = 1 ∧ t.bfinal = s.bfinal := by
  intro x
  induction x with
  | nil =>
    intro P s _ hr hT hnb hno _ htail hfit
    have hfit7 : P + 7 ≤ 8 * E := by simpa [fixed_tail_bits] using hfit
    have hcode := tail_at_nil htail 7 (le_refl _) hfit7
    obtain ⟨d1, d2, d3⟩ := decode_next_fixed dls h9 h15 hr s.lit_huff_code hT 256
      (by norm_num) hfit7 hcode
    have hb := decode_huffman_body_eob dls s (by have := d2.len_nonneg; omega) d1
    refine ⟨{ (decode_next dls s s.lit_huff_code).2 with new_block := 1 }, ?_, ?_, ?_, ?_,
      rfl, ?_⟩
    · show decode_huffman_code_block_stateless_base dls (fuel + 1 + 1) s = _
      rw [decode_huffman_code_block_stateless_base, if_pos hnb, hb]
      show decode_huffman_code_block_stateless_base dls (fuel + 1) _ = _
      rw [decode_huffman_code_block_stateless_base, if_neg (by show (1 : Nat) ≠ 0; norm_num)]
    · rw [List.append_nil]
      exact output_same ⟨d3.out_mem, d3.next_out, d3.avail_out, d3.total_out⟩
    · exact d3.total_out
    · show (decode_next dls s s.lit_huff_code).2.avail_out = _
      rw [d3.avail_out]; rfl
    · exact d3.bfinal
  | cons v r ih =>
    intro P s hx hr hT hnb hno hav htail hfit
    have hv : v < 256 := hx v (List.mem_cons_self _ _)
    have hl := fixed_literal_bits_length v hv
    have hfit2 : P + fixed_len v + (fixed_tail_bits r).length ≤ 8 * E := by
      simp only [fixed_tail_bits, List.length_append, hl] at hfit
      omega
    obtain ⟨hc1, hc2⟩ := tail_at_cons htail hv
    have hav1 : r.length + 1 ≤ s.avail_out := hav
    obtain ⟨t1, b1, b2, b3, b4, b5, b6, b7, b8, b9, b10⟩ :=
      fixed_literal_step dls h9 h15 v hv hr hT hno (by omega) (by omega)
        (hc1 _ (le_refl _) (by omega))
    obtain ⟨t, e1, e2, e3, e4, e5, e6⟩ := ih (P + fixed_len v) t1
      (fun u hu => hx u (List.mem_cons_of_mem _ hu)) b2 (by rw [b3]; exact hT)
      (by rw [b4]; exact hnb) b7 (by rw [b8]; omega) (by rw [b6]; exact hc2) hfit2
    refine ⟨t, ?_, ?_, ?_, ?_, e5, e6.trans b5⟩
    · show decode_huffman_code_block_stateless_base dls (fuel + r.length + 2 + 1) s = _
      rw [decode_huffman_code_block_stateless_base, if_pos hnb, b1]
      exact e1
    · rw [e2, b10, List.append_assoc]; rfl
    · rw [e3, b9, List.length_cons]; omega
    · rw [e4, b8, List.length_cons]; omega

/-- The block loop on the rest of a fixed block that the input cuts short:
it returns `END_OF_INPUT`, having appended some of the bytes left, in order. -/
theorem fixed_block_loop_short (dls : Nat) (h9 : 9 ≤ dls) (h15 : dls ≤ 15) (E fuel : Nat) :
    ∀ (x : List Nat) (P : Nat) (s : inflate_state), (∀ v ∈ x, v < 256) → Reads s P E →
      FixedTable dls s.lit_huff_code → s.new_block = 0 → s.next_out = s.total_out →
      x.length ≤ s.avail_out → TailAt s.in_mem P E x → P ≤ 8 * E →
      8 * E < P + (fixed_tail_bits x).length →
      ∃ t pre, decode_huffman_code_block_stateless_base dls (fuel + x.length + 1) s
          = some (Status.END_OF_INPUT, t) ∧
        output t = output s ++ pre ∧ pre <+: x ∧ t.total_out = s.total_out + pre.length := by
  intro x
  induction x with
  | nil =>
    intro P s _ hr hT hnb hno _ htail hPE hcut
    have hcut7 : 8 * E < P + fixed_len 256 := by simpa [fixed_tail_bits] using hcut
    have hcode := tail_at_nil htail (8 * E - P) (by simp [fixed_tail_bits] at hcut; omega)
      (by omega)
    have d := decode_next_fixed_short dls h9 h15 hr s.lit_huff_code hT 256 (by norm_num)
      hcut7 hPE hcode
    have hb := decode_huffman_body_short dls s d
    have d3 := decode_next_frame dls s s.lit_huff_code
    refine ⟨(decode_next dls s s.lit_huff_code).2, [], ?_, ?_, List.prefix_refl _, ?_⟩
    · show decode_huffman_code_block_stateless_base dls (fuel + 1) s = _
      rw [decode_huffman_code_block_stateless_base, if_pos hnb, hb]
    · rw [List.append_nil]
      exact output_same d3.out
    · exact d3.total_out
  | cons v r ih =>
    intro P s hx hr hT hnb hno hav htail hPE hcut
    have hv : v < 256 := hx v (List.mem_cons_self _ _)
    have hl := fixed_literal_bits_length v hv
    have hcut2 : 8 * E < P + fixed_len v + (fixed_tail_bits r).length := by
      simp only [fixed_tail_bits, List.length_append, hl] at hcut
      omega
    obtain ⟨hc1, hc2⟩ := tail_at_cons htail hv
    have hav1 : r.length + 1 ≤ s.avail_out := hav
    by_cases hfit : P + fixed_len v ≤ 8 * E
    · obtain ⟨t1, b1, b2, b3, b4, b5, b6, b7, b8, b9, b10⟩ :=
        fixed_literal_step dls h9 h15 v hv hr hT hno (by omega) hfit
          (hc1 _ (le_refl _) hfit)
      obtain ⟨t, pre, e1, e2, e3, e4⟩ := ih (P + fixed_len v) t1
        (fun u hu => hx u (List.mem_cons_of_mem _ hu)) b2 (by rw [b3]; exact hT)
        (by rw [b4]; exact hnb) b7 (by rw [b8]; omega) (by rw [b6]; exact hc2) hfit hcut2
      refine ⟨t, v :: pre, ?_, ?_, ?_, ?_⟩
      · show decode_huffman_code_block_stateless_base dls (fuel + r.length + 1 + 1) s = _
        rw [decode_huffman_code_block_stateless_base, if_pos hnb, b1]
        exact e1
      · rw [e2, b10, List.append_assoc]; rfl
      · exact (List.prefix_cons_inj v).mpr e3
      · rw [e4, b9, List.length_cons]; omega
    · have hcode := hc1 (8 * E - P) (by omega) (by omega)
      have d := decode_next_fixed_short dls h9 h15 hr s.lit_huff_code hT v (by omega)
        (by omega) hPE hcode
      have hb := decode_huffman_body_short dls s d
      have d3 := decode_next_frame dls s s.lit_huff_code
      refine ⟨(decode_next dls s s.lit_huff_code).2, [], ?_, ?_, List.nil_prefix, ?_⟩
      · show decode_huffman_code_block_stateless_base dls (fuel + r.length + 1 + 1) s = _
        rw [decode_huffman_code_block_stateless_base, if_pos hnb, hb]
      · rw [List.append_nil]
        exact output_same d3.out
      · exact d3.total_out


theorem fixed_block_length (x : List Nat) :
    (fixed_block x).length = (3 + (fixed_tail_bits x).length + 7) / 8 := by
  unfold fixed_block fixed_block_bits
  rw [pack_bits_length, List.length_append]
  rfl

theorem output_init (st : inflate_state) (in_mem out_mem : Nat → Nat) (in_size cap : Nat) :
    output (isal_inflate_init st in_mem in_size out_mem cap) = [] := rfl

/-- The header trip on a non-empty byte-prefix of a fixed block: the header
is read, the fixed tables are built and the reader stands at bit 3, before the
codes. -/
theorem fixed_block_header (dls fuel : Nat) (h9 : 9 ≤ dls) (st : inflate_state)
    (in_mem out_mem : Nat → Nat) (x p : List Nat) (cap : Nat) (hp : p <+: fixed_block x)
    (h1 : 1 ≤ p.length) (hsize : p.length < 2 ^ 32) (hin : Holds in_mem p) :
    ∃ t, read_header dls fuel (isal_inflate_init st in_mem p.length out_mem cap)
        = some (Status.DECOMPRESSION_FINISHED, t) ∧
      Reads t 3 p.length ∧ t.new_block = 0 ∧ t.bfinal = 1 ∧ t.btype = 1 ∧
      FixedTable dls t.lit_huff_code ∧ t.next_out = 0 ∧ t.total_out = 0 ∧
      t.avail_out = cap ∧ output t = [] ∧ TailAt t.in_mem 3 p.length x := by
  have hb : ∀ k, k < 8 * p.length → sbit in_mem k = (fixed_block_bits x).getD k false :=
    fun k hk => sbit_of_holds hin hp k hk
  have s0 : sbit in_mem 0 = true := by rw [hb 0 (by omega)]; rfl
  have s1 : sbit in_mem 1 = true := by rw [hb 1 (by omega)]; rfl
  have s2 : sbit in_mem 2 = false := by rw [hb 2 (by omega)]; rfl
  have hr := reads_init st in_mem out_mem p.length cap hsize
  obtain ⟨t, e, a1, a2, a3, a4, a5, a6, a7⟩ := read_header_fixed dls fuel hr (by omega)
    (by
      show sval in_mem (0 + 1) 2 = 1
      simp [sval, bits_val, s1, s2])
  refine ⟨t, e, a1, a2, ?_, a4, a7 h9, ?_, ?_, ?_, ?_, ?_⟩
  · rw [a3]
    show sval in_mem 0 1 = 1
    simp [sval, bits_val, s0]
  · rw [a6.next_out]; rfl
  · rw [a6.total_out]; rfl
  · rw [a6.avail_out]; rfl
  · rw [output_same a6]; rfl
  · intro j hj hfit
    rw [a5]
    show sbit in_mem (3 + j) = _
    rw [hb _ hfit]
    unfold fixed_block_bits
    rw [List.getD_append_right _ _ _ _ (by simp)]
    simp

/-- C3. Fixed-Huffman literal round trip.  `fixed_block x` is the single final
fixed block for `x`: the bits 1, 1, 0, the fixed code of each byte most
significant bit first (8 bits `0x30 + v` below 144, 9 bits `0x190 + (v - 144)`
from 144 on), the end-of-block code `0000000`, packed least significant bit
first and zero-padded.  For every byte sequence `x`, every capacity
`cap >= |x|` and every lookup width `DECODE_LOOKUP_SIZE` from 9 to 15,
`isal_inflate_init` then `isal_inflate_stateless` on `fixed_block x` returns
`DECOMPRESSION_FINISHED` with the output equal to `x`, `total_out = |x|` and
`avail_out = cap - |x|`.  The block for the empty sequence is `03 00` and the
block for `'A'` is the three bytes `73 04 00`. -/
theorem fixed_block_round_trip (dls fuel : Nat) (h9 : 9 ≤ dls) (h15 : dls ≤ 15)
    (st : inflate_state) (in_mem out_mem : Nat → Nat) (x : List Nat) (cap : Nat)
    (hx : ∀ v ∈ x, v < 256) (hcap : x.length ≤ cap) (hsize : (fixed_block x).length < 2 ^ 32)
    (hin : Holds in_mem (fixed_block x)) :
    (∃ t, isal_inflate_stateless dls (fuel + x.length + 2)
        (isal_inflate_init st in_mem (fixed_block x).length out_mem cap)
        = some (Status.DECOMPRESSION_FINISHED, t) ∧
      output t = x ∧ t.total_out = x.length ∧ t.avail_out = cap - x.length) ∧
    fixed_block [] = [3, 0] ∧ fixed_block [65] = [115, 4, 0] := by
  refine ⟨?_, by decide, by decide⟩
  have hlen := fixed_block_length x
  obtain ⟨t1, e1, a1, a2, a3, a4, a5, a6, a7, a8, a9, a10⟩ :=
    fixed_block_header dls (fuel + x.length + 2) h9 st in_mem out_mem x (fixed_block x) cap
      (List.prefix_refl _) (by omega) hsize hin
  obtain ⟨t2, e2, b1, b2, b3, b4, b5⟩ := fixed_block_loop dls h9 h15 (fixed_block x).length fuel
    x 3 t1 hx a1 a5 a2 (by rw [a6, a7]) (by rw [a8]; exact hcap) a10 (by omega)
  have hblock : inflate_block dls (fuel + x.length + 1 + 1)
      (isal_inflate_init st in_mem (fixed_block x).length out_mem cap)
      = some (Status.DECOMPRESSION_FINISHED, t2) := by
    unfold inflate_block
    rw [if_pos (by show (1 : Nat) ≠ 0; norm_num), e1]
    show (if t1.btype = 0 then _ else _) = _
    rw [if_neg (by rw [a4]; norm_num)]
    exact e2
  show ∃ t, isal_inflate_stateless dls (fuel + x.length + 1 + 1) _ = _ ∧ _
  rw [isal_inflate_stateless_next dls (fuel + x.length + 1) _ _ (Or.inr rfl) hblock]
  show ∃ t, isal_inflate_stateless dls (fuel + x.length + 1) _ = _ ∧ _
  rw [isal_inflate_stateless_done dls (fuel + x.length) _ (by rw [b4]; norm_num)
    (by rw [b5, a3]; norm_num)]
  refine ⟨_, rfl, ?_, ?_, ?_⟩
  · show output t2 = x
    rw [b1, a9]; rfl
  · show t2.total_out = x.length
    rw [b2, a7]; omega
  · show t2.avail_out = cap - x.length
    rw [b3, a8]

/-- Witness of C3: the block `73 04 00` for `'A'` gives `'A'`. -/
theorem fixed_block_round_trip_witness :
    (∃ t, isal_inflate_stateless 10 (0 + [65].length + 2)
        (isal_inflate_init blank_state (mem_of (fixed_block [65])) (fixed_block [65]).length
          (fun _ => 0) 1)
        = some (Status.DECOMPRESSION_FINISHED, t) ∧
      output t = [65] ∧ t.total_out = [65].length ∧ t.avail_out = 1 - [65].length) ∧
    fixed_block [] = [3, 0] ∧ fixed_block [65] = [115, 4, 0] :=
  fixed_block_round_trip 10 0 (by decide) (by decide) blank_state (mem_of (fixed_block [65]))
    (fun _ => 0) [65] 1 (by decide) (by decide) (by decide) (holds_mem_of _)

/-- C4. Truncated fixed-Huffman input is reported, never accepted.  For every
byte sequence `x`, every proper byte-prefix `p` of `fixed_block x` (the empty
one included), every capacity `cap >= |x|` and every lookup width
`DECODE_LOOKUP_SIZE` from 9 to 15, `isal_inflate_init` then
`isal_inflate_stateless` on `p` returns `END_OF_INPUT`, and the `total_out`
bytes written are a prefix of `x`. -/
theorem truncated_fixed_block (dls fuel : Nat) (h9 : 9 ≤ dls) (h15 : dls ≤ 15)
    (st : inflate_state) (in_mem out_mem : Nat → Nat) (x p : List Nat) (cap : Nat)
    (hx : ∀ v ∈ x, v < 256) (hcap : x.length ≤ cap) (hp : p <+: fixed_block x)
    (hlt : p.length < (fixed_block x).length) (hsize : p.length < 2 ^ 32)
    (hin : Holds in_mem p) :
    ∃ t, isal_inflate_stateless dls (fuel + x.length + 1)
        (isal_inflate_init st in_mem p.length out_mem cap) = some (Status.END_OF_INPUT, t) ∧
      output t <+: x ∧ t.total_out ≤ x.length := by
  have hlen := fixed_block_length x
  by_cases h0 : p.length = 0
  · have hr := reads_init st in_mem out_mem p.length cap hsize
    obtain ⟨t, e, a⟩ := read_header_empty dls (fuel + x.length + 1) hr (by omega)
    have hblock : inflate_block dls (fuel + x.length + 1)
        (isal_inflate_init st in_mem p.length out_mem cap) = some (Status.END_OF_INPUT, t) := by
      unfold inflate_block
      rw [if_pos (by show (1 : Nat) ≠ 0; norm_num), e]
    refine ⟨t, ?_, ?_, ?_⟩
    · exact isal_inflate_stateless_error dls (fuel + x.length) _ _ _ (Or.inr rfl) hblock
        (by decide)
    · rw [output_same a, output_init]; exact List.nil_prefix
    · rw [a.total_out]; exact Nat.zero_le _
  · obtain ⟨t1, e1, a1, a2, a3, a4, a5, a6, a7, a8, a9, a10⟩ :=
      fixed_block_header dls (fuel + x.length + 1) h9 st in_mem out_mem x p cap hp (by omega)
        hsize hin
    obtain ⟨t2, pre, e2, b1, b2, b3⟩ := fixed_block_loop_short dls h9 h15 p.length fuel
      x 3 t1 hx a1 a5 a2 (by rw [a6, a7]) (by rw [a8]; exact hcap) a10 (by omega) (by omega)
    have hblock : inflate_block dls (fuel + x.length + 1)
        (isal_inflate_init st in_mem p.length out_mem cap) = some (Status.END_OF_INPUT, t2) := by
      unfold inflate_block
      rw [if_pos (by show (1 : Nat) ≠ 0; norm_num), e1]
      show (if t1.btype = 0 then _ else _) = _
      rw [if_neg (by rw [a4]; norm_num)]
      exact e2
    refine ⟨t2, ?_, ?_, ?_⟩
    · exact isal_inflate_stateless_error dls (fuel + x.length) _ _ _ (Or.inr rfl) hblock
        (by decide)
    · rw [b1, a9]; exact b2
    · rw [b3, a7, Nat.zero_add]; exact b2.length_le

/-- Witness of C4: the first two bytes `73 04` of the block for `'A'`. -/
theorem truncated_fixed_block_witness :
    ∃ t, isal_inflate_stateless 10 (0 + [65].length + 1)
        (isal_inflate_init blank_state (mem_of [115, 4]) [115, 4].length (fun _ => 0) 1)
        = some (Status.END_OF_INPUT, t) ∧
      output t <+: [65] ∧ t.total_out ≤ [65].length :=
  truncated_fixed_block 10 0 (by decide) (by decide) blank_state (mem_of [115, 4])
    (fun _ => 0) [65] [115, 4] 1 (by decide) (by decide) (by decide) (by decide) (by decide)
    (holds_mem_of _)

/-- `read_header` on a dynamic block is `setup_dynamic_header` on the state
after the three header bits. -/
theorem read_header_dynamic (dls fuel : Nat) (s : inflate_state)
    (h0 : ¬ (header_state s).read_in_length < 0) (h2 : (header_state s).btype = 2) :
    read_header dls fuel s = setup_dynamic_header dls fuel (header_state s) := by
  have e : read_header dls fuel s =
      (if (header_state s).read_in_length < 0 then some (Status.END_OF_INPUT, header_state s)
      else if (header_state s).btype = 0 then
        some (Status.DECOMPRESSION_FINISHED,
          { header_state s with
            read_in := 0
            read_in_length := 0
            next_in := (header_state s).next_in
              - (((header_state s).read_in_length.tdiv 8) % 256).toNat
            avail_in := ((header_state s).avail_in
              + (((header_state s).read_in_length.tdiv 8) % 256).toNat) % 2 ^ 32 })
      else if (header_state s).btype = 1 then
        some (Status.DECOMPRESSION_FINISHED, setup_static_header dls (header_state s))
      else if (header_state s).btype = 2 then setup_dynamic_header dls fuel (header_state s)
      else some (Status.INVALID_BLOCK_HEADER, header_state s)) := rfl
  rw [e, if_neg h0, if_neg (by rw [h2]; norm_num), if_neg (by rw [h2]; norm_num), if_pos h2]

/-- `setup_dynamic_header` whose main loop ends with 0 and input left goes on
to the two calls of `make_inflate_huff_code`. -/
theorem setup_dynamic_header_tables (dls fuel : Nat) (s : inflate_state) (v : dyn_vars)
    (h0 : ¬ (dyn_code_lengths s).s.read_in_length < 0)
    (h : dyn_header_loop dls fuel s = some (Status.DECOMPRESSION_FINISHED, v)) :
    setup_dynamic_header dls fuel s = some (dyn_finish dls v) := by
  unfold setup_dynamic_header
  simp only []
  rw [if_neg h0]
  unfold dyn_header_loop at h
  rw [h]

/-- What the two traces say about the run itself: `read_header` returns what
the end of `setup_dynamic_header` returns for the variables `v` of its main
loop, input is left, and the call of `make_inflate_huff_code` for the
literal/length code has the lengths, the list of long codes and, in trip `i`
of its second loop, the tested code and the `temp_code_list` of the traces. -/
theorem dynamic_trace_run (dls fuel : Nat) (c : List Nat) (cap i : Nat)
    (lens ll tl : List Nat) (code : Nat)
    (h1 : dyn_lengths_trace dls fuel c cap
      = some (2, Status.DECOMPRESSION_FINISHED, false, lens))
    (h2 : lit_table_trace dls fuel c cap i = some (ll, code, tl)) :
    ∃ v, read_header dls fuel (isal_inflate_init blank_state (mem_of c) c.length (fun _ => 0) cap)
        = some (dyn_finish dls v) ∧
      ¬ v.s.read_in_length < 0 ∧
      (List.range LIT_LEN).map (fun k => (v.lit_and_dist_huff k).length) = lens ∧
      (make_inflate_huff_code_first dls v.s.lit_huff_code v.lit_and_dist_huff LIT_LEN
        v.lit_count).long_code_list = ll ∧
      lit_temp_code_list dls v i = (code, tl) := by
  unfold dyn_lengths_trace at h1
  unfold lit_table_trace at h2
  generalize hloop : dyn_header_loop dls fuel (first_header_state c cap) = o at h1 h2
  cases o with
  | none => exact absurd h1 (by simp)
  | some r =>
    obtain ⟨e, v⟩ := r
    simp only [Option.map_some', Option.some.injEq, Prod.mk.injEq] at h1 h2
    obtain ⟨hb, he, hd, hl⟩ := h1
    obtain ⟨h3, h6⟩ := h2
    have hn := of_decide_eq_false hd
    subst he
    have g1 : ¬ v.s.read_in_length < 0 := fun h => hn (Or.inr (Or.inr h))
    refine ⟨v, ?_, g1, hl, h3, h6⟩
    have e1 := read_header_dynamic dls fuel
      (isal_inflate_init blank_state (mem_of c) c.length (fun _ => 0) cap)
      (fun h => hn (Or.inl h)) hb
    rw [e1]
    exact setup_dynamic_header_tables dls fuel _ v (fun h => hn (Or.inr (Or.inl h))) hloop

set_option maxRecDepth 1000000 in
set_option maxHeartbeats 4000000 in
theorem overflow_stream_10_lengths :
    dyn_lengths_trace 10 100 overflow_stream_10 1 =
      some (2, Status.DECOMPRESSION_FINISHED, false,
        [11] ++ List.replicate 32 15 ++ [11, 3, 4, 5, 6, 7, 8, 9] ++ List.replicate 56 0 ++ [1]
          ++ List.replicate 158 0 ++ [2] ++ List.replicate 29 0) := by
  decide!

set_option maxRecDepth 1000000 in
set_option maxHeartbeats 4000000 in
theorem overflow_stream_10_group :
    lit_table_trace 10 100 overflow_stream_10 1 1 =
      some (List.range 34, 1023, (List.range 34).tail) := by
  decide!

set_option maxRecDepth 1000000 in
set_option maxHeartbeats 4000000 in
theorem overflow_stream_10_run :
    (isal_inflate_stateless 10 100
      (isal_inflate_init blank_state (mem_of overflow_stream_10) overflow_stream_10.length
        (fun _ => 0) 1)).map (fun r => (r.1, output r.2)) =
      some (Status.DECOMPRESSION_FINISHED, [97]) := by
  decide!

set_option maxRecDepth 1000000 in
set_option maxHeartbeats 4000000 in
theorem overflow_stream_9_lengths :
    dyn_lengths_trace 9 100 overflow_stream_9 1 =
      some (2, Status.DECOMPRESSION_FINISHED, false,
        [10] ++ List.replicate 64 15 ++ [10, 3, 4, 5, 6, 7, 8] ++ List.replicate 25 0 ++ [1]
          ++ List.replicate 158 0 ++ [2] ++ List.replicate 29 0) := by
  decide!

set_option maxRecDepth 1000000 in
set_option maxHeartbeats 4000000 in
theorem overflow_stream_9_group :
    lit_table_trace 9 100 overflow_stream_9 1 1 =
      some (List.range 66, 511, (List.range 66).tail) := by
  decide!

set_option maxRecDepth 1000000 in
set_option maxHeartbeats 4000000 in
theorem overflow_stream_9_run :
    (isal_inflate_stateless 9 100
      (isal_inflate_init blank_state (mem_of overflow_stream_9) overflow_stream_9.length
        (fun _ => 0) 1)).map (fun r => (r.1, output r.2)) =
      some (Status.DECOMPRESSION_FINISHED, [97]) := by
  decide!

/-- C1. The valid-stream round trip does not hold for the code as written:
`make_inflate_huff_code` writes past the end of its array `temp_code_list` on
valid streams.  `overflow_stream_10` is a valid final dynamic block encoding
`'a'`.  On it, with `DECODE_LOOKUP_SIZE = 10`, `read_header` goes through
`setup_dynamic_header`, whose main loop ends with status 0 and input left
having read a complete literal/length code with the lengths 11 (symbol 0),
15 (symbols 1 to 32), 11 (symbol 33), 3 to 9, 1 and 2.  In the call
`make_inflate_huff_code(&state->lit_huff_code, lit_and_dist_huff, LIT_LEN,
lit_count)` the long codes are the symbols 0 to 33; trip 0 of the second loop
handles the symbols 0 and 33 and sets their codes to `0xFFFF`; trip 1 (symbol
1, code 1023) stores the 33 symbols 1 to 33 in `temp_code_list`, symbol 33
because `0xFFFF & mask` equals the `first_bits` 1023 of this group, and the
array has `1 << (15 - DECODE_LOOKUP_SIZE)` = 32 elements.  The same happens
with `DECODE_LOOKUP_SIZE = 9` on `overflow_stream_9`: 65 symbols for 64
elements.  With the list unbounded, as in this embedding, both runs return
`DECOMPRESSION_FINISHED` with the output `'a'`. -/
theorem temp_code_list_overflow :
    (∃ v, read_header 10 100
        (isal_inflate_init blank_state (mem_of overflow_stream_10) overflow_stream_10.length
          (fun _ => 0) 1) = some (dyn_finish 10 v) ∧
      ¬ v.s.read_in_length < 0 ∧
      (List.range LIT_LEN).map (fun k => (v.lit_and_dist_huff k).length)
        = [11] ++ List.replicate 32 15 ++ [11, 3, 4, 5, 6, 7, 8, 9] ++ List.replicate 56 0
          ++ [1] ++ List.replicate 158 0 ++ [2] ++ List.replicate 29 0 ∧
      (make_inflate_huff_code_first 10 v.s.lit_huff_code v.lit_and_dist_huff LIT_LEN
        v.lit_count).long_code_list = List.range 34 ∧
      lit_temp_code_list 10 v 1 = (1023, (List.range 34).tail) ∧
      1 <<< (15 - 10) < (lit_temp_code_list 10 v 1).2.length) ∧
    (∃ v, read_header 9 100
        (isal_inflate_init blank_state (mem_of overflow_stream_9) overflow_stream_9.length
          (fun _ => 0) 1) = some (dyn_finish 9 v) ∧
      ¬ v.s.read_in_length < 0 ∧
      (List.range LIT_LEN).map (fun k => (v.lit_and_dist_huff k).length)
        = [10] ++ List.replicate 64 15 ++ [10, 3, 4, 5, 6, 7, 8] ++ List.replicate 25 0
          ++ [1] ++ List.replicate 158 0 ++ [2] ++ List.replicate 29 0 ∧
      (make_inflate_huff_code_first 9 v.s.lit_huff_code v.lit_and_dist_huff LIT_LEN
        v.lit_count).long_code_list = List.range 66 ∧
      lit_temp_code_list 9 v 1 = (511, (List.range 66).tail) ∧
      1 <<< (15 - 9) < (lit_temp_code_list 9 v 1).2.length) ∧
    (isal_inflate_stateless 10 100
      (isal_inflate_init blank_state (mem_of overflow_stream_10) overflow_stream_10.length
        (fun _ => 0) 1)).map (fun r => (r.1, output r.2))
      = some (Status.DECOMPRESSION_FINISHED, [97]) ∧
    (isal_inflate_stateless 9 100
      (isal_inflate_init blank_state (mem_of overflow_stream_9) overflow_stream_9.length
        (fun _ => 0) 1)).map (fun r => (r.1, output r.2))
      = some (Status.DECOMPRESSION_FINISHED, [97]) := by
  refine ⟨?_, ?_, overflow_stream_10_run, overflow_stream_9_run⟩
  · obtain ⟨v, a1, a2, a3, a4, a5⟩ := dynamic_trace_run 10 100 overflow_stream_10 1 1 _ _ _ _
      overflow_stream_10_lengths overflow_stream_10_group
    refine ⟨v, a1, a2, a3, a4, a5, ?_⟩
    rw [a5]
    decide
  · obtain ⟨v, a1, a2, a3, a4, a5⟩ := dynamic_trace_run 9 100 overflow_stream_9 1 1 _ _ _ _
      overflow_stream_9_lengths overflow_stream_9_group
    refine ⟨v, a1, a2, a3, a4, a5, ?_⟩
    rw [a5]
    decide

theorem bits_val_congr (f g : Nat → Bool) (P n : Nat) (h : ∀ j, j < n → f (P + j) = g (P + j)) :
    bits_val f P n = bits_val g P n := by
  apply Nat.eq_of_testBit_eq
  intro j
  rw [testBit_bits_val, testBit_bits_val]
  by_cases hj : j < n
  · rw [h j hj]
  · simp [hj]

theorem sbit_holds {mem : Nat → Nat} {b : List Nat} (hin : Holds mem b) (k : Nat)
    (hk : k < 8 * b.length) : sbit mem k = stream_bit b k := by
  unfold sbit stream_bit load_u8
  rw [hin _ (by omega), Nat.testBit_mod_two_pow (b.getD (k / 8) 0) 8 (k % 8)]
  have h8 : k % 8 < 8 := Nat.mod_lt _ (by norm_num)
  simp [h8]

/-- A read of width 0 on a reader that has not underflowed returns 0 and
leaves the state as it is. -/
theorem inflate_in_read_bits_zero (s : inflate_state) (h : 0 ≤ s.read_in_length) :
    inflate_in_read_bits s 0 = (0, s) := by
  unfold inflate_in_read_bits
  rw [if_neg (by push_cast; omega)]
  cases s
  simp

theorem stream_values_congr (f g : Nat → Bool) :
    ∀ (widths : List Nat) (P : Nat), (∀ k, P ≤ k → k < P + widths.sum → f k = g k) →
      stream_values f P widths = stream_values g P widths := by
  intro widths
  induction widths with
  | nil => intro _ _; rfl
  | cons n ns ih =>
    intro P h
    simp only [stream_values, List.sum_cons] at h ⊢
    rw [bits_val_congr f g P n (fun j hj => h _ (by omega) (by omega)),
      ih (P + n) (fun k h1 h2 => h k (by omega) (by omega))]

theorem read_bits_seq_nil (s : inflate_state) : read_bits_seq s [] = ([], s) := rfl

theorem read_bits_seq_cons (s : inflate_state) (n : Nat) (ns : List Nat) :
    read_bits_seq s (n :: ns)
      = ((inflate_in_read_bits s n).1 :: (read_bits_seq (inflate_in_read_bits s n).2 ns).1,
         (read_bits_seq (inflate_in_read_bits s n).2 ns).2) := rfl

/-- A sequence of reads that stays inside the input, from a reader at bit
`P`: the values are the stream values, and after every call the reader stands
at the sum of the widths read so far and has not underflowed. -/
theorem read_bits_seq_reads (E : Nat) :
    ∀ (widths : List Nat) (s : inflate_state) (P : Nat), Reads s P E →
      (∀ n ∈ widths, n ≤ 13) → P + widths.sum ≤ 8 * E →
      (read_bits_seq s widths).1 = stream_values (sbit s.in_mem) P widths ∧
      ∀ k, k ≤ widths.length →
        Reads (read_bits_seq s (widths.take k)).2 (P + (widths.take k).sum) E := by
  intro widths
  induction widths with
  | nil =>
    intro s P h _ _
    refine ⟨rfl, ?_⟩
    intro k _
    simpa [read_bits_seq_nil] using h
  | cons n ns ih =>
    intro s P h hw hsum
    have hn : n ≤ 13 := hw n (List.mem_cons_self _ _)
    rw [List.sum_cons] at hsum
    obtain ⟨a1, a2, a3⟩ := inflate_in_read_bits_reads n h (by omega) (by omega)
    obtain ⟨i1, i2⟩ := ih (inflate_in_read_bits s n).2 (P + n) a2
      (fun m hm => hw m (List.mem_cons_of_mem _ hm)) (by omega)
    constructor
    · rw [read_bits_seq_cons]
      show _ :: _ = bits_val (sbit s.in_mem) P n :: stream_values (sbit s.in_mem) (P + n) ns
      rw [a1, i1, a3.in_mem]
      rfl
    · intro k hk
      cases k with
      | zero => simpa [read_bits_seq_nil] using h
      | succ k =>
        have := i2 k (by simpa using hk)
        rw [List.take_succ_cons, read_bits_seq_cons, List.sum_cons]
        rw [Nat.add_assoc] at this
        exact this

/-- C18. The bit reader delivers the input as an LSB-first bit stream across
refills.  For every input `b` of fewer than `2^32` bytes (so that both the
8-byte load and the byte-at-a-time load occur), from the state
`isal_inflate_init` leaves, and every list of widths, each at most 13, whose
sum is at most `8 * |b|`: the calls `inflate_in_read_bits` return, in order,
the integers whose bit `j` is the stream bit at the sum of the earlier widths
plus `j`, where stream bit `8m + t` is bit `t` of `b[m]`; after every call
`read_in_length` is non-negative, and a call of width 0 made at that point
returns 0 and leaves the state (so `read_in` and `read_in_length`) as it is. -/
theorem read_bits_lsb_first (st : inflate_state) (in_mem out_mem : Nat → Nat) (b : List Nat)
    (cap : Nat) (widths : List Nat) (hsize : b.length < 2 ^ 32) (hin : Holds in_mem b)
    (hw : ∀ n ∈ widths, n ≤ 13) (hsum : widths.sum ≤ 8 * b.length) :
    (read_bits_seq (isal_inflate_init st in_mem b.length out_mem cap) widths).1
      = stream_values (stream_bit b) 0 widths ∧
    ∀ k, k ≤ widths.length →
      0 ≤ (read_bits_seq (isal_inflate_init st in_mem b.length out_mem cap)
        (widths.take k)).2.read_in_length ∧
      inflate_in_read_bits
        (read_bits_seq (isal_inflate_init st in_mem b.length out_mem cap) (widths.take k)).2 0
        = (0, (read_bits_seq (isal_inflate_init st in_mem b.length out_mem cap)
            (widths.take k)).2) := by
  have hr := reads_init st in_mem out_mem b.length cap hsize
  obtain ⟨h1, h2⟩ := read_bits_seq_reads b.length widths _ 0 hr hw (by omega)
  constructor
  · rw [h1]
    exact stream_values_congr _ _ widths 0 (fun k _ hk => sbit_holds hin k (by omega))
  · intro k hk
    have h3 := (h2 k hk).len_nonneg
    exact ⟨h3, inflate_in_read_bits_zero _ h3⟩

/-- Witness of C18: on the ten bytes `01 .. 0A` the widths 5, 0, 13, 13, 13,
13, 13, 10 cross the 8-byte load and the byte-wise loads. -/
theorem read_bits_lsb_first_witness :
    (read_bits_seq (isal_inflate_init blank_state (mem_of [1, 2, 3, 4, 5, 6, 7, 8, 9, 10])
        [1, 2, 3, 4, 5, 6, 7, 8, 9, 10].length (fun _ => 0) 0) [5, 0, 13, 13, 13, 13, 13, 10]).1
      = stream_values (stream_bit [1, 2, 3, 4, 5, 6, 7, 8, 9, 10]) 0
          [5, 0, 13, 13, 13, 13, 13, 10] ∧
    ∀ k, k ≤ [5, 0, 13, 13, 13, 13, 13, 10].length →
      0 ≤ (read_bits_seq (isal_inflate_init blank_state
          (mem_of [1, 2, 3, 4, 5, 6, 7, 8, 9, 10])
          [1, 2, 3, 4, 5, 6, 7, 8, 9, 10].length (fun _ => 0) 0)
        ([5, 0, 13, 13, 13, 13, 13, 10].take k)).2.read_in_length ∧
      inflate_in_read_bits
        (read_bits_seq (isal_inflate_init blank_state (mem_of [1, 2, 3, 4, 5, 6, 7, 8, 9, 10])
          [1, 2, 3, 4, 5, 6, 7, 8, 9, 10].length (fun _ => 0) 0)
          ([5, 0, 13, 13, 13, 13, 13, 10].take k)).2 0
        = (0, (read_bits_seq (isal_inflate_init blank_state
            (mem_of [1, 2, 3, 4, 5, 6, 7, 8, 9, 10])
            [1, 2, 3, 4, 5, 6, 7, 8, 9, 10].length (fun _ => 0) 0)
            ([5, 0, 13, 13, 13, 13, 13, 10].take k)).2) :=
  read_bits_lsb_first blank_state (mem_of [1, 2, 3, 4, 5, 6, 7, 8, 9, 10]) (fun _ => 0)
    [1, 2, 3, 4, 5, 6, 7, 8, 9, 10] 0 [5, 0, 13, 13, 13, 13, 13, 10] (by decide)
    (holds_mem_of _) (by decide) (by decide)

theorem Kept.of_out_same {s t : inflate_state} (h : OutSame s t) : Kept s t := by
  intro k _
  rw [h.out_mem]

theorem Kept.extend {s t u : inflate_state} (h1 : Kept s t) (h2 : Kept t u)
    (hm : s.total_out ≤ t.total_out) : Kept s u := by
  intro k hk
  rw [h2 k (by omega), h1 k hk]

theorem OutStep.of_kept_same {cap : Nat} {out0 : Nat → Nat} {s t : inflate_state}
    (h : OutInv cap out0 s) (e : OutSame s t) : OutStep cap out0 s t :=
  ⟨h.of_same e, by rw [e.total_out], Kept.of_out_same e⟩

theorem OutStep.compose {cap : Nat} {out0 : Nat → Nat} {s t u : inflate_state}
    (h1 : OutStep cap out0 s t) (h2 : OutStep cap out0 t u) : OutStep cap out0 s u :=
  ⟨h2.inv, le_trans h1.mono h2.mono, Kept.extend h1.kept h2.kept h1.mono⟩

/-- When the body of the block loop goes on, the bytes written before are
kept: a literal is stored at offset `total_out`, a back-copy writes from
`total_out` on. -/
theorem decode_huffman_body_next_kept {cap : Nat} {out0 : Nat → Nat} (dls : Nat)
    {s : inflate_state} (h : OutInv cap out0 s) (t : inflate_state)
    (ht : decode_huffman_body dls s = Step.next t) : Kept s t := by
  have f1 : OutSame s (decode_next dls s s.lit_huff_code).2 := (decode_next_frame dls s _).out
  have f2 : OutSame s (decode_length (decode_next dls s s.lit_huff_code).2
      (decode_next dls s s.lit_huff_code).1).2 :=
    OutSame.chain f1 (decode_length_frame _ _).out
  have f3 : OutSame s (decode_distance dls (decode_length (decode_next dls s s.lit_huff_code).2
      (decode_next dls s s.lit_huff_code).1).2).2 :=
    OutSame.chain f2 (decode_distance_frame dls _).out
  have i1 := h.of_same f1
  have i3 := h.of_same f3
  unfold decode_huffman_body at ht
  simp only [] at ht
  generalize decode_next dls s s.lit_huff_code = r at f1 f2 f3 i1 i3 ht
  generalize decode_length r.2 r.1 = l at f2 f3 i3 ht
  generalize decode_distance dls l.2 = d at f3 i3 ht
  split_ifs at ht with c1 c2 c3 c4 c5 c6 c7 c8 <;> cases ht
  · intro k hk
    show store r.2.out_mem r.2.next_out r.1 k = s.out_mem k
    rw [store_other _ _ _ _ (by have := i1.next_out; have := f1.total_out; omega), f1.out_mem]
  · exact Kept.of_out_same (OutSame.chain f1 ⟨rfl, rfl, rfl, rfl⟩)
  · intro k hk
    show back_copy d.2.out_mem d.2.next_out d.1 l.1 k = s.out_mem k
    rw [back_copy_frame _ _ _ _ _ (by have := i3.next_out; have := f3.total_out; omega),
      f3.out_mem]

theorem decode_huffman_step {cap : Nat} {out0 : Nat → Nat} (dls fuel : Nat) :
    ∀ (s : inflate_state) (e : Status) (t : inflate_state), OutInv cap out0 s →
      decode_huffman_code_block_stateless_base dls fuel s = some (e, t) →
      OutStep cap out0 s t := by
  induction fuel with
  | zero => intro s e t _ h; cases h
  | succ n ih =>
    intro s e t hs h
    rw [decode_huffman_code_block_stateless_base] at h
    split_ifs at h
    · cases hb : decode_huffman_body dls s with
      | ret e1 t1 =>
        rw [hb] at h
        cases h
        exact OutStep.of_kept_same hs (decode_huffman_body_ret_out dls s _ _ hb)
      | next t1 =>
        rw [hb] at h
        obtain ⟨j1, j2⟩ := decode_huffman_body_next_inv dls hs _ hb
        exact OutStep.compose ⟨j1, j2, decode_huffman_body_next_kept dls hs _ hb⟩ (ih _ _ _ j1 h)
    · cases h
      exact OutStep.of_kept_same hs (OutSame.keep _)

theorem decode_literal_block_kept {cap : Nat} {out0 : Nat → Nat} {s : inflate_state}
    (h : OutInv cap out0 s) : Kept s (decode_literal_block s).2 := by
  have hn := h.next_out
  intro k hk
  unfold decode_literal_block decode_literal_copy
  split_ifs <;> first
    | rfl
    | (show memcpy _ _ _ _ _ k = _
       unfold memcpy
       rw [if_neg (by show ¬ (s.next_out ≤ k ∧ _); omega)])

theorem decode_literal_block_step {cap : Nat} {out0 : Nat → Nat} {s : inflate_state}
    (h : OutInv cap out0 s) : OutStep cap out0 s (decode_literal_block s).2 :=
  ⟨decode_literal_block_inv h, decode_literal_block_total_out s, decode_literal_block_kept h⟩

theorem inflate_block_step {cap : Nat} {out0 : Nat → Nat} (dls fuel : Nat)
    (s : inflate_state) (e : Status) (t : inflate_state) (hs : OutInv cap out0 s)
    (h : inflate_block dls fuel s = some (e, t)) : OutStep cap out0 s t := by
  unfold inflate_block at h
  have key : ∀ (s1 : inflate_state) (e1 : Status), OutSame s s1 →
      (match (some (e1, s1) : Option (Status × inflate_state)) with
        | none => none
        | some (Status.DECOMPRESSION_FINISHED, s1) =>
          if s1.btype = 0 then some (decode_literal_block s1)
          else decode_huffman_code_block_stateless_base dls fuel s1
        | some (e, s1) => some (e, s1)) = some (e, t) →
      OutStep cap out0 s t := by
    intro s1 e1 f h1
    have hs1 := OutStep.of_kept_same hs f
    cases e1 <;> simp only [] at h1
    · split_ifs at h1
      · have h2 := Option.some.inj h1
        have ht : (decode_literal_block s1).2 = t := by rw [h2]
        rw [← ht]
        exact OutStep.compose hs1 (decode_literal_block_step hs1.inv)
      · exact OutStep.compose hs1 (decode_huffman_step dls fuel _ _ _ hs1.inv h1)
    all_goals
      cases h1
      exact hs1
  split_ifs at h with c
  · cases hr : read_header dls fuel s with
    | none => rw [hr] at h; cases h
    | some q =>
      obtain ⟨e1, s1⟩ := q
      rw [hr] at h
      exact key s1 e1 (read_header_out dls fuel _ _ _ hr) h
  · exact key s Status.DECOMPRESSION_FINISHED (OutSame.keep s) h

theorem isal_inflate_stateless_step {cap : Nat} {out0 : Nat → Nat} (dls fuel : Nat) :
    ∀ (s : inflate_state) (e : Status) (t : inflate_state), OutInv cap out0 s →
      isal_inflate_stateless dls fuel s = some (e, t) → OutStep cap out0 s t := by
  induction fuel with
  | zero => intro s e t _ h; cases h
  | succ n ih =>
    intro s e t hs h
    rw [isal_inflate_stateless] at h
    split_ifs at h
    · cases hb : inflate_block dls (n + 1) s with
      | none => rw [hb] at h; cases h
      | some q =>
        obtain ⟨e1, s1⟩ := q
        rw [hb] at h
        have j := inflate_block_step dls (n + 1) s e1 s1 hs hb
        cases e1 <;> simp only [] at h
        · exact OutStep.compose j (ih _ _ _ j.inv h)
        all_goals
          cases h
          exact j
    · cases h
      exact OutStep.of_kept_same hs ⟨rfl, rfl, rfl, rfl⟩

/-- C12. Output accounting invariant.  `isal_inflate_init` with capacity `cap`
establishes `next_out = out_stream + total_out`, `total_out + avail_out = cap`
and "no byte at or after offset `total_out` differs from the initial output
memory".  From any state with this accounting, every step keeps it, does not
lower `total_out` and does not touch the bytes below the old `total_out`: the
header read and every status return of the block loop (which leave the output
fields as they are), one trip of the block loop (literal emit, back-copy,
end-of-block), the stored-block copy, one trip of the driver and the whole run
of `isal_inflate_stateless`, whatever status it returns.  So on any returned
status the bytes written are exactly those below `total_out`. -/
theorem output_accounting_invariant (dls fuel cap : Nat) (out0 : Nat → Nat) (s : inflate_state)
    (h : OutInv cap out0 s) :
    (∀ (st : inflate_state) (in_mem : Nat → Nat) (in_size : Nat),
      OutInv cap out0 (isal_inflate_init st in_mem in_size out0 cap) ∧
      (isal_inflate_init st in_mem in_size out0 cap).total_out = 0) ∧
    (∀ e t, read_header dls fuel s = some (e, t) →
      OutStep cap out0 s t ∧ t.total_out = s.total_out ∧ t.out_mem = s.out_mem) ∧
    (∀ e t, decode_huffman_body dls s = Step.ret e t →
      OutStep cap out0 s t ∧ t.total_out = s.total_out ∧ t.out_mem = s.out_mem) ∧
    (∀ t, decode_huffman_body dls s = Step.next t → OutStep cap out0 s t) ∧
    OutStep cap out0 s (decode_literal_block s).2 ∧
    (∀ e t, decode_huffman_code_block_stateless_base dls fuel s = some (e, t) →
      OutStep cap out0 s t) ∧
    (∀ e t, inflate_block dls fuel s = some (e, t) → OutStep cap out0 s t) ∧
    (∀ e t, isal_inflate_stateless dls fuel s = some (e, t) → OutStep cap out0 s t) := by
  refine ⟨fun st in_mem in_size => ⟨out_inv_init st in_mem out0 in_size cap, rfl⟩, ?_, ?_, ?_,
    decode_literal_block_step h, fun e t => decode_huffman_step dls fuel s e t h,
    fun e t => inflate_block_step dls fuel s e t h,
    fun e t => isal_inflate_stateless_step dls fuel s e t h⟩
  · intro e t ht
    have f := read_header_out dls fuel s t e ht
    exact ⟨OutStep.of_kept_same h f, f.total_out, f.out_mem⟩
  · intro e t ht
    have f := decode_huffman_body_ret_out dls s e t ht
    exact ⟨OutStep.of_kept_same h f, f.total_out, f.out_mem⟩
  · intro t ht
    obtain ⟨j1, j2⟩ := decode_huffman_body_next_inv dls h t ht
    exact ⟨j1, j2, decode_huffman_body_next_kept dls h t ht⟩

/-- Witness of C12: the state `isal_inflate_init` leaves, with capacity 5. -/
theorem output_accounting_invariant_witness :
    OutInv 5 (fun _ => 0) (isal_inflate_init blank_state (mem_of [3, 0]) 2 (fun _ => 0) 5) ∧
    ∀ e t, isal_inflate_stateless 10 3
        (isal_inflate_init blank_state (mem_of [3, 0]) 2 (fun _ => 0) 5) = some (e, t) →
      OutStep 5 (fun _ => 0) (isal_inflate_init blank_state (mem_of [3, 0]) 2 (fun _ => 0) 5) t :=
  ⟨out_inv_init blank_state (mem_of [3, 0]) (fun _ => 0) 2 5,
   (output_accounting_invariant 10 3 5 (fun _ => 0)
    (isal_inflate_init blank_state (mem_of [3, 0]) 2 (fun _ => 0) 5)
    (out_inv_init blank_state (mem_of [3, 0]) (fun _ => 0) 2 5)).2.2.2.2.2.2.2⟩

theorem dyn_enter_start (hlit : Nat) (s : inflate_state) :
    dyn_enter hlit (dyn_start s) = dyn_start s := by
  have c1 : ¬ (dyn_start s).current = 257 + hlit := by
    show ¬ (0 = 257 + hlit)
    omega
  have c2 : ¬ (dyn_start s).current = LIT_LEN := by
    show ¬ (0 = 286)
    omega
  unfold dyn_enter
  simp only []
  rw [if_neg c1, if_neg c2]

/-- The first trip of the main loop of `setup_dynamic_header` when the symbol
decoded is 16 and the input has not underflowed: no slot precedes, the body
returns `INVALID_BLOCK_HEADER`. -/
theorem dyn_body_first_repeat (dls : Nat) (code : inflate_huff_code) (hlit : Nat)
    (s : inflate_state) (h2 : (decode_next dls s code).1 = 16)
    (h3 : ¬ (decode_next dls s code).2.read_in_length < 0) :
    dyn_body dls code hlit (dyn_start s)
      = DynStep.ret Status.INVALID_BLOCK_HEADER
          { dyn_start s with s := (decode_next dls s code).2 } := by
  unfold dyn_body
  simp only []
  rw [dyn_enter_start]
  have e : (dyn_start s).s = s := rfl
  have hp : (dyn_start s).previous = none := rfl
  rw [e, if_neg h3, if_neg (by rw [h2]; norm_num), if_pos h2, if_pos hp]

theorem dyn_loop_first_repeat (dls : Nat) (code : inflate_huff_code) (hlit hdist fuel : Nat)
    (s : inflate_state) (h2 : (decode_next dls s code).1 = 16)
    (h3 : ¬ (decode_next dls s code).2.read_in_length < 0) :
    dyn_loop dls code hlit hdist (fuel + 1) (dyn_start s)
      = some (Status.INVALID_BLOCK_HEADER,
          { dyn_start s with s := (decode_next dls s code).2 }) := by
  have c : (dyn_start s).current < LIT_LEN + hdist + 1 := by
    show 0 < 286 + hdist + 1
    omega
  rw [dyn_loop, if_pos c, dyn_body_first_repeat dls code hlit s h2 h3]

/-- `setup_dynamic_header` when the first code-length symbol is 16. -/
theorem setup_dynamic_header_first_repeat (dls fuel : Nat) (s : inflate_state)
    (h1 : ¬ (dyn_code_lengths s).s.read_in_length < 0)
    (h2 : (first_length_symbol dls s).1 = 16)
    (h3 : ¬ (first_length_symbol dls s).2.read_in_length < 0) :
    setup_dynamic_header dls (fuel + 1) s
      = some (Status.INVALID_BLOCK_HEADER, (first_length_symbol dls s).2) := by
  unfold first_length_symbol at h2 h3 ⊢
  unfold code_length_table at h2 h3 ⊢
  have hl := dyn_loop_first_repeat dls _
    ((inflate_in_read_bits s 5).1 % 256)
    ((inflate_in_read_bits (inflate_in_read_bits s 5).2 5).1 % 256) fuel _ h2 h3
  unfold setup_dynamic_header
  simp only []
  rw [if_neg h1, hl]

/-- C14. A code-length repeat with no predecessor is rejected.  For every state
on which `read_header` reads a dynamic block header (`btype == 2`) without
underflow, if the lengths of the code-length code are read without underflow
and the first symbol decoded with that code is 16, again without underflow,
then `setup_dynamic_header` and `read_header` return `INVALID_BLOCK_HEADER`
with the output fields untouched; when this is the block the driver starts
with (`new_block != 0`, `bfinal == 0`, as `isal_inflate_init` leaves them),
`isal_inflate_stateless` returns `INVALID_BLOCK_HEADER` with `total_out` as it
was, which is 0 after `isal_inflate_init`. -/
theorem repeat_without_predecessor (dls fuel : Nat) (s : inflate_state)
    (hb : (header_state s).btype = 2) (h0 : ¬ (header_state s).read_in_length < 0)
    (h1 : ¬ (dyn_code_lengths (header_state s)).s.read_in_length < 0)
    (h2 : (first_length_symbol dls (header_state s)).1 = 16)
    (h3 : ¬ (first_length_symbol dls (header_state s)).2.read_in_length < 0) :
    setup_dynamic_header dls (fuel + 1) (header_state s)
      = some (Status.INVALID_BLOCK_HEADER, (first_length_symbol dls (header_state s)).2) ∧
    read_header dls (fuel + 1) s
      = some (Status.INVALID_BLOCK_HEADER, (first_length_symbol dls (header_state s)).2) ∧
    OutSame s (first_length_symbol dls (header_state s)).2 ∧
    (s.new_block ≠ 0 → s.bfinal = 0 →
      isal_inflate_stateless dls (fuel + 1) s
        = some (Status.INVALID_BLOCK_HEADER, (first_length_symbol dls (header_state s)).2) ∧
      (first_length_symbol dls (header_state s)).2.total_out = s.total_out) ∧
    (∀ (st : inflate_state) (in_mem out_mem : Nat → Nat) (in_size cap : Nat),
      s = isal_inflate_init st in_mem in_size out_mem cap →
      isal_inflate_stateless dls (fuel + 1) s
        = some (Status.INVALID_BLOCK_HEADER, (first_length_symbol dls (header_state s)).2) ∧
      (first_length_symbol dls (header_state s)).2.total_out = 0) := by
  have e1 := setup_dynamic_header_first_repeat dls fuel (header_state s) h1 h2 h3
  have e2 : read_header dls (fuel + 1) s
      = some (Status.INVALID_BLOCK_HEADER, (first_length_symbol dls (header_state s)).2) := by
    rw [read_header_dynamic dls (fuel + 1) s h0 hb, e1]
  have f := read_header_out dls (fuel + 1) s _ _ e2
  have drv : s.new_block ≠ 0 → s.bfinal = 0 →
      isal_inflate_stateless dls (fuel + 1) s
        = some (Status.INVALID_BLOCK_HEADER, (first_length_symbol dls (header_state s)).2) ∧
      (first_length_symbol dls (header_state s)).2.total_out = s.total_out := by
    intro hn hf
    have hblock : inflate_block dls (fuel + 1) s
        = some (Status.INVALID_BLOCK_HEADER, (first_length_symbol dls (header_state s)).2) := by
      unfold inflate_block
      rw [if_pos hn, e2]
    exact ⟨isal_inflate_stateless_error dls fuel _ _ _ (Or.inr hf) hblock (by decide),
      f.total_out⟩
  refine ⟨e1, e2, f, drv, ?_⟩
  intro st in_mem out_mem in_size cap hs
  have hn : s.new_block ≠ 0 := by rw [hs]; show (1 : Nat) ≠ 0; norm_num
  have hf : s.bfinal = 0 := by rw [hs]; rfl
  obtain ⟨d1, d2⟩ := drv hn hf
  refine ⟨d1, ?_⟩
  rw [d2, hs]
  rfl

set_option maxRecDepth 1000000 in
set_option maxHeartbeats 4000000 in
/-- Witness of C14: on `05 00 02 24` the first code-length symbol is 16. -/
theorem repeat_without_predecessor_witness :
    (header_state (isal_inflate_init blank_state (mem_of repeat_first_stream) 4
      (fun _ => 0) 0)).btype = 2 ∧
    (first_length_symbol 10 (header_state (isal_inflate_init blank_state
      (mem_of repeat_first_stream) 4 (fun _ => 0) 0))).1 = 16 ∧
    isal_inflate_stateless 10 1
        (isal_inflate_init blank_state (mem_of repeat_first_stream) 4 (fun _ => 0) 0)
      = some (Status.INVALID_BLOCK_HEADER,
          (first_length_symbol 10 (header_state (isal_inflate_init blank_state
            (mem_of repeat_first_stream) 4 (fun _ => 0) 0))).2) ∧
    (first_length_symbol 10 (header_state (isal_inflate_init blank_state
      (mem_of repeat_first_stream) 4 (fun _ => 0) 0))).2.total_out = 0 := by
  have hb : (header_state (isal_inflate_init blank_state (mem_of repeat_first_stream) 4
      (fun _ => 0) 0)).btype = 2 := by decide!
  have h2 : (first_length_symbol 10 (header_state (isal_inflate_init blank_state
      (mem_of repeat_first_stream) 4 (fun _ => 0) 0))).1 = 16 := by decide!
  exact ⟨hb, h2,
    (repeat_without_predecessor 10 0
      (isal_inflate_init blank_state (mem_of repeat_first_stream) 4 (fun _ => 0) 0)
      hb (by decide!) (by decide!) h2 (by decide!)).2.2.2.2 blank_state
      (mem_of repeat_first_stream) (fun _ => 0) 4 0 rfl⟩

/-- The distance symbols 30 and 31 give `look_back_dist = 0`: their
`dist_start` is 0 and they have no extra bits. -/
theorem decode_distance_zero (dls : Nat) (s : inflate_state)
    (h : (decode_next dls s s.dist_huff_code).1 % 256 = 30 ∨
      (decode_next dls s s.dist_huff_code).1 % 256 = 31) :
    (decode_distance dls s).1 = 0 := by
  unfold decode_distance
  simp only []
  rcases h with h | h <;> rw [h] <;>
    simp [dist_start, dist_extra_bit_count, inflate_in_read_bits]

set_option maxRecDepth 1000000 in
set_option maxHeartbeats 4000000 in
theorem zero_distance_pair :
    first_pair_trace 10 5 zero_distance_stream [170, 187, 204]
      = some (Status.DECOMPRESSION_FINISHED, 257, 3, 0, 0) := by
  decide!

set_option maxRecDepth 1000000 in
set_option maxHeartbeats 4000000 in
theorem zero_distance_run :
    run_result 10 5 zero_distance_stream [170, 187, 204]
      = some (Status.DECOMPRESSION_FINISHED, 3, [170, 187, 204]) := by
  decide!

set_option maxRecDepth 1000000 in
set_option maxHeartbeats 4000000 in
theorem zero_distance_pair_31 :
    first_pair_trace 10 5 zero_distance_stream_31 [170, 187, 204]
      = some (Status.DECOMPRESSION_FINISHED, 257, 3, 0, 0) := by
  decide!

set_option maxRecDepth 1000000 in
set_option maxHeartbeats 4000000 in
theorem zero_distance_run_31 :
    run_result 10 5 zero_distance_stream_31 [170, 187, 204]
      = some (Status.DECOMPRESSION_FINISHED, 3, [170, 187, 204]) := by
  decide!

/-- C19. A back-copy with distance 0 is performed: the bound
`1 <= look_back_dist` does not hold.  On the fixed block `03 3E 00` (length
symbol 257, then the distance symbol 30) with the output buffer holding
`AA BB CC`, `read_header` returns 0 and the first trip of the block loop has
`next_lit = 257`, `repeat_length = 3` and `look_back_dist = 0` with
`total_out = 0`; the test `look_back_dist > total_out` does not reject it,
`byte_copy` copies each byte onto itself, and the run returns
`DECOMPRESSION_FINISHED` with `total_out = 3` and the output `AA BB CC`, three
bytes the decoder never wrote.  The same holds for the distance symbol 31
(`03 7E 00`): `dist_start` is 0 for both symbols. -/
theorem zero_distance_accepted :
    first_pair_trace 10 5 zero_distance_stream [170, 187, 204]
      = some (Status.DECOMPRESSION_FINISHED, 257, 3, 0, 0) ∧
    run_result 10 5 zero_distance_stream [170, 187, 204]
      = some (Status.DECOMPRESSION_FINISHED, 3, [170, 187, 204]) ∧
    first_pair_trace 10 5 zero_distance_stream_31 [170, 187, 204]
      = some (Status.DECOMPRESSION_FINISHED, 257, 3, 0, 0) ∧
    run_result 10 5 zero_distance_stream_31 [170, 187, 204]
      = some (Status.DECOMPRESSION_FINISHED, 3, [170, 187, 204]) ∧
    dist_start.getD 30 0 = 0 ∧ dist_start.getD 31 0 = 0 ∧
    back_copy (mem_of [170, 187, 204]) 0 0 3 = byte_copy (mem_of [170, 187, 204]) 0 0 3 :=
  ⟨zero_distance_pair, zero_distance_run, zero_distance_pair_31, zero_distance_run_31,
    rfl, rfl, rfl⟩

/-- With `hlit = 30` the first test of the body takes the cursor from slot 287
back to slot 286. -/
theorem dyn_enter_back (v : dyn_vars) (h : v.current = 287) :
    (dyn_enter 30 v).current = 286 := by
  have e1 : (if v.current = 257 + 30 then { v with current := LIT_LEN } else v)
      = { v with current := LIT_LEN } := if_pos (by rw [h])
  unfold dyn_enter
  simp only []
  rw [e1]
  split_ifs <;> rfl

set_option maxRecDepth 1000000 in
set_option maxHeartbeats 4000000 in
theorem dist_overrun_cursor :
    first_cursor_trace 10 10 dist_overrun_stream
      = (0, 31, [(0, 0), (138, 138), (286, 286), (316, 316), (317, 317)]) := by
  decide!

set_option maxRecDepth 1000000 in
set_option maxHeartbeats 4000000 in
theorem dist_overrun_slots :
    dyn_overrun_trace 10 10 dist_overrun_stream
      = some (Status.DECOMPRESSION_FINISHED, 318, [1, 1, 0, 0]) := by
  decide!

set_option maxRecDepth 1000000 in
set_option maxHeartbeats 4000000 in
theorem cursor_back_trace :
    first_cursor_trace 10 6 cursor_back_stream
      = (30, 1, [(0, 0), (138, 138), (276, 276), (286, 286), (287, 286), (287, 286)]) := by
  decide!

set_option maxRecDepth 1000000 in
set_option maxHeartbeats 4000000 in
theorem repeat_overrun_cursor :
    first_cursor_trace 10 10 repeat_overrun_stream
      = (0, 29, [(0, 0), (138, 138), (286, 286), (314, 314), (315, 315)]) := by
  decide!

set_option maxRecDepth 1000000 in
set_option maxHeartbeats 4000000 in
theorem repeat_overrun_slots :
    dyn_overrun_trace 10 10 repeat_overrun_stream
      = some (Status.DECOMPRESSION_FINISHED, 321, [1, 1, 1, 1]) := by
  decide!

/-- C20. The length array of `setup_dynamic_header` is written past its end,
and the cursor can move backwards.  The array `lit_and_dist_huff` has
`LIT_LEN + DIST_LEN` = 316 slots.  (a) On `repeat_overrun_stream` (`hlit = 0`,
`hdist = 29`) the trips of the main loop start with the cursor at 0, 138, 286,
314 and 315; the last trip decodes the symbol 16 with 6 repeats, and the loop
ends with status 0 and the cursor at 321 having stored the length 1 in the
slots 316 to 320.  (b) On `dist_overrun_stream` (`hdist = 31`) the loop bound
is `LIT_LEN + 32`: two trips start with the cursor at 316 and 317 and store
the length 1 there.  (c) On `cursor_back_stream` (`hlit = 30`) the cursor
reaches 287 and the first test of the next trip sets it back to 286, trip
after trip. -/
theorem dyn_slots_out_of_bounds :
    LIT_LEN + DIST_LEN = 316 ∧
    first_cursor_trace 10 10 repeat_overrun_stream
      = (0, 29, [(0, 0), (138, 138), (286, 286), (314, 314), (315, 315)]) ∧
    dyn_overrun_trace 10 10 repeat_overrun_stream
      = some (Status.DECOMPRESSION_FINISHED, 321, [1, 1, 1, 1]) ∧
    first_cursor_trace 10 10 dist_overrun_stream
      = (0, 31, [(0, 0), (138, 138), (286, 286), (316, 316), (317, 317)]) ∧
    dyn_overrun_trace 10 10 dist_overrun_stream
      = some (Status.DECOMPRESSION_FINISHED, 318, [1, 1, 0, 0]) ∧
    first_cursor_trace 10 6 cursor_back_stream
      = (30, 1, [(0, 0), (138, 138), (276, 276), (286, 286), (287, 286), (287, 286)]) :=
  ⟨rfl, repeat_overrun_cursor, repeat_overrun_slots, dist_overrun_cursor, dist_overrun_slots,
    cursor_back_trace⟩

set_option maxRecDepth 1000000 in
set_option maxHeartbeats 4000000 in
theorem stale_entry_run_blank :
    run_result_from 10 20 blank_state stale_entry_stream 4
      = some (Status.OUT_BUFFER_OVERFLOW, 4, [97, 0, 0, 0]) := by
  decide!

set_option maxRecDepth 1000000 in
set_option maxHeartbeats 4000000 in
theorem stale_entry_run_used :
    run_result_from 10 20 (used_state 10) stale_entry_stream 4
      = some (Status.DECOMPRESSION_FINISHED, 2, [97, 255]) := by
  decide!

set_option maxRecDepth 1000000 in
set_option maxHeartbeats 4000000 in
theorem stale_entry_blank :
    lit_entry_after_header 10 20 blank_state stale_entry_stream 1023 = some 0 := by
  decide!

set_option maxRecDepth 1000000 in
set_option maxHeartbeats 4000000 in
theorem stale_entry_used :
    lit_entry_after_header 10 20 (used_state 10) stale_entry_stream 1023
      = some (255 + 512 * 9) := by
  decide!

/-- C13. The result of `isal_inflate_init` followed by `isal_inflate_stateless`
depends on the tables the state held before: `isal_inflate_init` leaves
`lit_huff_code` and `dist_huff_code` as they are, and `make_inflate_huff_code`
writes only the entries of the codes it is given.  On `stale_entry_stream`,
whose literal/length code has no symbol for the bits `11`, with capacity 4:
from the all-zero state the entry `small_code_lookup[1023]` is 0 after the
header, the block loop decodes the symbol 0 of length 0 again and again and the
run returns `OUT_BUFFER_OVERFLOW` with `total_out = 4` and output
`61 00 00 00`; from the state left by a decode of the fixed block `03 00` the
entry still holds the fixed-code symbol 255 of length 9 and the run returns
`DECOMPRESSION_FINISHED` with `total_out = 2` and output `61 FF`. -/
theorem init_keeps_stale_tables :
    (∀ (st : inflate_state) (in_mem out_mem : Nat → Nat) (in_size cap : Nat),
      (isal_inflate_init st in_mem in_size out_mem cap).lit_huff_code = st.lit_huff_code ∧
      (isal_inflate_init st in_mem in_size out_mem cap).dist_huff_code = st.dist_huff_code) ∧
    run_result_from 10 3 blank_state [3, 0] 0 = some (Status.DECOMPRESSION_FINISHED, 0, []) ∧
    lit_entry_after_header 10 20 blank_state stale_entry_stream 1023 = some 0 ∧
    lit_entry_after_header 10 20 (used_state 10) stale_entry_stream 1023
      = some (255 + 512 * 9) ∧
    run_result_from 10 20 blank_state stale_entry_stream 4
      = some (Status.OUT_BUFFER_OVERFLOW, 4, [97, 0, 0, 0]) ∧
    run_result_from 10 20 (used_state 10) stale_entry_stream 4
      = some (Status.DECOMPRESSION_FINISHED, 2, [97, 255]) := by
  refine ⟨fun _ _ _ _ _ => ⟨rfl, rfl⟩, ?_, stale_entry_blank, stale_entry_used,
    stale_entry_run_blank, stale_entry_run_used⟩
  decide!





/-- The end of the driver on a reader that stands at bit `P` of an input of
`E` bytes: the whole bytes left in `read_in` are given back, `next_in` is the
first byte after the one that holds bit `P - 1` and `avail_in` counts the
bytes from there to the end. -/
theorem isal_inflate_stateless_rewind (dls fuel : Nat) {s : inflate_state} {P E : Nat}
    (h : Reads s P E) (hE : E < 2 ^ 32) (h1 : s.new_block ≠ 0) (h2 : s.bfinal ≠ 0) :
    ∃ t, isal_inflate_stateless dls (fuel + 1) s = some (Status.DECOMPRESSION_FINISHED, t) ∧
      t.next_in = (P + 7) / 8 ∧ t.avail_in = E - (P + 7) / 8 ∧ (P + 7) / 8 ≤ E ∧
      OutSame s t := by
  rw [isal_inflate_stateless_done dls fuel s h1 h2]
  obtain ⟨h0, h64, hpos, hfin, hav, _, _, _⟩ := h
  refine ⟨_, rfl, ?_, ?_, ?_, ⟨rfl, rfl, rfl, rfl⟩⟩
  · show ((s.next_in : Int) - s.read_in_length.tdiv 8).toNat = (P + 7) / 8
    rw [Int.tdiv_eq_ediv h0 (by norm_num)]
    omega
  · show (((s.avail_in : Int) + s.read_in_length.tdiv 8) % 2 ^ 32).toNat = E - (P + 7) / 8
    rw [Int.tdiv_eq_ediv h0 (by norm_num)]
    omega
  · omega

set_option maxRecDepth 1000000 in
set_option maxHeartbeats 4000000 in
theorem empty_fixed_block_tail :
    run_input_accounting 10 3 [3, 0, 1, 2, 3, 4, 5, 6, 7, 8] 0
      = some (Status.DECOMPRESSION_FINISHED, 0, 2, 8) := by
  decide!

set_option maxRecDepth 1000000 in
set_option maxHeartbeats 4000000 in
theorem truncated_stored_accounting :
    run_input_accounting 10 3 [1, 5, 0, 250, 255, 104, 101, 108] 5
      = some (Status.DECOMPRESSION_FINISHED, 5, 10, 4294967294) := by
  decide!

/-- C11. The input accounting on success does not hold for every run.  On the
eight input bytes `01 05 00 FA FF 68 65 6C` (a final stored block of
`len = 5` with three of its data bytes) and capacity 5 the run returns
`DECOMPRESSION_FINISHED` with `next_in` at offset 10, two bytes past the end
of the input, and `avail_in = 2^32 - 2`, which is more than the input length:
`in_len - avail_in` is not a number of input bytes.  The rewinding itself is
right: whenever the final block ends with the reader at bit `P` of an input of
`E` bytes, the driver returns with `next_in` at offset `ceil(P / 8)` and
`avail_in = E - ceil(P / 8)`, whatever the refills had loaded; `03 00`
followed by the eight bytes `01 .. 08` finishes with `next_in` at offset 2
and `avail_in = 8`. -/
theorem input_accounting_overrun :
    run_input_accounting 10 3 [1, 5, 0, 250, 255, 104, 101, 108] 5
      = some (Status.DECOMPRESSION_FINISHED, 5, 10, 4294967294) ∧
    [1, 5, 0, 250, 255, 104, 101, 108].length < 10 ∧
    [1, 5, 0, 250, 255, 104, 101, 108].length < 4294967294 ∧
    run_input_accounting 10 3 [3, 0, 1, 2, 3, 4, 5, 6, 7, 8] 0
      = some (Status.DECOMPRESSION_FINISHED, 0, 2, 8) ∧
    (∀ (dls fuel : Nat) (s : inflate_state) (P E : Nat), Reads s P E → E < 2 ^ 32 →
      s.new_block ≠ 0 → s.bfinal ≠ 0 →
      ∃ t, isal_inflate_stateless dls (fuel + 1) s = some (Status.DECOMPRESSION_FINISHED, t) ∧
        t.next_in = (P + 7) / 8 ∧ t.avail_in = E - (P + 7) / 8 ∧ (P + 7) / 8 ≤ E ∧
        OutSame s t) :=
  ⟨truncated_stored_accounting, by decide, by decide, empty_fixed_block_tail,
    fun dls fuel _ _ _ h hE h1 h2 => isal_inflate_stateless_rewind dls fuel h hE h1 h2⟩

set_option maxRecDepth 1000000 in
set_option maxHeartbeats 4000000 in
theorem overflow_lengths_10_kraft :
    overflow_lengths_10.length = LIT_LEN ∧
    (∀ L ∈ overflow_lengths_10, L ≤ 15) ∧
    kraft_sum (fun i => overflow_lengths_10.getD i 0) LIT_LEN = 2 ^ 15 := by
  decide!

set_option maxRecDepth 1000000 in
set_option maxHeartbeats 4000000 in
theorem overflow_lengths_9_kraft :
    overflow_lengths_9.length = LIT_LEN ∧
    (∀ L ∈ overflow_lengths_9, L ≤ 15) ∧
    kraft_sum (fun i => overflow_lengths_9.getD i 0) LIT_LEN = 2 ^ 15 := by
  decide!

set_option maxRecDepth 1000000 in
set_option maxHeartbeats 4000000 in
theorem overflow_lengths_10_group :
    temp_code_trace 10 zero_code (table_of_lengths overflow_lengths_10) LIT_LEN
        (histogram overflow_lengths_10) 1
      = (List.range 34, 1023, (List.range 34).tail) := by
  decide!

set_option maxRecDepth 1000000 in
set_option maxHeartbeats 4000000 in
theorem overflow_lengths_9_group :
    temp_code_trace 9 zero_code (table_of_lengths overflow_lengths_9) LIT_LEN
        (histogram overflow_lengths_9) 1
      = (List.range 66, 511, (List.range 66).tail) := by
  decide!

/-- C15. Build-then-decode does not hold for every length vector that
satisfies the Kraft inequality, because the build is not defined for all of
them: `make_inflate_huff_code` writes past the end of `temp_code_list`.
`overflow_lengths_10` has 286 lengths, all at most 15, with Kraft sum exactly
1.  In the call of `make_inflate_huff_code` on it with its histogram and
`DECODE_LOOKUP_SIZE = 10`, the long codes are the symbols 0 to 33, and trip 1
of the second loop (symbol 1, whose code 1023 is not the marker `0xFFFF`)
stores the 33 symbols 1 to 33 in `temp_code_list`, an array of
`1 << (15 - DECODE_LOOKUP_SIZE)` = 32 elements: symbol 33, handled in trip 0,
is gathered again because its marker `0xFFFF` has the low bits 1023 of this
group.  With `DECODE_LOOKUP_SIZE = 9` the same happens on
`overflow_lengths_9`: 65 symbols for 64 elements. -/
theorem build_overflows_temp_code_list :
    (overflow_lengths_10.length = LIT_LEN ∧
      (∀ L ∈ overflow_lengths_10, L ≤ 15) ∧
      kraft_sum (fun i => overflow_lengths_10.getD i 0) LIT_LEN = 2 ^ 15 ∧
      temp_code_trace 10 zero_code (table_of_lengths overflow_lengths_10) LIT_LEN
          (histogram overflow_lengths_10) 1
        = (List.range 34, 1023, (List.range 34).tail) ∧
      1 <<< (15 - 10) < (temp_code_trace 10 zero_code (table_of_lengths overflow_lengths_10)
          LIT_LEN (histogram overflow_lengths_10) 1).2.2.length) ∧
    (overflow_lengths_9.length = LIT_LEN ∧
      (∀ L ∈ overflow_lengths_9, L ≤ 15) ∧
      kraft_sum (fun i => overflow_lengths_9.getD i 0) LIT_LEN = 2 ^ 15 ∧
      temp_code_trace 9 zero_code (table_of_lengths overflow_lengths_9) LIT_LEN
          (histogram overflow_lengths_9) 1
        = (List.range 66, 511, (List.range 66).tail) ∧
      1 <<< (15 - 9) < (temp_code_trace 9 zero_code (table_of_lengths overflow_lengths_9)
          LIT_LEN (histogram overflow_lengths_9) 1).2.2.length) := by
  refine ⟨⟨overflow_lengths_10_kraft.1, overflow_lengths_10_kraft.2.1,
    overflow_lengths_10_kraft.2.2, overflow_lengths_10_group, ?_⟩,
    ⟨overflow_lengths_9_kraft.1, overflow_lengths_9_kraft.2.1,
    overflow_lengths_9_kraft.2.2, overflow_lengths_9_group, ?_⟩⟩
  · rw [overflow_lengths_10_group]
    decide
  · rw [overflow_lengths_9_group]
    decide

theorem mask5_bit : ∀ k, k < 16 → (0x55555555 : Nat).testBit k = decide (k % 2 = 0) := by decide
theorem mask3_bit : ∀ k, k < 16 → (0x33333333 : Nat).testBit k = decide (k % 4 < 2) := by decide
theorem mask0f_bit : ∀ k, k < 16 → (0x0F0F0F0F : Nat).testBit k = decide (k % 8 < 4) := by decide
theorem maskff_bit : ∀ k, k < 16 → (0x00FF00FF : Nat).testBit k = decide (k % 16 < 8) := by decide

/-- One swap step of `bit_reverse2` on a 16-bit value: bit `k` comes from bit
`k + a` where the mask is set at `k`, from bit `k - a` elsewhere. -/
theorem swap_step_bit (y m a k : Nat) (hk : k < 16) :
    ((((y >>> a) &&& m) ||| ((y &&& m) <<< a)) % 65536).testBit k
      = ((y.testBit (a + k) && m.testBit k) ||
         (decide (a ≤ k) && (y.testBit (k - a) && m.testBit (k - a)))) := by
  have h : (65536 : Nat) = 2 ^ 16 := by norm_num
  rw [h, Nat.testBit_mod_two_pow, Nat.testBit_or, Nat.testBit_and, Nat.testBit_shiftRight,
    Nat.testBit_shiftLeft, Nat.testBit_and]
  simp [hk]

/-- The four swap steps reverse the 16 bits. -/
theorem bit_swap16_bit (x k : Nat) :
    (bit_swap16 x).testBit k = (decide (k < 16) && x.testBit (15 - k)) := by
  by_cases hk : k < 16
  · unfold bit_swap16
    simp only []
    interval_cases k <;>
      simp [swap_step_bit, mask5_bit, mask3_bit, mask0f_bit, maskff_bit, -Nat.testBit_zero]
  · have : bit_swap16 x < 2 ^ k := by
      have h1 := bit_swap16_lt x
      have h2 : (2 : Nat) ^ 16 ≤ 2 ^ k := Nat.pow_le_pow_right (by norm_num) (by omega)
      omega
    rw [Nat.testBit_lt_two_pow this]
    simp [hk]


/-- `bit_reverse2(bits, length)` is the width-`length` bit reversal: bit `j`
of the result is bit `length - 1 - j` of `bits`. -/
theorem bit_reverse2_bit (x L j : Nat) (hL : L ≤ 16) :
    (bit_reverse2 x L).testBit j = (decide (j < L) && x.testBit (L - 1 - j)) := by
  unfold bit_reverse2
  rw [Nat.testBit_shiftRight, bit_swap16_bit]
  by_cases hj : j < L
  · have e : 15 - (16 - L + j) = L - 1 - j := by omega
    have c : 16 - L + j < 16 := by omega
    simp [hj, c, e]
  · have c : ¬ 16 - L + j < 16 := by omega
    simp [hj, c]

theorem bit_reverse2_eq (x L : Nat) (hL : L ≤ 16) : bit_reverse2 x L = reverse_bits x L := by
  apply Nat.eq_of_testBit_eq
  intro j
  unfold reverse_bits
  rw [bit_reverse2_bit x L j hL, testBit_bits_val, Nat.zero_add]

theorem reverse_bits_congr (a b L : Nat) (h : a % 2 ^ L = b % 2 ^ L) :
    reverse_bits a L = reverse_bits b L := by
  unfold reverse_bits
  apply bits_val_congr
  intro j hj
  rw [Nat.zero_add]
  have h1 := Nat.testBit_mod_two_pow a L (L - 1 - j)
  have h2 := Nat.testBit_mod_two_pow b L (L - 1 - j)
  have c : L - 1 - j < L := by omega
  simp only [c, decide_True, Bool.true_and] at h1 h2
  rw [← h1, ← h2, h]

/-- The `next_code` array of the function differs from the one of RFC 1951 by
`count[0] * 2^L`, modulo `2^16`. -/
theorem next_code_init_rfc (count : Nat → Nat) (L : Nat) :
    next_code_init count (L + 1) % 65536
      = (rfc_next_code count (L + 1) + count 0 * 2 ^ (L + 1)) % 65536 := by
  induction L with
  | zero =>
    simp only [next_code_init, rfc_next_code, Nat.shiftLeft_eq]
    omega
  | succ L ih =>
    have e1 : next_code_init count (L + 2)
        = ((next_code_init count (L + 1) + count (L + 1)) <<< 1) % 65536 := rfl
    have e2 : rfc_next_code count (L + 2)
        = (rfc_next_code count (L + 1) + count (L + 1)) <<< 1 := rfl
    have hc : count 0 * 2 ^ (L + 1 + 1) = 2 * (count 0 * 2 ^ (L + 1)) := by
      rw [Nat.pow_succ]; ring
    rw [e1, e2, hc]
    simp only [Nat.shiftLeft_eq, pow_one]
    generalize next_code_init count (L + 1) = a at ih ⊢
    generalize rfc_next_code count (L + 1) = b at ih ⊢
    generalize count 0 * 2 ^ (L + 1) = c at ih ⊢
    omega


/-- The code the first loop of `make_inflate_huff_code` stores for a symbol is
the bit reversal of its RFC 1951 canonical code, whatever `count[0]` is. -/
theorem code_at_rfc (count lens : Nat → Nat) (i : Nat) (h1 : 1 ≤ lens i) (h16 : lens i ≤ 16) :
    code_at (next_code_init count) lens i = reverse_bits (rfc_code count lens i) (lens i) := by
  unfold code_at rfc_code
  rw [bit_reverse2_eq _ _ h16]
  apply reverse_bits_congr
  obtain ⟨L, hL⟩ : ∃ L, lens i = L + 1 := ⟨lens i - 1, by omega⟩
  rw [hL] at h16 ⊢
  have h := next_code_init_rfc count L
  have e16 : (65536 : Nat) = 2 ^ 16 := by norm_num
  rw [e16] at h ⊢
  rw [mod_two_pow_mod _ _ _ (by omega)]
  have h2 : next_code_init count (L + 1) % 2 ^ (L + 1)
      = rfc_next_code count (L + 1) % 2 ^ (L + 1) := by
    have := congrArg (fun x => x % 2 ^ (L + 1)) h
    simp only [mod_two_pow_mod _ 16 (L + 1) (by omega)] at this
    rw [this, Nat.add_mul_mod_self_right]
  rw [Nat.add_mod, h2, ← Nat.add_mod]

theorem rfc_next_code_weight (count : Nat → Nat) (L : Nat) (h15 : L + 1 ≤ 15) :
    rfc_next_code count (L + 1) * 2 ^ (15 - (L + 1)) = weighted_below count (L + 1) := by
  induction L with
  | zero => simp [rfc_next_code, weighted_below]
  | succ L ih =>
    have e1 : rfc_next_code count (L + 2)
        = (rfc_next_code count (L + 1) + count (L + 1)) <<< 1 := rfl
    have e2 : weighted_below count (L + 2)
        = weighted_below count (L + 1) + count (L + 1) * 2 ^ (15 - (L + 1)) := rfl
    rw [e1, e2, ← ih (by omega), Nat.shiftLeft_eq, pow_one]
    have e3 : 15 - (L + 1) = (15 - (L + 1 + 1)) + 1 := by omega
    rw [e3, Nat.pow_succ]
    ring

theorem weighted_below_congr (c d : Nat → Nat) (M : Nat)
    (h : ∀ k, 1 ≤ k → k < M → c k = d k) : weighted_below c M = weighted_below d M := by
  induction M with
  | zero => rfl
  | succ M ih =>
    cases M with
    | zero => rfl
    | succ M =>
      have e1 : weighted_below c (M + 2)
          = weighted_below c (M + 1) + c (M + 1) * 2 ^ (15 - (M + 1)) := rfl
      have e2 : weighted_below d (M + 2)
          = weighted_below d (M + 1) + d (M + 1) * 2 ^ (15 - (M + 1)) := rfl
      rw [e1, e2, ih (fun k h1 h2 => h k h1 (by omega)), h (M + 1) (by omega) (by omega)]

theorem weighted_below_mono (c : Nat → Nat) (M N : Nat) (h : M ≤ N) :
    weighted_below c M ≤ weighted_below c N := by
  induction N with
  | zero =>
    have : M = 0 := by omega
    rw [this]
  | succ N ih =>
    by_cases hm : M = N + 1
    · rw [hm]
    · have h1 := ih (by omega)
      cases N with
      | zero => exact h1
      | succ N =>
        have e1 : weighted_below c (N + 2)
            = weighted_below c (N + 1) + c (N + 1) * 2 ^ (15 - (N + 1)) := rfl
        rw [e1]
        exact le_trans h1 (Nat.le_add_right _ _)

theorem weighted_below_bump (c : Nat → Nat) (l : Nat) (M : Nat) :
    weighted_below (fun k => c k + (if k = l then 1 else 0)) M
      = weighted_below c M + (if 1 ≤ l ∧ l < M then 2 ^ (15 - l) else 0) := by
  induction M with
  | zero => simp [weighted_below]
  | succ M ih =>
    cases M with
    | zero =>
      have : ¬ (1 ≤ l ∧ l < 0 + 1) := by omega
      rw [if_neg this]
      rfl
    | succ M =>
      have e1 : ∀ f : Nat → Nat, weighted_below f (M + 2)
          = weighted_below f (M + 1) + f (M + 1) * 2 ^ (15 - (M + 1)) := fun _ => rfl
      rw [e1, e1, ih]
      by_cases hl : l = M + 1
      · subst hl
        have c1 : ¬ (1 ≤ M + 1 ∧ M + 1 < M + 1) := by omega
        have c2 : 1 ≤ M + 1 ∧ M + 1 < M + 1 + 1 := by omega
        simp only [if_neg c1, if_pos c2, if_true]
        ring
      · have c3 : ¬ (M + 1 = l) := fun e => hl e.symm
        simp only [if_neg c3, Nat.add_zero]
        by_cases hlt : 1 ≤ l ∧ l < M + 1
        · have c2 : 1 ≤ l ∧ l < M + 1 + 1 := by omega
          rw [if_pos hlt, if_pos c2]
          ring
        · have c2 : ¬ (1 ≤ l ∧ l < M + 1 + 1) := by omega
          rw [if_neg hlt, if_neg c2]
          ring

/-- The Kraft sum, counted length by length. -/
theorem kraft_sum_weighted (lens : Nat → Nat) (n : Nat) (h : ∀ i, i < n → lens i ≤ 15) :
    weighted_below (fun k => cnt lens k n) 16 = kraft_sum lens n := by
  induction n with
  | zero =>
    have : ∀ M, weighted_below (fun _ => 0) M = 0 := by
      intro M
      induction M with
      | zero => rfl
      | succ M ih =>
        cases M with
        | zero => rfl
        | succ M =>
          show weighted_below (fun _ => 0) (M + 1) + 0 * _ = 0
          rw [ih]; simp
    exact this 16
  | succ n ih =>
    have hn := h n (by omega)
    have e : (fun k => cnt lens k (n + 1))
        = (fun k => cnt lens k n + (if k = lens n ∧ lens n ≠ 0 then 1 else 0)) := by
      funext k
      simp only [cnt]
      by_cases hk : k = lens n
      · subst hk; simp
      · have : ¬ (lens n = k ∧ k ≠ 0) := fun c => hk c.1.symm
        simp [hk, this]
    simp only [kraft_sum]
    rw [e]
    by_cases h0 : lens n = 0
    · have e2 : (fun k => cnt lens k n + (if k = lens n ∧ lens n ≠ 0 then 1 else 0))
          = (fun k => cnt lens k n) := by
        funext k
        simp [h0]
      rw [e2, ih (fun i hi => h i (by omega)), if_pos h0, Nat.add_zero]
    · have e2 : (fun k => cnt lens k n + (if k = lens n ∧ lens n ≠ 0 then 1 else 0))
          = (fun k => cnt lens k n + (if k = lens n then 1 else 0)) := by
        funext k
        simp [h0]
      rw [e2, weighted_below_bump, ih (fun i hi => h i (by omega)), if_neg h0,
        if_pos (by omega)]

theorem cnt_mono (lens : Nat → Nat) (L m n : Nat) (h : m ≤ n) : cnt lens L m ≤ cnt lens L n := by
  induction n with
  | zero =>
    have : m = 0 := by omega
    rw [this]
  | succ n ih =>
    by_cases hm : m = n + 1
    · rw [hm]
    · exact le_trans (ih (by omega)) (by simp only [cnt]; exact Nat.le_add_right _ _)

/-- Under the Kraft inequality the canonical code of a symbol fits its length. -/
theorem rfc_code_lt (count lens : Nat → Nat) (n i : Nat) (hi : i < n)
    (h1 : 1 ≤ lens i) (h15 : ∀ j, j < n → lens j ≤ 15)
    (hk : kraft_sum lens n ≤ 2 ^ 15)
    (hc : ∀ L, 1 ≤ L → L ≤ 15 → count L = cnt lens L n) :
    rfc_code count lens i < 2 ^ lens i := by
  have hL := h15 i hi
  obtain ⟨L, hLe⟩ : ∃ L, lens i = L + 1 := ⟨lens i - 1, by omega⟩
  have hw := rfc_next_code_weight count L (by omega)
  have hrank : cnt lens (lens i) i < count (lens i) := by
    rw [hc _ h1 hL]
    have := cnt_mono lens (lens i) (i + 1) n (by omega)
    rw [cnt_succ_same lens i (by omega)] at this
    omega
  have hsum : weighted_below count (L + 2) ≤ 2 ^ 15 := by
    have e1 : weighted_below count 16 = weighted_below (fun k => cnt lens k n) 16 :=
      weighted_below_congr _ _ 16 (fun k a b => hc k a (by omega))
    have := weighted_below_mono count (L + 2) 16 (by omega)
    rw [e1, kraft_sum_weighted lens n h15] at this
    omega
  have e2 : weighted_below count (L + 2)
      = weighted_below count (L + 1) + count (L + 1) * 2 ^ (15 - (L + 1)) := rfl
  unfold rfc_code
  rw [hLe] at hrank ⊢
  rw [e2, ← hw] at hsum
  have hpos : 0 < 2 ^ (15 - (L + 1)) := Nat.two_pow_pos _
  have hlt : (rfc_next_code count (L + 1) + cnt lens (L + 1) i) * 2 ^ (15 - (L + 1))
      < 2 ^ (L + 1) * 2 ^ (15 - (L + 1)) := by
    have e3 : 2 ^ (L + 1) * 2 ^ (15 - (L + 1)) = 2 ^ 15 := by
      rw [← Nat.pow_add]; congr 1; omega
    rw [e3]
    have : (rfc_next_code count (L + 1) + cnt lens (L + 1) i) * 2 ^ (15 - (L + 1))
        < (rfc_next_code count (L + 1) + count (L + 1)) * 2 ^ (15 - (L + 1)) :=
      Nat.mul_lt_mul_of_pos_right (by omega) hpos
    have e4 : (rfc_next_code count (L + 1) + count (L + 1)) * 2 ^ (15 - (L + 1))
        = rfc_next_code count (L + 1) * 2 ^ (15 - (L + 1))
          + count (L + 1) * 2 ^ (15 - (L + 1)) := by ring
    omega
  exact Nat.lt_of_mul_lt_mul_right hlt


theorem long_step_foldl_table (dls m base : Nat) (k : Nat) :
    ∀ (l : List Nat) (acc : (Nat → huff_code) × (Nat → Nat)), k ∉ l →
      (l.foldl (long_step dls m base) acc).1 k = acc.1 k := by
  intro l
  induction l with
  | nil => intro acc _; rfl
  | cons x l ih =>
    intro acc hk
    rw [List.foldl_cons, ih _ (fun c => hk (List.mem_cons_of_mem _ c))]
    show store acc.1 x _ k = acc.1 k
    exact store_other _ _ _ _ (fun e => hk (e ▸ List.mem_cons_self _ _))

theorem collect_step_foldl_subset (dls : Nat) (t : Nat → huff_code) (fb : Nat) :
    ∀ (l : List Nat) (acc : Nat × List Nat) (x : Nat),
      x ∈ (l.foldl (collect_step dls t fb) acc).2 → x ∈ acc.2 ∨ x ∈ l := by
  intro l
  induction l with
  | nil => intro acc x h; exact Or.inl h
  | cons y l ih =>
    intro acc x h
    rw [List.foldl_cons] at h
    rcases ih _ x h with h1 | h1
    · unfold collect_step at h1
      by_cases hc : (t y).code &&& ((1 <<< dls) - 1) = fb
      · rw [if_pos hc] at h1
        rcases List.mem_append.mp h1 with h2 | h2
        · exact Or.inl h2
        · rw [List.mem_singleton] at h2
          exact Or.inr (h2 ▸ List.mem_cons_self _ _)
      · rw [if_neg hc] at h1
        exact Or.inl h1
    · exact Or.inr (List.mem_cons_of_mem _ h1)

theorem collect_group_subset (dls : Nat) (t : Nat → huff_code) (list : List Nat) (i : Nat)
    (hi : i < list.length) (x : Nat) (h : x ∈ (collect_group dls t list i).2) : x ∈ list := by
  unfold collect_group at h
  rcases collect_step_foldl_subset dls t _ _ _ x h with h1 | h1
  · rw [List.mem_singleton] at h1
    rw [h1, List.getD_eq_getElem _ _ hi]
    exact List.getElem_mem _
  · exact List.mem_of_mem_drop h1

theorem long_codes_step_table (dls : Nat) (list : List Nat) (b : long_build) (i k : Nat)
    (hi : i < list.length) (hk : k ∉ list) :
    (long_codes_step dls list b i).table k = b.table k := by
  unfold long_codes_step
  split_ifs
  · rfl
  · exact long_step_foldl_table dls _ _ k _ _
      (fun c => hk (collect_group_subset dls b.table list i hi k c))

/-- The second loop of `make_inflate_huff_code` changes `huff_code_table` only
at the symbols of `long_code_list`. -/
theorem long_codes_table (dls : Nat) (list : List Nat) (b0 : long_build) (k : Nat)
    (hk : k ∉ list) (n : Nat) (hn : n ≤ list.length) :
    (long_codes dls list b0 n).table k = b0.table k := by
  induction n with
  | zero => rfl
  | succ n ih =>
    show (long_codes_step dls list (long_codes dls list b0 n) n).table k = _
    rw [long_codes_step_table dls list _ n k (by omega) hk, ih (by omega)]

/-- A symbol whose length is at most `DECODE_LOOKUP_SIZE` keeps, when
`make_inflate_huff_code` returns, the entry the first loop gave it. -/
theorem make_inflate_huff_code_short_kept (dls : Nat) (result : inflate_huff_code)
    (tbl : Nat → huff_code) (n : Nat) (count : Nat → Nat) (k : Nat)
    (hk : (tbl k).length ≤ dls) :
    (make_inflate_huff_code_second dls result tbl n count).table k
      = (make_inflate_huff_code_first dls result tbl n count).table k := by
  unfold make_inflate_huff_code_second
  apply long_codes_table _ _ _ _ _ _ (le_refl _)
  have h5 := (assign_codes_spec dls
    { next_code := next_code_init count, table := tbl, small := result.small_code_lookup,
      long_code_list := [] }
    (fun L => by
      cases L with
      | zero => show (0 : Nat) < 65536; norm_num
      | succ L => exact Nat.mod_lt _ (by norm_num)) rfl n).2.2.2.2
  unfold make_inflate_huff_code_first
  rw [h5]
  intro c
  have := (List.mem_filter.mp c).2
  simp only [decide_eq_true_eq] at this
  exact this.2 hk


/-- C16. Canonical code assignment: for a table of `n` code lengths of at
most 15 that satisfies the Kraft inequality, and a `count` array that agrees
with the histogram of the lengths on the indices 1 to 15 (`count[0]` is
free), the first loop of `make_inflate_huff_code` keeps the length of every
symbol `i` of non-zero length `L` and stores as its code the width-`L` bit
reversal of the RFC 1951 canonical code `rfc_code` (start values
`next_code[1] = 0`, `next_code[k] = (next_code[k-1] + count[k-1]) << 1`, plus
the number of earlier symbols of the same length); that code is below `2 ^ L`;
and a symbol with `L ≤ DECODE_LOOKUP_SIZE` still has this entry when the
function returns. -/
theorem canonical_code_assignment (dls : Nat) (result : inflate_huff_code)
    (tbl : Nat → huff_code) (n : Nat) (count : Nat → Nat)
    (h15 : ∀ j, j < n → (tbl j).length ≤ 15)
    (hk : kraft_sum (fun j => (tbl j).length) n ≤ 2 ^ 15)
    (hc : ∀ L, 1 ≤ L → L ≤ 15 → count L = cnt (fun j => (tbl j).length) L n)
    (i : Nat) (hi : i < n) (h0 : (tbl i).length ≠ 0) :
    ((make_inflate_huff_code_first dls result tbl n count).table i).length = (tbl i).length ∧
    ((make_inflate_huff_code_first dls result tbl n count).table i).code
      = reverse_bits (rfc_code count (fun j => (tbl j).length) i) (tbl i).length ∧
    rfc_code count (fun j => (tbl j).length) i < 2 ^ (tbl i).length ∧
    ((tbl i).length ≤ dls →
      (make_inflate_huff_code_second dls result tbl n count).table i
        = (make_inflate_huff_code_first dls result tbl n count).table i) := by
  have hs := assign_codes_spec dls
    { next_code := next_code_init count, table := tbl, small := result.small_code_lookup,
      long_code_list := [] }
    (fun L => by
      cases L with
      | zero => show (0 : Nat) < 65536; norm_num
      | succ L => exact Nat.mod_lt _ (by norm_num)) rfl n
  refine ⟨hs.2.1 i, ?_, ?_, make_inflate_huff_code_short_kept dls result tbl n count i⟩
  · have h3 := hs.2.2.1 i hi h0
    have h4 := code_at_rfc count (fun j => (tbl j).length) i (by
      show 1 ≤ (tbl i).length
      omega) (by
      show (tbl i).length ≤ 16
      have := h15 i hi
      omega)
    unfold make_inflate_huff_code_first
    rw [h3]
    exact h4
  · exact rfc_code_lt count (fun j => (tbl j).length) n i hi (by
      show 1 ≤ (tbl i).length
      omega) h15 hk hc

/-- C16 on the example of RFC 1951, section 3.2.2 (lengths 3, 3, 3, 3, 3, 2,
4, 4), with `count[0] = 5`: symbol 6 gets the reversal of the code 1110. -/
theorem canonical_code_assignment_witness :
    ((make_inflate_huff_code_first 9 blank_state.lit_huff_code canon_example_table 8
        canon_example_count).table 6).code
      = reverse_bits (rfc_code canon_example_count (fun j => (canon_example_table j).length) 6)
          (canon_example_table 6).length ∧
    rfc_code canon_example_count (fun j => (canon_example_table j).length) 6 = 14 ∧
    reverse_bits 14 4 = 7 :=
  ⟨(canonical_code_assignment 9 blank_state.lit_huff_code canon_example_table 8
      canon_example_count (by decide) (by decide)
      (by intro L h1 h2; interval_cases L <;> rfl) 6 (by decide) (by decide)).2.1,
    by decide, by decide⟩

theorem cl_slot_lt (hlit m : Nat) (h : m < 257 + hlit) : cl_slot hlit m = m := by
  unfold cl_slot; rw [if_pos h]

theorem cl_slot_ge (hlit m : Nat) (h : 257 + hlit ≤ m) :
    cl_slot hlit m = LIT_LEN + (m - (257 + hlit)) := by
  unfold cl_slot; rw [if_neg (by omega)]

theorem getD_append_one (acc : List Nat) (x i : Nat) :
    (acc ++ [x]).getD i 0 = if i = acc.length then x else acc.getD i 0 := by
  simp only [List.getD_eq_getElem?_getD, List.getElem?_append]
  by_cases h : i < acc.length
  · rw [if_pos h, if_neg (by omega)]
  · rw [if_neg h]
    by_cases h2 : i = acc.length
    · rw [if_pos h2, h2]; simp
    · rw [if_neg h2]
      have h3 : acc[i]? = none := List.getElem?_eq_none (by omega)
      have h4 : [x][i - acc.length]? = none := List.getElem?_eq_none (by simp; omega)
      rw [h3, h4]

/-- Appending one length to the flattened list writes one slot of the layout. -/
theorem cl_layout_append (hlit : Nat) (hl : hlit ≤ 29) (acc : List Nat) (x : Nat) :
    cl_layout hlit (acc ++ [x])
      = store (cl_layout hlit acc) (cl_slot hlit acc.length) { code := 0, length := x } := by
  funext p
  unfold cl_layout store cl_slot
  simp only [getD_append_one, LIT_LEN]
  split_ifs <;> first | rfl | (exfalso; omega)

theorem cl_layout_append_zero (hlit : Nat) (acc : List Nat) :
    cl_layout hlit (acc ++ [0]) = cl_layout hlit acc := by
  funext p
  unfold cl_layout
  simp only [getD_append_one]
  have h : ∀ i, (if i = acc.length then 0 else acc.getD i 0) = acc.getD i 0 := by
    intro i
    by_cases hi : i = acc.length
    · rw [if_pos hi, hi, List.getD_eq_default _ _ (le_refl _)]
    · rw [if_neg hi]
  simp only [h]

theorem cl_layout_slot (hlit : Nat) (hl : hlit ≤ 29) (e : List Nat) (j : Nat) :
    cl_layout hlit e (cl_slot hlit j) = { code := 0, length := e.getD j 0 } := by
  unfold cl_layout cl_slot
  simp only [LIT_LEN]
  by_cases hj : j < 257 + hlit
  · simp only [if_pos hj]
  · have e1 : ¬ (286 + (j - (257 + hlit)) < 257 + hlit) := by omega
    have e2 : 286 ≤ 286 + (j - (257 + hlit)) := by omega
    have e3 : 257 + hlit + (286 + (j - (257 + hlit)) - 286) = j := by omega
    simp only [if_neg hj, if_neg e1, if_pos e2, e3]


theorem count_single (x L : Nat) : [x].count L = if x = L then 1 else 0 := by
  by_cases h : x = L
  · rw [if_pos h, h]; simp
  · rw [if_neg h]
    have : ¬ (L = x) := fun e => h e.symm
    simp [List.count_singleton, h]

theorem take_count_append (acc : List Nat) (x K L : Nat) :
    ((acc ++ [x]).take K).count L
      = (acc.take K).count L + (if acc.length < K ∧ x = L then 1 else 0) := by
  rw [List.take_append_eq_append_take, List.count_append]
  congr 1
  by_cases h : acc.length < K
  · obtain ⟨d, hd⟩ : ∃ d, K - acc.length = d + 1 := ⟨K - acc.length - 1, by omega⟩
    rw [hd, List.take_succ_cons, List.take_nil, count_single]
    by_cases hx : x = L
    · rw [if_pos hx, if_pos ⟨h, hx⟩]
    · rw [if_neg hx, if_neg (fun c => hx c.2)]
  · have : K - acc.length = 0 := by omega
    rw [this, List.take_zero, if_neg (fun c => h c.1)]
    rfl

theorem drop_count_append (acc : List Nat) (x K L : Nat) :
    ((acc ++ [x]).drop K).count L
      = (acc.drop K).count L + (if K ≤ acc.length ∧ x = L then 1 else 0) := by
  rw [List.drop_append_eq_append_drop, List.count_append]
  congr 1
  by_cases h : K ≤ acc.length
  · have : K - acc.length = 0 := by omega
    rw [this, List.drop_zero, count_single]
    by_cases hx : x = L
    · rw [if_pos hx, if_pos ⟨h, hx⟩]
    · rw [if_neg hx, if_neg (fun c => hx c.2)]
  · obtain ⟨d, hd⟩ : ∃ d, K - acc.length = d + 1 := ⟨K - acc.length - 1, by omega⟩
    rw [hd, List.drop_succ_cons, List.drop_nil, if_neg (fun c => h c.1)]
    rfl

/-- The statement `count[len]++` keeps the two counters equal to the numbers of
literal/length and distance lengths, when `len` is the length appended. -/
theorem dyn_count_incr_counts (hlit : Nat) (acc : List Nat) (v : dyn_vars) (x : Nat)
    (hb : acc.length < 65535)
    (hlit_c : ∀ L, 1 ≤ L → v.lit_count L = (acc.take (257 + hlit)).count L)
    (hdist_c : ∀ L, 1 ≤ L → v.dist_count L = (acc.drop (257 + hlit)).count L)
    (hcid : v.count_is_dist = decide (257 + hlit ≤ acc.length)) :
    (∀ L, 1 ≤ L → (dyn_count_incr v x).lit_count L
      = ((acc ++ [x]).take (257 + hlit)).count L) ∧
    (∀ L, 1 ≤ L → (dyn_count_incr v x).dist_count L
      = ((acc ++ [x]).drop (257 + hlit)).count L) := by
  have b1 : ∀ L, (acc.take (257 + hlit)).count L ≤ acc.length :=
    fun L => le_trans (List.count_le_length _ _) (by rw [List.length_take]; omega)
  have b2 : ∀ L, (acc.drop (257 + hlit)).count L ≤ acc.length :=
    fun L => le_trans (List.count_le_length _ _) (by rw [List.length_drop]; omega)
  unfold dyn_count_incr
  by_cases hk : 257 + hlit ≤ acc.length
  · have hc : v.count_is_dist = true := by rw [hcid]; exact decide_eq_true hk
    rw [if_pos hc]
    constructor
    · intro L hL
      show v.lit_count L = _
      rw [take_count_append, if_neg (by omega), Nat.add_zero]
      exact hlit_c L hL
    · intro L hL
      show store v.dist_count x ((v.dist_count x + 1) % 65536) L = _
      rw [drop_count_append]
      by_cases hx : L = x
      · subst hx
        rw [store_same, if_pos ⟨hk, rfl⟩, hdist_c L hL]
        have := b2 L
        omega
      · rw [store_other _ _ _ _ hx, if_neg (fun c => hx c.2.symm), Nat.add_zero]
        exact hdist_c L hL
  · have hc : ¬ (v.count_is_dist = true) := by rw [hcid]; simp; omega
    rw [if_neg hc]
    constructor
    · intro L hL
      show store v.lit_count x ((v.lit_count x + 1) % 65536) L = _
      rw [take_count_append]
      by_cases hx : L = x
      · subst hx
        rw [store_same, if_pos ⟨by omega, rfl⟩, hlit_c L hL]
        have := b1 L
        omega
      · rw [store_other _ _ _ _ hx, if_neg (fun c => hx c.2.symm), Nat.add_zero]
        exact hlit_c L hL
    · intro L hL
      show v.dist_count L = _
      rw [drop_count_append, if_neg (fun c => hk c.1), Nat.add_zero]
      exact hdist_c L hL

/-- The cursor move of the repeat loops, after an entry has been appended. -/
theorem dyn_advance_inv (hlit : Nat) (hl : hlit ≤ 29) (acc : List Nat) (x : Nat) (v : dyn_vars)
    (htable : v.lit_and_dist_huff = cl_layout hlit (acc ++ [x]))
    (hprev : v.previous = some (cl_slot hlit acc.length))
    (hlit_c : ∀ L, 1 ≤ L → v.lit_count L = ((acc ++ [x]).take (257 + hlit)).count L)
    (hdist_c : ∀ L, 1 ≤ L → v.dist_count L = ((acc ++ [x]).drop (257 + hlit)).count L)
    (hcur : v.current = cl_slot hlit acc.length)
    (hcid : v.count_is_dist = decide (257 + hlit ≤ acc.length)) :
    DynInv hlit (acc ++ [x]) (dyn_advance hlit v) := by
  have hlen : (acc ++ [x]).length = acc.length + 1 := by simp
  unfold dyn_advance
  by_cases hm : acc.length = 256 + hlit
  · have hc : v.current = 256 + hlit := by rw [hcur, cl_slot_lt _ _ (by omega), hm]
    rw [if_pos hc]
    refine ⟨htable, ?_, hlit_c, hdist_c, ?_, ?_⟩
    · show v.previous = _
      rw [hprev, hlen, if_neg (by omega)]; rfl
    · show LIT_LEN = _
      rw [hlen, cl_slot_ge _ _ (by omega)]
      have : acc.length + 1 - (257 + hlit) = 0 := by omega
      rw [this]
      rfl
    · show true = _
      rw [hlen]
      exact (decide_eq_true (by omega)).symm
  · have hc : ¬ v.current = 256 + hlit := by
      rw [hcur]
      unfold cl_slot
      simp only [LIT_LEN]
      split_ifs <;> omega
    rw [if_neg hc]
    refine ⟨htable, ?_, hlit_c, hdist_c, ?_, ?_⟩
    · show v.previous = _
      rw [hprev, hlen, if_neg (by omega)]; rfl
    · show v.current + 1 = _
      rw [hcur, hlen]
      unfold cl_slot
      simp only [LIT_LEN]
      split_ifs <;> omega
    · show v.count_is_dist = _
      rw [hcid, hlen]
      by_cases hk : 257 + hlit ≤ acc.length
      · rw [decide_eq_true hk, decide_eq_true (show 257 + hlit ≤ acc.length + 1 by omega)]
      · rw [decide_eq_false hk, decide_eq_false (show ¬ 257 + hlit ≤ acc.length + 1 by omega)]


theorem DynInv.with_s {hlit : Nat} {acc : List Nat} {v : dyn_vars} (h : DynInv hlit acc v)
    (t : inflate_state) : DynInv hlit acc { v with s := t } :=
  ⟨h.table, h.prev, h.lit, h.dist, h.cur, h.cid⟩

theorem DynInv.pre {hlit : Nat} {acc : List Nat} {v : dyn_vars} (h : DynInv hlit acc v) :
    DynPre hlit acc v :=
  ⟨h.table, h.prev, h.lit, h.dist, Or.inl ⟨h.cur, h.cid⟩⟩

theorem dyn_enter_fields (hlit : Nat) (v : dyn_vars) :
    (dyn_enter hlit v).lit_and_dist_huff = v.lit_and_dist_huff ∧
    (dyn_enter hlit v).previous = v.previous ∧
    (dyn_enter hlit v).lit_count = v.lit_count ∧
    (dyn_enter hlit v).dist_count = v.dist_count ∧
    (dyn_enter hlit v).current = (if v.current = 257 + hlit then LIT_LEN else v.current) ∧
    (dyn_enter hlit v).count_is_dist
      = (if (if v.current = 257 + hlit then LIT_LEN else v.current) = LIT_LEN then true
          else v.count_is_dist) := by
  unfold dyn_enter
  by_cases h1 : v.current = 257 + hlit
  · refine ⟨?_, ?_, ?_, ?_, ?_, ?_⟩ <;> simp only [if_pos h1, if_true]
  · by_cases h2 : v.current = LIT_LEN
    · refine ⟨?_, ?_, ?_, ?_, ?_, ?_⟩ <;> simp only [if_neg h1, if_pos h2]
    · refine ⟨?_, ?_, ?_, ?_, ?_, ?_⟩ <;> simp only [if_neg h1, if_neg h2]

/-- The two tests that open a trip bring the cursor to the slot of the next
entry and `count` to the counter of that slot. -/
theorem dyn_enter_inv (hlit : Nat) (hl : hlit ≤ 29) (acc : List Nat) (v : dyn_vars)
    (h : DynPre hlit acc v) : DynInv hlit acc (dyn_enter hlit v) := by
  obtain ⟨f1, f2, f3, f4, f5, f6⟩ := dyn_enter_fields hlit v
  refine ⟨f1.trans h.table, f2.trans h.prev, fun L hL => by rw [f3]; exact h.lit L hL,
    fun L hL => by rw [f4]; exact h.dist L hL, ?_, ?_⟩
  · rw [f5]
    rcases h.cur with ⟨hc, _⟩ | ⟨hm, hc, _⟩
    · rw [hc]; unfold cl_slot; simp only [LIT_LEN]; split_ifs <;> omega
    · rw [hc, hm]; unfold cl_slot; simp only [LIT_LEN]; split_ifs <;> omega
  · rw [f6]
    rcases h.cur with ⟨hc, hd⟩ | ⟨hm, hc, hd⟩
    · rw [hc, hd]
      by_cases hk : 257 + hlit ≤ acc.length
      · rw [decide_eq_true hk]; simp
      · rw [decide_eq_false hk]
        have e1 : ¬ (if cl_slot hlit acc.length = 257 + hlit then LIT_LEN
            else cl_slot hlit acc.length) = LIT_LEN := by
          unfold cl_slot; simp only [LIT_LEN]; split_ifs <;> omega
        rw [if_neg e1]
    · rw [hc, if_pos rfl, if_pos rfl]
      exact (decide_eq_true (by omega)).symm

/-- A symbol below 16 appends itself to the lengths. -/
theorem dyn_set_length_inv (hlit : Nat) (hl : hlit ≤ 29) (acc : List Nat) (v : dyn_vars)
    (sym : Nat) (h : DynInv hlit acc v) (hs : sym < 16) (hb : acc.length < 65535) :
    DynPre hlit (acc ++ [sym]) (dyn_set_length v sym) := by
  have hlen : (acc ++ [sym]).length = acc.length + 1 := by simp
  have hc := dyn_count_incr_counts hlit acc v sym hb h.lit h.dist h.cid
  have k1 : (dyn_count_incr v sym).lit_and_dist_huff = v.lit_and_dist_huff := by
    unfold dyn_count_incr; split_ifs <;> rfl
  have k2 : (dyn_count_incr v sym).current = v.current := by
    unfold dyn_count_incr; split_ifs <;> rfl
  have k3 : (dyn_count_incr v sym).count_is_dist = v.count_is_dist := by
    unfold dyn_count_incr; split_ifs <;> rfl
  refine ⟨?_, ?_, hc.1, hc.2, ?_⟩
  · show store (dyn_count_incr v sym).lit_and_dist_huff (dyn_count_incr v sym).current
      { code := ((dyn_count_incr v sym).lit_and_dist_huff (dyn_count_incr v sym).current).code,
        length := sym % 256 } = _
    rw [k1, k2, h.table, h.cur, cl_layout_slot hlit hl, cl_layout_append hlit hl,
      Nat.mod_eq_of_lt (by omega)]
  · show some (dyn_count_incr v sym).current = _
    rw [k2, h.cur, hlen, if_neg (by omega)]; rfl
  · show ((dyn_count_incr v sym).current + 1 = _ ∧ (dyn_count_incr v sym).count_is_dist = _) ∨
      (_ ∧ (dyn_count_incr v sym).current + 1 = _ ∧ (dyn_count_incr v sym).count_is_dist = _)
    rw [k2, k3, h.cur, h.cid, hlen]
    by_cases hm : acc.length + 1 = 257 + hlit
    · right
      refine ⟨hm, ?_, decide_eq_false (by omega)⟩
      rw [cl_slot_lt _ _ (by omega)]; exact hm
    · left
      constructor
      · unfold cl_slot; simp only [LIT_LEN]; split_ifs <;> omega
      · by_cases hk : 257 + hlit ≤ acc.length
        · rw [decide_eq_true hk, decide_eq_true (show 257 + hlit ≤ acc.length + 1 by omega)]
        · rw [decide_eq_false hk, decide_eq_false (show ¬ 257 + hlit ≤ acc.length + 1 by omega)]

theorem getLast_getD (acc : List Nat) (l : Nat) (h : acc.getLast? = some l) :
    acc.length ≠ 0 ∧ acc.getD (acc.length - 1) 0 = l := by
  rw [List.getLast?_eq_getElem?] at h
  constructor
  · intro c
    rw [List.length_eq_zero] at c
    rw [c] at h
    simp at h
  · rw [List.getD_eq_getElem?_getD, h]; rfl

theorem dyn_count_incr_fields (v : dyn_vars) (len : Nat) :
    (dyn_count_incr v len).lit_and_dist_huff = v.lit_and_dist_huff ∧
    (dyn_count_incr v len).current = v.current ∧
    (dyn_count_incr v len).count_is_dist = v.count_is_dist ∧
    (dyn_count_incr v len).previous = v.previous := by
  unfold dyn_count_incr
  split_ifs <;> exact ⟨rfl, rfl, rfl, rfl⟩

/-- One trip of the loop of symbol 16 appends the last length. -/
theorem dyn_repeat_previous_step (hlit : Nat) (hl : hlit ≤ 29) (acc : List Nat) (w : dyn_vars)
    (l : Nat) (h : DynInv hlit acc w) (hlast : acc.getLast? = some l)
    (hb : acc.length < 65535) :
    DynInv hlit (acc ++ [l])
      (dyn_advance hlit
        { (dyn_count_incr
            { w with lit_and_dist_huff :=
                store w.lit_and_dist_huff w.current (w.lit_and_dist_huff (w.previous.getD 0)) }
            (w.lit_and_dist_huff (w.previous.getD 0)).length) with
          previous := some (dyn_count_incr
            { w with lit_and_dist_huff :=
                store w.lit_and_dist_huff w.current (w.lit_and_dist_huff (w.previous.getD 0)) }
            (w.lit_and_dist_huff (w.previous.getD 0)).length).current }) := by
  obtain ⟨g1, g2⟩ := getLast_getD acc l hlast
  have hprev : w.lit_and_dist_huff (w.previous.getD 0) = { code := 0, length := l } := by
    rw [h.prev, if_neg g1, h.table]
    show cl_layout hlit acc (cl_slot hlit (acc.length - 1)) = _
    rw [cl_layout_slot hlit hl, g2]
  rw [hprev]
  obtain ⟨f1, f2, f3, _⟩ := dyn_count_incr_fields
    { w with lit_and_dist_huff := store w.lit_and_dist_huff w.current { code := 0, length := l } } l
  have hc := dyn_count_incr_counts hlit acc
    { w with lit_and_dist_huff := store w.lit_and_dist_huff w.current { code := 0, length := l } }
    l hb h.lit h.dist h.cid
  apply dyn_advance_inv hlit hl acc l
  · show (dyn_count_incr _ l).lit_and_dist_huff = _
    rw [f1]
    show store w.lit_and_dist_huff w.current _ = _
    rw [h.table, h.cur, cl_layout_append hlit hl]
  · show some (dyn_count_incr _ l).current = _
    rw [f2]
    show some w.current = _
    rw [h.cur]
  · exact hc.1
  · exact hc.2
  · show (dyn_count_incr _ l).current = _
    rw [f2]
    exact h.cur
  · show (dyn_count_incr _ l).count_is_dist = _
    rw [f3]
    exact h.cid

/-- The loop of symbol 16 appends `n` copies of the last length. -/
theorem dyn_repeat_previous_inv (hlit : Nat) (hl : hlit ≤ 29) (acc : List Nat) (v : dyn_vars)
    (l : Nat) (h : DynInv hlit acc v) (hlast : acc.getLast? = some l) (n : Nat)
    (hb : acc.length + n < 65536) :
    DynInv hlit (acc ++ List.replicate n l) (dyn_repeat_previous hlit v n) ∧
      (acc ++ List.replicate n l).getLast? = some l := by
  induction n with
  | zero =>
    rw [List.replicate_zero, List.append_nil]
    exact ⟨h, hlast⟩
  | succ n ih =>
    obtain ⟨i1, i2⟩ := ih (by omega)
    have e : acc ++ List.replicate (n + 1) l = (acc ++ List.replicate n l) ++ [l] := by
      rw [List.replicate_succ', List.append_assoc]
    rw [e]
    refine ⟨?_, by simp⟩
    exact dyn_repeat_previous_step hlit hl _ _ l i1 i2 (by
      rw [List.length_append, List.length_replicate]; omega)

/-- The loops of symbols 17 and 18 append `n` zeros. -/
theorem dyn_repeat_zero_inv (hlit : Nat) (hl : hlit ≤ 29) (acc : List Nat) (v : dyn_vars)
    (h : DynInv hlit acc v) (n : Nat) :
    DynInv hlit (acc ++ List.replicate n 0) (dyn_repeat_zero hlit v n) := by
  induction n with
  | zero =>
    rw [List.replicate_zero, List.append_nil]
    exact h
  | succ n ih =>
    have e : acc ++ List.replicate (n + 1) 0 = (acc ++ List.replicate n 0) ++ [0] := by
      rw [List.replicate_succ', List.append_assoc]
    rw [e]
    generalize acc ++ List.replicate n 0 = acc1 at ih ⊢
    show DynInv hlit (acc1 ++ [0])
      (dyn_advance hlit { dyn_repeat_zero hlit v n with
        previous := some (dyn_repeat_zero hlit v n).current })
    generalize dyn_repeat_zero hlit v n = w at ih ⊢
    apply dyn_advance_inv hlit hl acc1 0
    · show w.lit_and_dist_huff = _
      rw [cl_layout_append_zero, ih.table]
    · show some w.current = _
      rw [ih.cur]
    · intro L hL
      show w.lit_count L = _
      rw [take_count_append, if_neg (by omega), Nat.add_zero]
      exact ih.lit L hL
    · intro L hL
      show w.dist_count L = _
      rw [drop_count_append, if_neg (by omega), Nat.add_zero]
      exact ih.dist L hL
    · exact ih.cur
    · exact ih.cid


/-- One trip of the main loop of `setup_dynamic_header` appends the
expansion of the symbol it reads. -/
theorem dyn_body_expand (dls : Nat) (code : inflate_huff_code) (hlit : Nat) (hl : hlit ≤ 29)
    (acc : List Nat) (v : dyn_vars) (p : Nat × Nat) (s1 : inflate_state) (acc1 : List Nat)
    (h : DynPre hlit acc v) (hr : cl_read_symbol dls code v.s = some (p, s1))
    (he : rfc_expand_one acc p = some acc1) (hb : acc1.length < 65536) :
    ∃ w, dyn_body dls code hlit v = DynStep.next w ∧ w.s = s1 ∧ DynPre hlit acc1 w := by
  unfold dyn_body
  simp only []
  have hs := dyn_enter_s hlit v
  have hinv := dyn_enter_inv hlit hl acc v h
  generalize dyn_enter hlit v = v2 at hs hinv ⊢
  rw [hs]
  unfold cl_read_symbol at hr
  simp only [] at hr
  generalize decode_next dls v.s code = r at hr ⊢
  by_cases c0 : r.2.read_in_length < 0
  · rw [if_pos c0] at hr
    exact absurd hr (by simp)
  · rw [if_neg c0] at hr ⊢
    unfold rfc_expand_one at he
    by_cases c1 : r.1 < 16
    · rw [if_pos c1] at hr ⊢
      simp only [Option.some.injEq, Prod.mk.injEq] at hr
      obtain ⟨hp, hs1⟩ := hr
      rw [← hp] at he
      rw [if_pos c1] at he
      simp only [Option.some.injEq] at he
      rw [← he] at hb ⊢
      rw [List.length_append, List.length_singleton] at hb
      exact ⟨_, rfl, (dyn_set_length_s _ _).trans hs1,
        dyn_set_length_inv hlit hl acc _ r.1 (hinv.with_s r.2) c1 (by omega)⟩
    · rw [if_neg c1] at hr ⊢
      by_cases c2 : r.1 = 16
      · rw [if_pos c2] at hr ⊢
        simp only [Option.some.injEq, Prod.mk.injEq] at hr
        obtain ⟨hp, hs1⟩ := hr
        rw [← hp] at he
        rw [if_neg (by norm_num), if_pos rfl] at he
        cases hlast : acc.getLast? with
        | none => rw [hlast] at he; exact absurd he (by simp)
        | some l =>
          rw [hlast] at he
          simp only [Option.some.injEq] at he
          rw [← he] at hb ⊢
          rw [List.length_append, List.length_replicate] at hb
          have hne : ¬ ({ v2 with s := r.2 } : dyn_vars).previous = none := by
            show ¬ v2.previous = none
            rw [hinv.prev, if_neg (getLast_getD acc l hlast).1]
            simp
          rw [if_neg hne]
          exact ⟨_, rfl, (dyn_repeat_previous_s _ _ _).trans hs1,
            (dyn_repeat_previous_inv hlit hl acc _ l
              ((hinv.with_s r.2).with_s (inflate_in_read_bits r.2 2).2) hlast _
              (by omega)).1.pre⟩
      · rw [if_neg c2] at hr ⊢
        by_cases c3 : r.1 = 17
        · rw [if_pos c3] at hr ⊢
          simp only [Option.some.injEq, Prod.mk.injEq] at hr
          obtain ⟨hp, hs1⟩ := hr
          rw [← hp] at he
          rw [if_neg (by norm_num), if_neg (by norm_num), if_pos rfl] at he
          simp only [Option.some.injEq] at he
          rw [← he]
          exact ⟨_, rfl, (dyn_repeat_zero_s _ _ _).trans hs1,
            (dyn_repeat_zero_inv hlit hl acc _
              ((hinv.with_s r.2).with_s (inflate_in_read_bits r.2 3).2) _).pre⟩
        · rw [if_neg c3] at hr ⊢
          by_cases c4 : r.1 = 18
          · rw [if_pos c4] at hr ⊢
            simp only [Option.some.injEq, Prod.mk.injEq] at hr
            obtain ⟨hp, hs1⟩ := hr
            rw [← hp] at he
            rw [if_neg (by norm_num), if_neg (by norm_num), if_neg (by norm_num),
              if_pos rfl] at he
            simp only [Option.some.injEq] at he
            rw [← he]
            exact ⟨_, rfl, (dyn_repeat_zero_s _ _ _).trans hs1,
              (dyn_repeat_zero_inv hlit hl acc _
                ((hinv.with_s r.2).with_s (inflate_in_read_bits r.2 7).2) _).pre⟩
          · rw [if_neg c4] at hr
            exact absurd hr (by simp)


theorem rfc_expand_one_length (acc : List Nat) (p : Nat × Nat) (acc1 : List Nat)
    (h : rfc_expand_one acc p = some acc1) : acc.length + 1 ≤ acc1.length := by
  unfold rfc_expand_one at h
  split_ifs at h
  · simp only [Option.some.injEq] at h
    rw [← h]; simp
  · cases hlast : acc.getLast? with
    | none => rw [hlast] at h; exact absurd h (by simp)
    | some l =>
      rw [hlast] at h
      simp only [Option.some.injEq] at h
      rw [← h, List.length_append, List.length_replicate]; omega
  · simp only [Option.some.injEq] at h
    rw [← h, List.length_append, List.length_replicate]; omega
  · simp only [Option.some.injEq] at h
    rw [← h, List.length_append, List.length_replicate]; omega

theorem rfc_expand_cons (acc : List Nat) (p : Nat × Nat) (rest : List (Nat × Nat))
    (e : List Nat) (h : rfc_expand acc (p :: rest) = some e) :
    ∃ acc1, rfc_expand_one acc p = some acc1 ∧ rfc_expand acc1 rest = some e := by
  rw [rfc_expand] at h
  cases h1 : rfc_expand_one acc p with
  | none => rw [h1] at h; exact absurd h (by simp)
  | some acc1 => rw [h1] at h; exact ⟨acc1, rfl, h⟩

theorem rfc_expand_length (syms : List (Nat × Nat)) :
    ∀ (acc e : List Nat), rfc_expand acc syms = some e → acc.length + syms.length ≤ e.length := by
  induction syms with
  | nil =>
    intro acc e h
    rw [rfc_expand] at h
    simp only [Option.some.injEq] at h
    rw [h]; simp
  | cons p rest ih =>
    intro acc e h
    obtain ⟨acc1, h1, h2⟩ := rfc_expand_cons acc p rest e h
    have := ih acc1 e h2
    have := rfc_expand_one_length acc p acc1 h1
    rw [List.length_cons]
    omega

theorem cl_symbols_cons (dls : Nat) (code : inflate_huff_code) (k : Nat) (s t : inflate_state)
    (p : Nat × Nat) (rest : List (Nat × Nat))
    (h : cl_symbols dls code (k + 1) s = some (p :: rest, t)) :
    ∃ s1, cl_read_symbol dls code s = some (p, s1) ∧ cl_symbols dls code k s1 = some (rest, t) := by
  rw [cl_symbols] at h
  cases h1 : cl_read_symbol dls code s with
  | none => rw [h1] at h; exact absurd h (by simp)
  | some q =>
    obtain ⟨q1, s1⟩ := q
    rw [h1] at h
    simp only [] at h
    cases h2 : cl_symbols dls code k s1 with
    | none => rw [h2] at h; exact absurd h (by simp)
    | some r =>
      obtain ⟨l, t1⟩ := r
      rw [h2] at h
      simp only [Option.some.injEq, Prod.mk.injEq, List.cons.injEq] at h
      obtain ⟨⟨e1, e2⟩, e3⟩ := h
      refine ⟨s1, by rw [e1], ?_⟩
      rw [h2, e2, e3]

/-- The main loop of `setup_dynamic_header`, from variables that hold the
lengths `acc`, on symbols whose expansion completes `acc` to exactly
`hlit + 257 + hdist + 1` lengths `e`: it ends with the variables holding `e`. -/
theorem dyn_loop_expand (dls : Nat) (code : inflate_huff_code) (hlit hdist : Nat)
    (hl : hlit ≤ 29) (hd : hdist ≤ 29) (syms : List (Nat × Nat)) :
    ∀ (acc : List Nat) (v : dyn_vars) (e : List Nat) (t : inflate_state) (fuel : Nat),
      DynPre hlit acc v →
      cl_symbols dls code syms.length v.s = some (syms, t) →
      rfc_expand acc syms = some e →
      e.length = hlit + 257 + hdist + 1 →
      syms.length < fuel →
      ∃ w, dyn_loop dls code hlit hdist fuel v = some (Status.DECOMPRESSION_FINISHED, w) ∧
        w.s = t ∧ DynPre hlit e w := by
  induction syms with
  | nil =>
    intro acc v e t fuel hpre hsym hexp hlen hfuel
    obtain ⟨f, hf⟩ : ∃ f, fuel = f + 1 := ⟨fuel - 1, by simp at hfuel; omega⟩
    rw [rfc_expand] at hexp
    simp only [Option.some.injEq] at hexp
    rw [hexp] at hpre
    have hc : ¬ v.current < LIT_LEN + hdist + 1 := by
      rcases hpre.cur with ⟨h1, _⟩ | ⟨h1, _, _⟩
      · rw [h1, hlen, cl_slot_ge _ _ (by omega)]
        simp only [LIT_LEN]; omega
      · omega
    have ht : v.s = t := by
      have : cl_symbols dls code 0 v.s = some ([], v.s) := rfl
      rw [List.length_nil, this] at hsym
      simp only [Option.some.injEq, Prod.mk.injEq, true_and] at hsym
      exact hsym
    rw [hf, dyn_loop, if_neg hc]
    exact ⟨v, rfl, ht, hpre⟩
  | cons p rest ih =>
    intro acc v e t fuel hpre hsym hexp hlen hfuel
    obtain ⟨f, hf⟩ : ∃ f, fuel = f + 1 := ⟨fuel - 1, by omega⟩
    rw [List.length_cons] at hsym hfuel
    obtain ⟨s1, hr, hrest⟩ := cl_symbols_cons dls code _ _ _ _ _ hsym
    obtain ⟨acc1, h1, h2⟩ := rfc_expand_cons acc p rest e hexp
    have b1 := rfc_expand_length rest acc1 e h2
    have b2 := rfc_expand_one_length acc p acc1 h1
    obtain ⟨w1, hbody, hs1, hpre1⟩ := dyn_body_expand dls code hlit hl acc v p s1 acc1 hpre hr h1
      (by omega)
    have hc : v.current < LIT_LEN + hdist + 1 := by
      rcases hpre.cur with ⟨h3, _⟩ | ⟨_, h3, _⟩
      · rw [h3]; unfold cl_slot; simp only [LIT_LEN]; split_ifs <;> omega
      · rw [h3]; simp only [LIT_LEN]; omega
    rw [hf, dyn_loop, if_pos hc, hbody]
    exact ih acc1 w1 e t f hpre1 (by rw [hs1]; exact hrest) h2 hlen (by omega)


theorem inflate_in_read_bits_lt (s : inflate_state) (n : Nat) :
    (inflate_in_read_bits s n).1 < 2 ^ n := by
  unfold inflate_in_read_bits
  simp only []
  rw [one_shiftLeft_sub_one_and]
  exact Nat.mod_lt _ (Nat.two_pow_pos n)

/-- The extra bits read with a code-length symbol are in the range of the
repeat counts of RFC 1951: 3 to 6, 3 to 10, 11 to 138. -/
theorem cl_read_symbol_range (dls : Nat) (code : inflate_huff_code) (s s1 : inflate_state)
    (p : Nat × Nat) (h : cl_read_symbol dls code s = some (p, s1)) :
    (p.1 < 16 ∧ p.2 = 0) ∨ (p.1 = 16 ∧ p.2 < 4) ∨ (p.1 = 17 ∧ p.2 < 8) ∨
      (p.1 = 18 ∧ p.2 < 128) := by
  unfold cl_read_symbol at h
  simp only [] at h
  split_ifs at h with c0 c1 c2 c3 c4
  · simp only [Option.some.injEq, Prod.mk.injEq] at h
    rw [← h.1]
    exact Or.inl ⟨c1, rfl⟩
  · simp only [Option.some.injEq, Prod.mk.injEq] at h
    rw [← h.1]
    exact Or.inr (Or.inl ⟨rfl, inflate_in_read_bits_lt _ 2⟩)
  · simp only [Option.some.injEq, Prod.mk.injEq] at h
    rw [← h.1]
    exact Or.inr (Or.inr (Or.inl ⟨rfl, inflate_in_read_bits_lt _ 3⟩))
  · simp only [Option.some.injEq, Prod.mk.injEq] at h
    rw [← h.1]
    exact Or.inr (Or.inr (Or.inr ⟨rfl, inflate_in_read_bits_lt _ 7⟩))

theorem cl_symbols_range (dls : Nat) (code : inflate_huff_code) (syms : List (Nat × Nat)) :
    ∀ (s t : inflate_state), cl_symbols dls code syms.length s = some (syms, t) →
      ∀ p, p ∈ syms → (p.1 < 16 ∧ p.2 = 0) ∨ (p.1 = 16 ∧ p.2 < 4) ∨ (p.1 = 17 ∧ p.2 < 8) ∨
        (p.1 = 18 ∧ p.2 < 128) := by
  induction syms with
  | nil => intro s t _ p hp; exact absurd hp (List.not_mem_nil p)
  | cons q rest ih =>
    intro s t h p hp
    rw [List.length_cons] at h
    obtain ⟨s1, hr, hrest⟩ := cl_symbols_cons dls code _ _ _ _ _ h
    rcases List.mem_cons.mp hp with e | hp1
    · rw [e]; exact cl_read_symbol_range dls code s s1 q hr
    · exact ih s1 t hrest p hp1

theorem dyn_start_pre (hlit : Nat) (s : inflate_state) : DynPre hlit [] (dyn_start s) := by
  refine ⟨?_, rfl, fun L _ => by rw [List.take_nil]; rfl, fun L _ => by rw [List.drop_nil]; rfl,
    Or.inl ⟨?_, ?_⟩⟩
  · funext p
    show zero_huff_table p = cl_layout hlit [] p
    unfold cl_layout zero_huff_table
    simp
  · show 0 = cl_slot hlit 0
    rw [cl_slot_lt _ _ (by omega)]
  · show false = decide (257 + hlit ≤ 0)
    exact (decide_eq_false (by omega)).symm

theorem cl_layout_lit (hlit : Nat) (e : List Nat) (i : Nat) (h : i < hlit + 257) :
    (cl_layout hlit e i).length = e.getD i 0 := by
  show (if i < 257 + hlit then _ else _) = _
  rw [if_pos (by omega)]

theorem cl_layout_gap (hlit : Nat) (e : List Nat) (i : Nat) (h1 : hlit + 257 ≤ i)
    (h2 : i < LIT_LEN) : (cl_layout hlit e i).length = 0 := by
  show (if i < 257 + hlit then _ else if LIT_LEN ≤ i then _ else 0) = 0
  rw [if_neg (by omega), if_neg (by omega)]

theorem cl_layout_dist (hlit : Nat) (hl : hlit ≤ 29) (e : List Nat) (j : Nat) :
    (cl_layout hlit e (LIT_LEN + j)).length = e.getD (hlit + 257 + j) 0 := by
  show (if LIT_LEN + j < 257 + hlit then _
    else if LIT_LEN ≤ LIT_LEN + j then e.getD (257 + hlit + (LIT_LEN + j - LIT_LEN)) 0 else 0) = _
  have e1 : ¬ (LIT_LEN + j < 257 + hlit) := by simp only [LIT_LEN]; omega
  have e2 : 257 + hlit + (LIT_LEN + j - LIT_LEN) = hlit + 257 + j := by omega
  rw [if_neg e1, if_pos (by omega), e2]


/-- C17. Dynamic-header run-length decoding matches RFC 1951.  For
`hlit ≤ 29`, `hdist ≤ 29`, let `syms` be the code-length symbols, with their
extra bits, that the input holds at the state `s` (`cl_symbols`), and let
their run-length expansion `rfc_expand` (0 to 15: that length; 16: the last
length of the flattened sequence 3 to 6 times; 17: 3 to 10 zeros; 18: 11 to
138 zeros) have exactly `hlit + 257 + hdist + 1` entries `e`.  Then the main
loop of `setup_dynamic_header`, with more fuel than symbols, ends normally
after reading just these symbols, and leaves `lit_and_dist_huff[i].length =
e[i]` for `i < hlit + 257`, length 0 for `hlit + 257 ≤ i < LIT_LEN`,
`lit_and_dist_huff[LIT_LEN + j].length = e[hlit + 257 + j]` for `j ≤ hdist`,
and `lit_count[L]`, `dist_count[L]` equal to the number of literal/length and
of distance lengths `L`, for `L` from 1 to 15; these are the arrays
`setup_dynamic_header` then hands to `make_inflate_huff_code`. -/
theorem dynamic_lengths_run_length (dls : Nat) (code : inflate_huff_code) (hlit hdist : Nat)
    (s : inflate_state) (syms : List (Nat × Nat)) (e : List Nat) (fuel : Nat)
    (hl : hlit ≤ 29) (hd : hdist ≤ 29)
    (hsym : (cl_symbols dls code syms.length s).map Prod.fst = some syms)
    (hexp : rfc_expand [] syms = some e)
    (hlen : e.length = hlit + 257 + hdist + 1)
    (hfuel : syms.length < fuel) :
    ∃ w, dyn_loop dls code hlit hdist fuel (dyn_start s)
        = some (Status.DECOMPRESSION_FINISHED, w) ∧
      (cl_symbols dls code syms.length s).map Prod.snd = some w.s ∧
      (∀ i, i < hlit + 257 → (w.lit_and_dist_huff i).length = e.getD i 0) ∧
      (∀ i, hlit + 257 ≤ i → i < LIT_LEN → (w.lit_and_dist_huff i).length = 0) ∧
      (∀ j, j ≤ hdist → (w.lit_and_dist_huff (LIT_LEN + j)).length = e.getD (hlit + 257 + j) 0) ∧
      (∀ L, 1 ≤ L → L ≤ 15 →
        w.lit_count L = (e.take (hlit + 257)).count L ∧
        w.dist_count L = (e.drop (hlit + 257)).count L) ∧
      (∀ p, p ∈ syms → (p.1 < 16 ∧ p.2 = 0) ∨ (p.1 = 16 ∧ p.2 < 4) ∨ (p.1 = 17 ∧ p.2 < 8) ∨
        (p.1 = 18 ∧ p.2 < 128)) ∧
      (∀ s0, s = (dyn_code_lengths s0).s → code = code_length_table dls s0 →
        hlit = (inflate_in_read_bits s0 5).1 % 256 →
        hdist = (inflate_in_read_bits (inflate_in_read_bits s0 5).2 5).1 % 256 →
        ¬ (dyn_code_lengths s0).s.read_in_length < 0 →
        setup_dynamic_header dls fuel s0 = some (dyn_finish dls w)) := by
  cases hc : cl_symbols dls code syms.length s with
  | none => rw [hc] at hsym; exact absurd hsym (by simp)
  | some r =>
    obtain ⟨l, t⟩ := r
    rw [hc] at hsym
    simp only [Option.map_some', Option.some.injEq] at hsym
    rw [hsym] at hc
    obtain ⟨w, hloop, hs, hpre⟩ := dyn_loop_expand dls code hlit hdist hl hd syms [] (dyn_start s)
      e t fuel (dyn_start_pre hlit s) hc hexp hlen hfuel
    have e257 : 257 + hlit = hlit + 257 := Nat.add_comm _ _
    refine ⟨w, hloop, by simp only [Option.map_some', hs], ?_, ?_, ?_, ?_,
      cl_symbols_range dls code syms s t hc, ?_⟩
    · intro i hi
      rw [hpre.table]
      exact cl_layout_lit hlit e i hi
    · intro i h1 h2
      rw [hpre.table]
      exact cl_layout_gap hlit e i h1 h2
    · intro j _
      rw [hpre.table]
      exact cl_layout_dist hlit hl e j
    · intro L h1 _
      rw [← e257]
      exact ⟨hpre.lit L h1, hpre.dist L h1⟩
    · intro s0 e1 e2 e3 e4 h0
      unfold setup_dynamic_header
      simp only []
      rw [if_neg h0]
      unfold code_length_table at e2
      rw [← e1, ← e2, ← e3, ← e4, hloop]


set_option maxRecDepth 1000000 in
set_option maxHeartbeats 4000000 in
/-- C17 on `run_length_stream`: the four code-length symbols 18, 18, 2, 16
expand to 254 zeros and four lengths 2; the repeat of symbol 16 runs over the
end of the literal/length lengths, so `lit_and_dist_huff[254..256]` and
`lit_and_dist_huff[LIT_LEN]` get the length 2, with `lit_count[2] = 3` and
`dist_count[2] = 1`. -/
theorem dynamic_lengths_run_length_witness :
    ∃ w, dyn_loop 10 (code_length_table 10 (first_header_state run_length_stream 0)) 0 0 5
        (dyn_start (dyn_code_lengths (first_header_state run_length_stream 0)).s)
        = some (Status.DECOMPRESSION_FINISHED, w) ∧
      (w.lit_and_dist_huff 253).length = 0 ∧ (w.lit_and_dist_huff 254).length = 2 ∧
      (w.lit_and_dist_huff 256).length = 2 ∧ (w.lit_and_dist_huff 257).length = 0 ∧
      (w.lit_and_dist_huff 286).length = 2 ∧ w.lit_count 2 = 3 ∧ w.dist_count 2 = 1 ∧
      setup_dynamic_header 10 5 (first_header_state run_length_stream 0)
        = some (dyn_finish 10 w) := by
  obtain ⟨w, h1, _, h3, h4, h5, h6, _, h8⟩ :=
    dynamic_lengths_run_length 10 (code_length_table 10 (first_header_state run_length_stream 0))
      0 0 (dyn_code_lengths (first_header_state run_length_stream 0)).s
      [(18, 127), (18, 105), (2, 0), (16, 0)] run_length_lengths 5
      (by decide) (by decide) (by decide!) (by decide!) (by decide!) (by decide)
  exact ⟨w, h1, (h3 253 (by decide)).trans (by decide!), (h3 254 (by decide)).trans (by decide!),
    (h3 256 (by decide)).trans (by decide!), h4 257 (by decide) (by decide),
    (h5 0 (by decide)).trans (by decide!), (h6 2 (by decide) (by decide)).1.trans (by decide!),
    (h6 2 (by decide) (by decide)).2.trans (by decide!),
    h8 (first_header_state run_length_stream 0) rfl rfl (by decide!) (by decide!) (by decide!)⟩

/-- The gathering loop of `make_inflate_huff_code` does not look at the mark:
when `first_bits` is all ones, a symbol already handled (code `0xFFFF`) is
stored in `temp_code_list` again. -/
theorem collect_step_marked (dls : Nat) (hd : dls ≤ 16) (table : Nat → huff_code)
    (acc : Nat × List Nat) (sym : Nat) (h : (table sym).code = 0xFFFF) :
    (collect_step dls table ((1 <<< dls) - 1) acc sym).2 = acc.2 ++ [sym] := by
  unfold collect_step
  have e : (table sym).code &&& ((1 <<< dls) - 1) = (1 <<< dls) - 1 := by
    rw [h]
    interval_cases dls <;> decide
  rw [if_pos e]

/-- The bit fields of the value `offset | (max_length << 9) | 0x8000` that
`make_inflate_huff_code` stores for a long-code group, when `offset` fits in
nine bits and `max_length` is at most 15. -/
theorem pointer_entry_bits (o m : Nat) (ho : o ≤ 511) (hm : m ≤ 15) :
    ((o ||| (m <<< 9) ||| 0x8000) % 65536).testBit 15 = true ∧
    (((o ||| (m <<< 9) ||| 0x8000) % 65536) >>> 9) % 32 = m ∧
    ((o ||| (m <<< 9) ||| 0x8000) % 65536) % 512 = o := by
  have e1 : o ||| (m <<< 9) = 512 * m + o := or_shift9 o m (by omega)
  have e2 : (512 * m + o) ||| 0x8000 = 2 ^ 15 * 1 + (512 * m + o) := by
    rw [Nat.lor_comm]
    exact (Nat.mul_add_lt_is_or (show 512 * m + o < 2 ^ 15 by omega) 1).symm
  rw [e1, e2, Nat.testBit_to_div_mod, Nat.shiftRight_eq_div_pow]
  refine ⟨?_, ?_, ?_⟩
  · rw [decide_eq_true_eq]; omega
  · omega
  · omega

/-- The store of line 216: when the trip `i` of the second loop starts with
an unmarked symbol, `long_code_lookup_length ≤ 511` and gathers a
`max_length ≤ 15`, the entry it writes at `first_bits` has bit 15 set, the
bits 9 to 13 equal to `max_length` and the bits 0 to 8 equal to
`long_code_lookup_length`, and the region of the group is the next
`1 << (max_length - DECODE_LOOKUP_SIZE)` entries of `long_code_lookup`. -/
theorem long_codes_step_entry (dls : Nat) (list : List Nat) (b : long_build) (i : Nat)
    (h : (b.table (list.getD i 0)).code ≠ 0xFFFF)
    (ho : b.long_code_lookup_length ≤ 511)
    (hm : (collect_group dls b.table list i).1 ≤ 15) :
    ((long_codes_step dls list b i).small
        ((b.table (list.getD i 0)).code &&& ((1 <<< dls) - 1))).testBit 15 = true ∧
    ((long_codes_step dls list b i).small
        ((b.table (list.getD i 0)).code &&& ((1 <<< dls) - 1)) >>> 9) % 32
      = (collect_group dls b.table list i).1 ∧
    (long_codes_step dls list b i).small
        ((b.table (list.getD i 0)).code &&& ((1 <<< dls) - 1)) % 512
      = b.long_code_lookup_length ∧
    (long_codes_step dls list b i).long_code_lookup_length
      = b.long_code_lookup_length + (1 <<< ((collect_group dls b.table list i).1 - dls)) := by
  unfold long_codes_step
  rw [if_neg h]
  simp only [store_same]
  obtain ⟨p1, p2, p3⟩ := pointer_entry_bits _ _ ho hm
  exact ⟨p1, p2, p3, trivial⟩


/-- Symbols of length 0 at the end of the table are passed over by the first
loop of `make_inflate_huff_code`. -/
theorem assign_codes_trailing (dls : Nat) (b0 : huff_build)
    (hnc : ∀ L, b0.next_code L < 65536) (hl0 : b0.long_code_list = []) (n m : Nat)
    (hnm : n ≤ m) (h : ∀ i, i < m → n ≤ i → (b0.table i).length = 0) :
    assign_codes dls b0 m = assign_codes dls b0 n := by
  induction m with
  | zero =>
    have : n = 0 := by omega
    rw [this]
  | succ m ih =>
    by_cases hm : n = m + 1
    · rw [hm]
    · have i1 := ih (by omega) (fun i hi hn => h i (by omega) hn)
      have hl : ((assign_codes dls b0 m).table m).length = 0 := by
        rw [(assign_codes_spec dls b0 hnc hl0 m).2.1 m]
        exact h m (by omega) (by omega)
      show assign_step dls (assign_codes dls b0 m) m = _
      unfold assign_step
      simp only [hl]
      rw [if_neg (by simp)]
      exact i1

theorem make_inflate_huff_code_first_trailing (dls : Nat) (result : inflate_huff_code)
    (tbl : Nat → huff_code) (count : Nat → Nat) (n m : Nat) (hnm : n ≤ m)
    (h : ∀ i, i < m → n ≤ i → (tbl i).length = 0) :
    make_inflate_huff_code_first dls result tbl m count
      = make_inflate_huff_code_first dls result tbl n count := by
  unfold make_inflate_huff_code_first
  exact assign_codes_trailing dls _
    (fun L => by
      cases L with
      | zero => show (0 : Nat) < 65536; norm_num
      | succ L => exact Nat.mod_lt _ (by norm_num)) rfl n m hnm h

theorem kraft_sum_trailing (lens : Nat → Nat) (n m : Nat) (hnm : n ≤ m)
    (h : ∀ i, i < m → n ≤ i → lens i = 0) : kraft_sum lens m = kraft_sum lens n := by
  induction m with
  | zero =>
    have : n = 0 := by omega
    rw [this]
  | succ m ih =>
    by_cases hm : n = m + 1
    · rw [hm]
    · show kraft_sum lens m + (if lens m = 0 then 0 else 2 ^ (15 - lens m)) = _
      rw [if_pos (h m (by omega) (by omega)), Nat.add_zero]
      exact ih (by omega) (fun i hi hn => h i (by omega) hn)

theorem long_group_trailing (dls : Nat) (result : inflate_huff_code)
    (tbl : Nat → huff_code) (count : Nat → Nat) (n m : Nat) (hnm : n ≤ m)
    (h : ∀ i, i < m → n ≤ i → (tbl i).length = 0) (first_bits : Nat) :
    long_group dls result tbl m count first_bits
      = long_group dls result tbl n count first_bits := by
  unfold long_group
  rw [make_inflate_huff_code_first_trailing dls result tbl count n m hnm h]

theorem long_group_trip_trailing (dls : Nat) (result : inflate_huff_code)
    (tbl : Nat → huff_code) (count : Nat → Nat) (n m : Nat) (hnm : n ≤ m)
    (h : ∀ i, i < m → n ≤ i → (tbl i).length = 0) :
    long_group_trip dls result tbl m count = long_group_trip dls result tbl n count := by
  funext i
  unfold long_group_trip long_codes_at
  rw [make_inflate_huff_code_first_trailing dls result tbl count n m hnm h]

theorem pointer_entry_fields_trailing (dls : Nat) (result : inflate_huff_code)
    (tbl : Nat → huff_code) (count : Nat → Nat) (n m : Nat) (hnm : n ≤ m)
    (h : ∀ i, i < m → n ≤ i → (tbl i).length = 0) (first_bits : Nat) :
    pointer_entry_fields dls result tbl m count first_bits
      = pointer_entry_fields dls result tbl n count first_bits := by
  unfold pointer_entry_fields make_inflate_huff_code make_inflate_huff_code_second
  rw [make_inflate_huff_code_first_trailing dls result tbl count n m hnm h]

theorem getD_append_zeros (l : List Nat) (k i : Nat) (h : l.length ≤ i) :
    (l ++ List.replicate k 0).getD i 0 = 0 := by
  rw [List.getD_eq_getElem?_getD, List.getElem?_append_right h]
  by_cases hk : i - l.length < k
  · rw [List.getElem?_replicate_of_lt hk]; rfl
  · rw [List.getElem?_eq_none (by rw [List.length_replicate]; omega)]; rfl

theorem straddle_lengths_10_tail :
    ∀ i, i < LIT_LEN → 71 ≤ i → (table_of_lengths straddle_lengths_10 i).length = 0 := by
  intro i _ h
  exact getD_append_zeros _ 215 i h

theorem straddle_lengths_9_tail :
    ∀ i, i < LIT_LEN → 133 ≤ i → (table_of_lengths straddle_lengths_9 i).length = 0 := by
  intro i _ h
  exact getD_append_zeros _ 153 i h

set_option maxRecDepth 1000000 in
set_option maxHeartbeats 4000000 in
theorem straddle_lengths_10_kraft :
    straddle_lengths_10.length = LIT_LEN ∧
    (∀ L ∈ straddle_lengths_10, L ≤ 15) ∧
    kraft_sum (fun i => straddle_lengths_10.getD i 0) LIT_LEN = 2 ^ 15 := by
  refine ⟨by decide!, by decide!, ?_⟩
  rw [kraft_sum_trailing (fun i => straddle_lengths_10.getD i 0) 71 LIT_LEN (by decide)
    straddle_lengths_10_tail]
  decide!

set_option maxRecDepth 1000000 in
set_option maxHeartbeats 4000000 in
theorem straddle_lengths_9_kraft :
    straddle_lengths_9.length = LIT_LEN ∧
    (∀ L ∈ straddle_lengths_9, L ≤ 15) ∧
    kraft_sum (fun i => straddle_lengths_9.getD i 0) LIT_LEN = 2 ^ 15 := by
  refine ⟨by decide!, by decide!, ?_⟩
  rw [kraft_sum_trailing (fun i => straddle_lengths_9.getD i 0) 133 LIT_LEN (by decide)
    straddle_lengths_9_tail]
  decide!

set_option maxRecDepth 1000000 in
set_option maxHeartbeats 4000000 in
theorem straddle_lengths_10_group :
    long_group 10 zero_code (table_of_lengths straddle_lengths_10) LIT_LEN
        (histogram straddle_lengths_10) 1023
      = (4 :: List.range' 31 31, 15) := by
  rw [long_group_trailing 10 _ _ _ 71 LIT_LEN (by decide) straddle_lengths_10_tail]
  decide!

set_option maxRecDepth 1000000 in
set_option maxHeartbeats 4000000 in
theorem straddle_lengths_9_group :
    long_group 9 zero_code (table_of_lengths straddle_lengths_9) LIT_LEN
        (histogram straddle_lengths_9) 511
      = (5 :: List.range' 63 63, 15) := by
  rw [long_group_trailing 9 _ _ _ 133 LIT_LEN (by decide) straddle_lengths_9_tail]
  decide!

set_option maxRecDepth 1000000 in
set_option maxHeartbeats 4000000 in
theorem straddle_lengths_10_trips :
    (List.range 5).map (long_group_trip 10 zero_code (table_of_lengths straddle_lengths_10)
        LIT_LEN (histogram straddle_lengths_10))
      = [(0, 895, [0, 5], 0), (1, 255, 1 :: List.range' 6 3, 2), (2, 767, 2 :: List.range' 9 7, 6),
         (3, 511, 3 :: List.range' 16 15, 14), (4, 1023, List.range' 4 58, 30)] := by
  rw [long_group_trip_trailing 10 _ _ _ 71 LIT_LEN (by decide) straddle_lengths_10_tail]
  decide!

set_option maxRecDepth 1000000 in
set_option maxHeartbeats 4000000 in
theorem straddle_lengths_9_trips :
    (List.range 6).map (long_group_trip 9 zero_code (table_of_lengths straddle_lengths_9)
        LIT_LEN (histogram straddle_lengths_9))
      = [(0, 191, [0, 6], 0), (1, 447, 1 :: List.range' 7 3, 2), (2, 127, 2 :: List.range' 10 7, 6),
           (3, 383, 3 :: List.range' 17 15, 14), (4, 255, 4 :: List.range' 32 31, 30),
           (5, 511, List.range' 5 121, 62)] := by
  rw [long_group_trip_trailing 9 _ _ _ 133 LIT_LEN (by decide) straddle_lengths_9_tail]
  decide!

set_option maxRecDepth 1000000 in
set_option maxHeartbeats 4000000 in
theorem straddle_lengths_10_entry :
    pointer_entry_fields 10 zero_code (table_of_lengths straddle_lengths_10) LIT_LEN
        (histogram straddle_lengths_10) 1023 = (true, 15, 30) := by
  rw [pointer_entry_fields_trailing 10 _ _ _ 71 LIT_LEN (by decide) straddle_lengths_10_tail]
  decide!

set_option maxRecDepth 1000000 in
set_option maxHeartbeats 4000000 in
theorem straddle_lengths_9_entry :
    pointer_entry_fields 9 zero_code (table_of_lengths straddle_lengths_9) LIT_LEN
        (histogram straddle_lengths_9) 511 = (true, 15, 62) := by
  rw [pointer_entry_fields_trailing 9 _ _ _ 133 LIT_LEN (by decide) straddle_lengths_9_tail]
  decide!

/-- C21. The pointer entry of a long-code group is not reached by defined
steps for every length vector of the claim: the gathering loop of
`make_inflate_huff_code` writes past the end of `temp_code_list` before the
entry is stored.  The gathering test does not look at the mark `0xFFFF`, so a
group whose `first_bits` are all ones stores every symbol handled before that
stands later in `long_code_list`.  `straddle_lengths_10` has 286 lengths, all
at most 15, with Kraft sum exactly 1.  With `DECODE_LOOKUP_SIZE = 10` its
long-code group of `first_bits = 1023` has exactly the 32 symbols 4 and 31 to
61, of length 15; the trips 0 to 3 of the second loop handle the groups of the
symbols 0 to 3 (regions at the offsets 0, 2, 6, 14), and trip 4, which is the
one that stores `small_code_lookup[1023]`, puts 58 symbols in
`temp_code_list`, an array of `1 << (15 - DECODE_LOOKUP_SIZE)` = 32 elements.
With `DECODE_LOOKUP_SIZE = 9` the same happens on `straddle_lengths_9`: the
group of `first_bits = 511` has 64 symbols and trip 5 stores 121 symbols in
the 64 elements.  In the embedding, where `temp_code_list` is a list without
bound, the two entries come out as bit 15 set, maximum length 15 and offsets
30 and 62; and whenever a trip starts with an unmarked symbol,
`long_code_lookup_length ≤ 511` and gathers `max_length ≤ 15`, the entry it
stores has bit 15 set, `max_length` in the bits 9 to 13 and
`long_code_lookup_length` in the bits 0 to 8. -/
theorem long_group_gather_overflow :
    (∀ (dls : Nat), dls ≤ 16 → ∀ (table : Nat → huff_code) (acc : Nat × List Nat) (sym : Nat),
      (table sym).code = 0xFFFF →
      (collect_step dls table ((1 <<< dls) - 1) acc sym).2 = acc.2 ++ [sym]) ∧
    (straddle_lengths_10.length = LIT_LEN ∧
      (∀ L ∈ straddle_lengths_10, L ≤ 15) ∧
      kraft_sum (fun i => straddle_lengths_10.getD i 0) LIT_LEN = 2 ^ 15 ∧
      long_group 10 zero_code (table_of_lengths straddle_lengths_10) LIT_LEN
          (histogram straddle_lengths_10) 1023
        = (4 :: List.range' 31 31, 15) ∧
      (4 :: List.range' 31 31).length = 1 <<< (15 - 10) ∧
      (List.range 5).map (long_group_trip 10 zero_code (table_of_lengths straddle_lengths_10)
          LIT_LEN (histogram straddle_lengths_10))
        = [(0, 895, [0, 5], 0), (1, 255, 1 :: List.range' 6 3, 2),
           (2, 767, 2 :: List.range' 9 7, 6), (3, 511, 3 :: List.range' 16 15, 14),
           (4, 1023, List.range' 4 58, 30)] ∧
      1 <<< (15 - 10) < (List.range' 4 58).length ∧
      pointer_entry_fields 10 zero_code (table_of_lengths straddle_lengths_10) LIT_LEN
          (histogram straddle_lengths_10) 1023 = (true, 15, 30)) ∧
    (straddle_lengths_9.length = LIT_LEN ∧
      (∀ L ∈ straddle_lengths_9, L ≤ 15) ∧
      kraft_sum (fun i => straddle_lengths_9.getD i 0) LIT_LEN = 2 ^ 15 ∧
      long_group 9 zero_code (table_of_lengths straddle_lengths_9) LIT_LEN
          (histogram straddle_lengths_9) 511
        = (5 :: List.range' 63 63, 15) ∧
      (5 :: List.range' 63 63).length = 1 <<< (15 - 9) ∧
      (List.range 6).map (long_group_trip 9 zero_code (table_of_lengths straddle_lengths_9)
          LIT_LEN (histogram straddle_lengths_9))
        = [(0, 191, [0, 6], 0), (1, 447, 1 :: List.range' 7 3, 2), (2, 127, 2 :: List.range' 10 7, 6),
           (3, 383, 3 :: List.range' 17 15, 14), (4, 255, 4 :: List.range' 32 31, 30),
           (5, 511, List.range' 5 121, 62)] ∧
      1 <<< (15 - 9) < (List.range' 5 121).length ∧
      pointer_entry_fields 9 zero_code (table_of_lengths straddle_lengths_9) LIT_LEN
          (histogram straddle_lengths_9) 511 = (true, 15, 62)) ∧
    (∀ (dls : Nat) (list : List Nat) (b : long_build) (i : Nat),
      (b.table (list.getD i 0)).code ≠ 0xFFFF →
      b.long_code_lookup_length ≤ 511 →
      (collect_group dls b.table list i).1 ≤ 15 →
      ((long_codes_step dls list b i).small
          ((b.table (list.getD i 0)).code &&& ((1 <<< dls) - 1))).testBit 15 = true ∧
      ((long_codes_step dls list b i).small
          ((b.table (list.getD i 0)).code &&& ((1 <<< dls) - 1)) >>> 9) % 32
        = (collect_group dls b.table list i).1 ∧
      (long_codes_step dls list b i).small
          ((b.table (list.getD i 0)).code &&& ((1 <<< dls) - 1)) % 512
        = b.long_code_lookup_length ∧
      (long_codes_step dls list b i).long_code_lookup_length
        = b.long_code_lookup_length
          + (1 <<< ((collect_group dls b.table list i).1 - dls))) :=
  ⟨fun dls hd table acc sym h => collect_step_marked dls hd table acc sym h,
   ⟨straddle_lengths_10_kraft.1, straddle_lengths_10_kraft.2.1, straddle_lengths_10_kraft.2.2,
    straddle_lengths_10_group, by decide, straddle_lengths_10_trips, by decide,
    straddle_lengths_10_entry⟩,
   ⟨straddle_lengths_9_kraft.1, straddle_lengths_9_kraft.2.1, straddle_lengths_9_kraft.2.2,
    straddle_lengths_9_group, by decide, straddle_lengths_9_trips, by decide,
    straddle_lengths_9_entry⟩,
   fun dls list b i h ho hm => long_codes_step_entry dls list b i h ho hm⟩

end Igzip
